import Mathlib

/-!
Verification of the palrvs repository: a shallow embedding of
`boolexprsimplifier.py` (Quine-McCluskey prime implicant extraction and
Petrick's method), the analysis loop of `pete.py`, and the assembler /
JEDEC writer of `simplegalasm.py`, together with proofs and refutations
of the specification's claims.
-/

namespace PalRvs

/-! ## Model of src/boolexprsimplifier.py

`ImplicantTable.Attrs` holds a covered-minterm set and a was-combined flag.
Python dictionaries are modelled as association lists that preserve
insertion order; updating an existing key keeps its position (Python dict
semantics). The don't-care implicants' attrs are never read (their
sentinel covered set `{-1}` is unused), so they are modelled as a plain
insertion-ordered list of patterns. -/

structure TrueAttrs where
  covered : Finset Nat
  wasCombined : Bool
deriving DecidableEq

structure ImplicantTable where
  trueImplicants : List (Nat × TrueAttrs)
  dontcareImplicants : List Nat
deriving DecidableEq

/-- Association-list lookup, first match (Python dict lookup). -/
def lookupTrue : List (Nat × TrueAttrs) → Nat → Option TrueAttrs
  | [], _ => none
  | (q, a) :: rest, p => if q = p then some a else lookupTrue rest p

/-- Python dict assignment `d[p] = a`: replace in place, else append. -/
def insertTrue : List (Nat × TrueAttrs) → Nat → TrueAttrs → List (Nat × TrueAttrs)
  | [], p, a => [(p, a)]
  | (q, b) :: rest, p, a =>
      if q = p then (q, a) :: rest else (q, b) :: insertTrue rest p a

/-- `attrs.mark_as_combined()` on the entry with pattern `p`. -/
def markCombinedIn (l : List (Nat × TrueAttrs)) (p : Nat) : List (Nat × TrueAttrs) :=
  l.map (fun qa => if qa.1 = p then (qa.1, ⟨qa.2.covered, true⟩) else qa)

/-- Python dict assignment into the don't-care dict (value unused). -/
def insertDc (l : List Nat) (p : Nat) : List Nat :=
  if p ∈ l then l else l ++ [p]

/-- `ImplicantTable.set_implicants`: dict comprehensions over the input
term lists; on duplicate keys the first occurrence keeps its position and
the value of the last occurrence wins (for true implicants, the covered
set `{i}` of the last index). -/
def setImplicants (minterms dontcareterms : List Nat) : ImplicantTable :=
  { trueImplicants :=
      minterms.enum.foldl (fun acc im => insertTrue acc im.2 ⟨{im.1}, false⟩) []
    dontcareImplicants := dontcareterms.foldl insertDc [] }

/-- The worklist `_pending_implicanttables`: a `defaultdict` keyed by mask,
insertion-ordered. -/
abbrev Pending := List (Nat × ImplicantTable)

/-- `self._pending_implicanttables[mask].add_true_implicant(pat, cov)`:
find or create (append) the table for `mask`, then dict-assign. -/
def pendingAddTrue : Pending → Nat → Nat → Finset Nat → Pending
  | [], mask, pat, cov => [(mask, ⟨[(pat, ⟨cov, false⟩)], []⟩)]
  | (m, t) :: rest, mask, pat, cov =>
      if m = mask then
        (m, { t with trueImplicants := insertTrue t.trueImplicants pat ⟨cov, false⟩ }) :: rest
      else (m, t) :: pendingAddTrue rest mask pat cov

/-- `self._pending_implicanttables[mask].add_dontcare_implicant(pat)`. -/
def pendingAddDc : Pending → Nat → Nat → Pending
  | [], mask, pat => [(mask, ⟨[], [pat]⟩)]
  | (m, t) :: rest, mask, pat =>
      if m = mask then
        (m, { t with dontcareImplicants := insertDc t.dontcareImplicants pat }) :: rest
      else (m, t) :: pendingAddDc rest mask pat

/-- A prime implicant record `(pattern, mask, covered_minterms)`. -/
abbrev PI := Nat × Nat × Finset Nat

structure QmState where
  tbl : ImplicantTable
  pend : Pending

/-- Body of the `for _ in range(self._numvars)` bit loop for one true
implicant `pat` (with snapshot covered set `cov`) of the table with the
given `mask`: try to combine with `pat ^^^ (1 <<< j)`. -/
def combineStep (mask pat : Nat) (cov : Finset Nat) (st : QmState) (j : Nat) : QmState :=
  let bit := 1 <<< j
  if mask &&& bit ≠ 0 then
    let partner := pat ^^^ bit
    match lookupTrue st.tbl.trueImplicants partner with
    | some pa =>
        { tbl := { st.tbl with
            trueImplicants := markCombinedIn (markCombinedIn st.tbl.trueImplicants pat) partner }
          pend := pendingAddTrue st.pend (mask ^^^ bit) (pat &&& (mask ^^^ bit))
                    (cov ∪ pa.covered) }
    | none =>
        if partner ∈ st.tbl.dontcareImplicants then
          { tbl := { st.tbl with trueImplicants := markCombinedIn st.tbl.trueImplicants pat }
            pend := pendingAddTrue st.pend (mask ^^^ bit) (pat &&& (mask ^^^ bit)) cov }
        else st
  else st

/-- Process one true implicant popped from the FIFO snapshot: run the bit
loop, then emit it as a prime implicant if its (shared) attrs were never
marked combined. A missing lookup cannot happen (entries are never
removed); the `none` arm conservatively does not emit. -/
def processOneTrue (numvars mask pat : Nat) (cov : Finset Nat)
    (acc : QmState × List PI) : QmState × List PI :=
  let st2 := (List.range numvars).foldl (combineStep mask pat cov) acc.1
  let comb := match lookupTrue st2.tbl.trueImplicants pat with
    | some a => a.wasCombined
    | none => true
  if comb then (st2, acc.2) else (st2, acc.2 ++ [(pat, mask, cov)])

/-- The first `while len(impls) > 0` loop: traverse the snapshot of the
true implicants in FIFO order. -/
def processTrues (numvars mask : Nat) (t : ImplicantTable) (P : Pending) :
    QmState × List PI :=
  t.trueImplicants.foldl
    (fun acc pa => processOneTrue numvars mask pa.1 pa.2.covered acc)
    (⟨t, P⟩, [])

/-- Body of the bit loop for one don't-care implicant. -/
def dcCombineStep (mask pat : Nat) (t : ImplicantTable) (P : Pending) (j : Nat) : Pending :=
  let bit := 1 <<< j
  if mask &&& bit ≠ 0 then
    let partner := pat ^^^ bit
    if pat ∈ t.dontcareImplicants ∧ partner ∈ t.dontcareImplicants then
      pendingAddDc P (mask ^^^ bit) (pat &&& (mask ^^^ bit))
    else P
  else P

/-- The second `while len(impls) > 0` loop over the don't-care snapshot. -/
def processDcs (numvars mask : Nat) (t : ImplicantTable) (P : Pending) : Pending :=
  t.dontcareImplicants.foldl
    (fun acc pat => (List.range numvars).foldl (dcCombineStep mask pat t) acc) P

/-- The outer `while len(self._pending_implicanttables) > 0` loop of
`_compute_prime_implicants`: pop the first pending table (insertion
order), process its true implicants, then its don't-cares. The Python
loop terminates because combination strictly reduces the mask popcount;
the fuel below is large enough that it is never exhausted. -/
def qmLoop (numvars : Nat) : Nat → Pending → List PI → List PI
  | 0, _, acc => acc
  | _ + 1, [], acc => acc
  | fuel + 1, (mask, t) :: rest, acc =>
      let ste := processTrues numvars mask t rest
      let P2 := processDcs numvars mask ste.1.tbl ste.1.pend
      qmLoop numvars fuel P2 (acc ++ ste.2)

def qmFuel (numvars : Nat) : Nat := (numvars + 1) ^ numvars + 1

/-- `QuineMcCluskeyAlgorithm.prime_implicants` for the given inputs. -/
def primeImplicants (numvars : Nat) (minterms dontcareterms : List Nat) : List PI :=
  qmLoop numvars (qmFuel numvars)
    [((1 <<< numvars) - 1, setImplicants minterms dontcareterms)] []

/-! ### PetricksMethod -/

/-- Indices of the prime implicants covering `mintermidx`
(the `mintermidxs` set of `_compute_product_of_sums`). -/
def coveredBySet (primes : List PI) (mintermidx : Nat) : Finset Nat :=
  ((primes.enum.filter (fun ip => mintermidx ∈ ip.2.2.2)).map Prod.fst).toFinset

structure MintermInfo where
  idx : Nat
  coveredBy : Finset Nat
  absorbed : Bool
deriving DecidableEq

/-- One iteration of the minterm loop of `_compute_product_of_sums`:
compare the new sum against every existing one, applying the absorption
law in both directions, then append the new record. -/
def absorbStep (primes : List PI) (infos : List MintermInfo) (mintermidx : Nat) :
    List MintermInfo :=
  let cb := coveredBySet primes mintermidx
  let newAbsorbed := infos.any (fun info => decide (info.coveredBy ⊆ cb))
  let infos2 := infos.map (fun info =>
    if info.coveredBy ⊆ cb then info
    else if cb ⊆ info.coveredBy then ⟨info.idx, info.coveredBy, true⟩ else info)
  infos2 ++ [⟨mintermidx, cb, newAbsorbed⟩]

/-- The union of all covered-minterm sets, iterated in ascending order
(CPython iterates the set of small ints in hash order; the final result
set of Petrick's method is independent of this order, see the theorems). -/
def allMintermIdxs (primes : List PI) : List Nat :=
  (primes.foldl (fun acc p => acc ∪ p.2.2) (∅ : Finset Nat)).sort (· ≤ ·)

/-- `_compute_product_of_sums`: the surviving sums, each a list of
singleton prime-implicant index sets. -/
def computeProductOfSums (primes : List PI) : List (List (Finset Nat)) :=
  let infos := (allMintermIdxs primes).foldl (absorbStep primes) []
  infos.filterMap (fun info =>
    if info.absorbed then none
    else some ((info.coveredBy.sort (· ≤ ·)).map (fun i => ({i} : Finset Nat))))

/-- The inner for-else of `_simplify`: scan the accumulator for the first
element comparable with `term`; replace it, drop `term`, or append. -/
def simplifyInsert (term : Finset Nat) : List (Finset Nat) → List (Finset Nat)
  | [] => [term]
  | t2 :: rest =>
      if term ⊆ t2 then term :: rest
      else if t2 ⊆ term then t2 :: rest
      else t2 :: simplifyInsert term rest

/-- `PetricksMethod._simplify`. -/
def simplifySum (sumterm : List (Finset Nat)) : List (Finset Nat) :=
  sumterm.foldl (fun acc t => simplifyInsert t acc) []

/-- `_convert_pos_to_sop`: fold-multiply the sums left to right with
absorption after each step (`X*X = X` is automatic via set union). -/
def multiplyOut : List (List (Finset Nat)) → List (Finset Nat)
  | [] => []
  | s0 :: rest =>
      rest.foldl (fun sumterm sum2 =>
        simplifySum (sumterm.flatMap (fun a => sum2.map (fun b => a ∪ b)))) s0

/-- The tagged result of `PetricksMethod.simplest_results` /
`simplify_minterms` (Python returns `True`, `False`, or a list). -/
inductive SimpResult where
  | isTrue : SimpResult
  | isFalse : SimpResult
  | covers : List (List (Nat × Nat)) → SimpResult
deriving DecidableEq, Repr

/-- `int.bit_count()`: number of set bits. -/
def bitCount (n : Nat) : Nat :=
  if n = 0 then 0 else bitCount (n / 2) + n % 2
decreasing_by exact Nat.div_lt_self (Nat.pos_of_ne_zero (by assumption)) one_lt_two

/-- Sum of `mask.bit_count()` over the products of a result. -/
def literalCount (result : List (Nat × Nat)) : Nat :=
  (result.map (fun pm => bitCount pm.2)).sum

/-- Python `min` over a non-empty list. -/
def listMin : List Nat → Nat
  | [] => 0
  | x :: xs => xs.foldl min x

/-- The shared tail of `_compute_simplest_results`: keep the products of
minimum length; if more than one, keep those of minimum literal count. -/
def simplestGeneral (primes : List PI) (sop : List (Finset Nat)) : SimpResult :=
  let minlen := listMin (sop.map Finset.card)
  let results := sop.filterMap (fun p =>
    if p.card = minlen then
      some ((p.sort (· ≤ ·)).map
        (fun i => ((primes.getD i (0, 0, ∅)).1, (primes.getD i (0, 0, ∅)).2.1)))
    else none)
  if results.length > 1 then
    let minlit := listMin (results.map literalCount)
    .covers (results.filter (fun r => literalCount r = minlit))
  else .covers results

/-- `_compute_simplest_results`. -/
def computeSimplestResults (primes : List PI) (sop : List (Finset Nat)) : SimpResult :=
  match sop with
  | [] => .isFalse
  | p0 :: rest =>
      if rest.length = 0 ∧ p0.card = 1 then
        let i := (p0.sort (· ≤ ·)).headD 0
        if (primes.getD i (0, 0, ∅)).2.1 = 0 then .isTrue
        else simplestGeneral primes (p0 :: rest)
      else simplestGeneral primes (p0 :: rest)

/-- `PetricksMethod(...).simplest_results`. -/
def petrickSimplestResults (primes : List PI) : SimpResult :=
  computeSimplestResults primes (multiplyOut (computeProductOfSums primes))

/-- `simplify_minterms`. -/
def simplifyMinterms (numvars : Nat) (minterms dontcareterms : List Nat) : SimpResult :=
  petrickSimplestResults (primeImplicants numvars minterms dontcareterms)


/-! ## Model of src/pete.py

The dump is modelled as a function from EPROM address to the byte read
there (the script indexes `dumpdata[addr]` with `addr < 2 ^ 18`). -/

def genBitmask (numbits : Nat) : Nat := (1 <<< numbits) - 1

/-- `epromaddrbitpos_to_palpinnum`. -/
def epromaddrbitposToPalpinnum (b : Nat) : Nat := if b ≤ 8 then b + 1 else b + 2

/-- `palpinnum_to_epromaddrbitpos`. -/
def palpinnumToEpromaddrbitpos (p : Nat) : Nat := if p ≤ 9 then p - 1 else p - 2

/-- `epromdatabitpos_to_palpinnum`. -/
def epromdatabitposToPalpinnum (d : Nat) : Nat := d + 12

/-- The high-z probe address bit of output pin bit position `p`
(`1 << palpinnum_to_epromaddrbitpos(epromdatabitpos_to_palpinnum(p))`,
i.e. `1 << (p + 10)`). -/
def probeAddrBit (p : Nat) : Nat :=
  1 <<< palpinnumToEpromaddrbitpos (epromdatabitposToPalpinnum p)

/-- The address built by the dependency loop: the lower `bitpos` bits of
`i`, a zero at position `bitpos`, then the upper bits of `i` shifted up. -/
def addrOf (i bitpos : Nat) : Nat :=
  let maskLeft := genBitmask (17 - bitpos) <<< bitpos
  let maskRight := genBitmask bitpos
  ((i &&& maskLeft) <<< 1) ||| (i &&& maskRight)

/-- Does toggling the high-z probe bit change data bit `p` at `addr`?
(`highz_on_bitclear` / `highz_on_bitset`, evaluated at the given address;
the script clears/sets the probe bit of `addr`, which for addresses below
`2 ^ 18` is `addr &&& ~probe` and `addr ||| probe`). -/
def highzOn (dump : Nat → Nat) (p addr : Nat) : Bool :=
  (dump (addr &&& (genBitmask 18 ^^^ probeAddrBit p)) &&& (1 <<< p)) ≠
    (dump (addr ||| probeAddrBit p) &&& (1 <<< p))

/-- Does iteration `(i, bitpos)` of the dependency-discovery loop set bit
`bitpos` in `depends_map[p]`? -/
def dependsHit (dump : Nat → Nat) (p i bitpos : Nat) : Bool :=
  if epromaddrbitposToPalpinnum bitpos = epromdatabitposToPalpinnum p then false
  else
    ((dump (addrOf i bitpos) &&& (1 <<< p)) ≠
        (dump (addrOf i bitpos ||| (1 <<< bitpos)) &&& (1 <<< p)))
      && !(highzOn dump p (addrOf i bitpos))
      && !(highzOn dump p (addrOf i bitpos ||| (1 <<< bitpos)))

/-- The final value of `depends_map[p]`: the loop ORs `1 << bitpos` into
the map entry whenever `dependsHit` holds (the eight output pins' map
cells are updated independently, so the per-pin fold is the interleaved
loop of the script restricted to pin `p`). -/
def dependsMap (dump : Nat → Nat) (p : Nat) : Nat :=
  (List.range (2 ^ 17)).foldl (fun acc i =>
    (List.range 18).foldl (fun acc2 bitpos =>
      if dependsHit dump p i bitpos then acc2 ||| (1 <<< bitpos) else acc2) acc) 0

/-- "Pin `p` is driven at address `a`": toggling the probe bit `p + 10`
does not change data bit `p` (the claim\'s formulation). -/
def drivenAt (dump : Nat → Nat) (p a : Nat) : Prop :=
  dump a &&& (1 <<< p) = dump (a ^^^ probeAddrBit p) &&& (1 <<< p)

/-! ### The start of the pete.py script (for the dump-length check)

Before checking the dump length, the script opens both output files and
writes the equations header and the PIN lines; the length check
`len(dumpdata) != 262144` comes only after that. -/

def peteEquationsHeader (stem : String) : String :=
  "Name " ++ stem ++ ";\n" ++ "Device G16V8MA;\n" ++ "Partno ;\n" ++
  "Revision ;\n" ++ "Date ;\n" ++ "Designer ;\n" ++ "Company ;\n" ++
  "Assembly ;\n" ++ "Location ;\n"

/-- Default pin names `pin1..pin9, pin11..pin19` in pin-number order. -/
def defaultPinNames : List (Nat × String) :=
  ((List.range' 1 9) ++ (List.range' 11 9)).map (fun k => (k, "pin" ++ toString k))

def pinLines (pins : List (Nat × String)) : String :=
  String.join (pins.map (fun ns => "PIN " ++ toString ns.1 ++ "=" ++ ns.2 ++ ";\n"))

/-- Contents of the two output files at each stop point of the script
prologue. `fatalLength` carries the file contents already written when
the dump-length `RuntimeError` is raised. -/
inductive PeteProlog where
  | fatalLength : (truthtable : String) → (equations : String) → PeteProlog
  | proceeds : (truthtable : String) → (equations : String) → PeteProlog
deriving DecidableEq

/-- The script prologue: open both files (empty), write the equations
header and PIN lines, then check the dump length. -/
def petePrologue (stem : String) (pins : List (Nat × String)) (dump : List Nat) :
    PeteProlog :=
  let eqContent := peteEquationsHeader stem ++ pinLines pins
  if dump.length ≠ 262144 then .fatalLength "" eqContent
  else .proceeds "" eqContent


/-! ## Lemmas and theorems for pete.py (claims C6, C7) -/

/-- `testBit` through a fold whose step either keeps the accumulator or
ORs something into it. -/
theorem testBit_foldl {α : Type} (L : List α) (h : Nat → α → Nat) (w : α → Nat → Bool)
    (hs : ∀ acc x b, (h acc x).testBit b = (acc.testBit b || w x b)) (init b : Nat) :
    (L.foldl h init).testBit b = (init.testBit b || L.any (fun x => w x b)) := by
  induction L generalizing init with
  | nil => simp
  | cons x L ih => simp [List.foldl_cons, ih, hs, Bool.or_assoc]

theorem testBit_dependsMap (dump : Nat → Nat) (p b : Nat) :
    (dependsMap dump p).testBit b =
      (List.range (2 ^ 17)).any (fun i =>
        (List.range 18).any (fun bitpos =>
          dependsHit dump p i bitpos && decide (bitpos = b))) := by
  unfold dependsMap
  rw [testBit_foldl (w := fun i c =>
      (List.range 18).any (fun bitpos => dependsHit dump p i bitpos && decide (bitpos = c)))]
  · simp
  · intro acc i c
    rw [testBit_foldl (w := fun bitpos c => dependsHit dump p i bitpos && decide (bitpos = c))]
    intro acc2 bitpos c2
    by_cases hd : dependsHit dump p i bitpos <;>
      simp [hd, Nat.testBit_lor, Nat.one_shiftLeft, Nat.testBit_two_pow]

/-- If bit `b` of `depends_map[p]` is clear then no loop iteration at bit
position `b` observed a dependency. -/
theorem dependsHit_of_clear {dump : Nat → Nat} {p b : Nat} (hb : b < 18)
    (hdep : (dependsMap dump p).testBit b = false) :
    ∀ i < 2 ^ 17, dependsHit dump p i b = false := by
  intro i hi
  rw [testBit_dependsMap] at hdep
  simp only [List.any_eq_false, List.mem_range] at hdep
  have h1 := hdep i hi
  rw [Bool.not_eq_true, List.any_eq_false] at h1
  have h2 := h1 b (by simp [hb])
  simpa using h2

/-- Bits of `addrOf i b` for the canonical preimage of an address whose
bit `b` is clear: inserting a zero at position `b` of the compressed
index reproduces the address. -/
theorem addrOf_insert {b : Nat} (hb : b < 18) {a : Nat} (ha : a < 2 ^ 18)
    (hbit : a.testBit b = false) :
    addrOf (((a >>> (b + 1)) <<< b) ||| (a &&& genBitmask b)) b = a := by
  have ha18 : ∀ j, 18 ≤ j → a.testBit j = false := fun j hj =>
    Nat.testBit_lt_two_pow (lt_of_lt_of_le ha (Nat.pow_le_pow_right (by norm_num) hj))
  apply Nat.eq_of_testBit_eq
  intro k
  unfold addrOf genBitmask
  simp only [Nat.testBit_lor, Nat.testBit_land, Nat.testBit_shiftLeft, Nat.testBit_shiftRight,
    Nat.one_shiftLeft, Nat.testBit_two_pow_sub_one, ge_iff_le]
  rcases lt_trichotomy k b with hk | hk | hk
  · simp [show ¬ b ≤ k - 1 by omega, show ¬ b ≤ k by omega, hk]
  · subst hk
    by_cases hk0 : k = 0
    · subst hk0
      simp [show ¬ (0 : Nat) < 0 by omega, hbit]
    · simp [show ¬ k ≤ k - 1 by omega, show ¬ k < k by omega, hbit]
  · by_cases hk17 : k ≤ 17
    · simp [show 1 ≤ k by omega, show b ≤ k - 1 by omega, show ¬ k < b by omega,
        show ¬ k - 1 < b by omega, show k - 1 - b < 17 - b by omega,
        show b + 1 + (k - 1 - b) = k by omega]
    · simp [show ¬ (k - 1 - b < 17 - b) by omega, show ¬ k < b by omega,
        ha18 k (by omega)]

theorem addrOf_insert_lt {b : Nat} (hb : b < 18) {a : Nat} (ha : a < 2 ^ 18) :
    ((a >>> (b + 1)) <<< b) ||| (a &&& genBitmask b) < 2 ^ 17 := by
  apply Nat.or_lt_two_pow
  · rw [Nat.shiftLeft_eq, Nat.shiftRight_eq_div_pow]
    have h1 : a / 2 ^ (b + 1) < 2 ^ (17 - b) := by
      apply Nat.div_lt_of_lt_mul
      calc a < 2 ^ 18 := ha
        _ ≤ 2 ^ (b + 1) * 2 ^ (17 - b) := by
            rw [← pow_add]
            exact Nat.pow_le_pow_right (by norm_num) (by omega)
    calc a / 2 ^ (b + 1) * 2 ^ b < 2 ^ (17 - b) * 2 ^ b :=
          (Nat.mul_lt_mul_right (Nat.pos_pow_of_pos b (by norm_num))).mpr h1
      _ ≤ 2 ^ 17 := by rw [← pow_add]; exact Nat.pow_le_pow_right (by norm_num) (by omega)
  · have hpos : 0 < 2 ^ b := Nat.pos_pow_of_pos b (by norm_num)
    calc a &&& genBitmask b ≤ genBitmask b := Nat.and_le_right
      _ < 2 ^ b := by unfold genBitmask; rw [Nat.one_shiftLeft]; omega
      _ ≤ 2 ^ 17 := Nat.pow_le_pow_right (by norm_num) (by omega)

/-- Clearing one bit below 18 of an address below `2 ^ 18` via the
18-bit complement mask. -/
theorem and_mask_xor_bit {a q : Nat} (ha : a < 2 ^ 18) (hq : q < 18) :
    a &&& (genBitmask 18 ^^^ (1 <<< q)) =
      (if a.testBit q then a ^^^ (1 <<< q) else a) := by
  have ha18 : ∀ j, 18 ≤ j → a.testBit j = false := fun j hj =>
    Nat.testBit_lt_two_pow (lt_of_lt_of_le ha (Nat.pow_le_pow_right (by norm_num) hj))
  apply Nat.eq_of_testBit_eq
  intro k
  simp only [genBitmask, Nat.one_shiftLeft, Nat.testBit_land, Nat.testBit_xor,
    Nat.testBit_two_pow_sub_one, Nat.testBit_two_pow]
  by_cases hqb : a.testBit q <;> by_cases hk : k < 18 <;> by_cases hkq : q = k
  · subst hkq; simp [hqb, hk, Nat.testBit_xor, Nat.one_shiftLeft, Nat.testBit_two_pow]
  · simp [hqb, hk, hkq, Nat.testBit_xor, Nat.one_shiftLeft, Nat.testBit_two_pow]
  · subst hkq; omega
  · simp [hqb, hk, hkq, Nat.testBit_xor, Nat.one_shiftLeft, Nat.testBit_two_pow,
      ha18 k (by omega)]
  · subst hkq; simp [hqb, hk]
  · simp [hqb, hk, hkq]
  · subst hkq; omega
  · simp [hqb, hk, ha18 k (by omega)]

/-- Setting a clear bit is the same as toggling it. -/
theorem or_eq_xor_of_testBit_false {a j : Nat} (h : a.testBit j = false) :
    a ||| (1 <<< j) = a ^^^ (1 <<< j) := by
  apply Nat.eq_of_testBit_eq
  intro k
  simp only [Nat.testBit_lor, Nat.testBit_xor, Nat.one_shiftLeft, Nat.testBit_two_pow]
  by_cases hk : j = k
  · subst hk; simp [h]
  · simp [hk]

/-- Setting a set bit is the identity. -/
theorem or_eq_self_of_testBit_true {a j : Nat} (h : a.testBit j = true) :
    a ||| (1 <<< j) = a := by
  apply Nat.eq_of_testBit_eq
  intro k
  simp only [Nat.testBit_lor, Nat.one_shiftLeft, Nat.testBit_two_pow]
  by_cases hk : j = k
  · subst hk; simp [h]
  · simp [hk]

theorem probeAddrBit_eq (p : Nat) (hp : p < 8) : probeAddrBit p = 1 <<< (p + 10) := by
  simp only [probeAddrBit, palpinnumToEpromaddrbitpos, epromdatabitposToPalpinnum]
  have : ¬ p + 12 ≤ 9 := by omega
  simp [this]

/-- `highzOn` at an address below `2 ^ 18` is the negation of the claim
notion of the pin being driven there. -/
theorem highzOn_iff_not_driven {dump : Nat → Nat} {p a : Nat} (hp : p < 8)
    (ha : a < 2 ^ 18) :
    highzOn dump p a = false ↔ drivenAt dump p a := by
  have hq : p + 10 < 18 := by omega
  unfold highzOn drivenAt
  rw [probeAddrBit_eq p hp, and_mask_xor_bit ha hq]
  by_cases hbq : a.testBit (p + 10)
  · rw [if_pos hbq, or_eq_self_of_testBit_true hbq]
    constructor
    · intro h
      have h2 : ¬ (dump (a ^^^ 1 <<< (p + 10)) &&& 1 <<< p ≠ dump a &&& 1 <<< p) :=
        of_decide_eq_false h
      exact (not_not.mp h2).symm
    · intro h
      simp [h]
  · rw [if_neg hbq, or_eq_xor_of_testBit_false (Bool.not_eq_true _ ▸ hbq)]
    constructor
    · intro h
      have h2 : ¬ (dump a &&& 1 <<< p ≠ dump (a ^^^ 1 <<< (p + 10)) &&& 1 <<< p) :=
        of_decide_eq_false h
      exact not_not.mp h2
    · intro h
      simp [h]

/-- C6: for every dump, every pin `p` and every address bit `b` outside
the computed `depends_map[p]` (other than the probe bit `p + 10`),
toggling bit `b` leaves data bit `p` unchanged at every address pair
where the pin is driven on both sides. -/
theorem c6_highz_correctness (dump : Nat → Nat) (p b a : Nat)
    (hp : p < 8) (hb : b < 18) (hbq : b ≠ p + 10)
    (hdep : (dependsMap dump p).testBit b = false)
    (ha : a < 2 ^ 18)
    (h1 : drivenAt dump p a) (h2 : drivenAt dump p (a ^^^ (1 <<< b))) :
    dump a &&& (1 <<< p) = dump (a ^^^ (1 <<< b)) &&& (1 <<< p) := by
  have hblt : (1 <<< b : Nat) < 2 ^ 18 := by
    rw [Nat.one_shiftLeft]
    exact Nat.pow_lt_pow_right (by norm_num) hb
  have hxlt : a ^^^ (1 <<< b) < 2 ^ 18 := Nat.xor_lt_two_pow ha hblt
  suffices hmain : ∀ a0, a0 < 2 ^ 18 → a0.testBit b = false →
      drivenAt dump p a0 → drivenAt dump p (a0 ^^^ (1 <<< b)) →
      dump a0 &&& (1 <<< p) = dump (a0 ^^^ (1 <<< b)) &&& (1 <<< p) by
    by_cases hab : a.testBit b
    · have hclear : (a ^^^ (1 <<< b)).testBit b = false := by
        simp [Nat.testBit_xor, Nat.one_shiftLeft, Nat.testBit_two_pow, hab]
      have hxx : (a ^^^ (1 <<< b)) ^^^ (1 <<< b) = a := by
        rw [Nat.xor_assoc, Nat.xor_self, Nat.xor_zero]
      have := hmain (a ^^^ (1 <<< b)) hxlt hclear h2 (by rwa [hxx])
      rw [hxx] at this
      exact this.symm
    · exact hmain a ha (Bool.not_eq_true _ ▸ hab) h1 h2
  intro a0 ha0 hclear hd1 hd2
  have hx0lt : a0 ^^^ (1 <<< b) < 2 ^ 18 := Nat.xor_lt_two_pow ha0 hblt
  have haddr := addrOf_insert hb ha0 hclear
  have hilt := addrOf_insert_lt hb ha0
  have hzero := dependsHit_of_clear hb hdep _ hilt
  unfold dependsHit at hzero
  have hne : ¬ (epromaddrbitposToPalpinnum b = epromdatabitposToPalpinnum p) := by
    unfold epromaddrbitposToPalpinnum epromdatabitposToPalpinnum
    by_cases h8 : b ≤ 8 <;> simp [h8] <;> omega
  rw [if_neg hne, haddr, or_eq_xor_of_testBit_false hclear] at hzero
  have hz1 : highzOn dump p a0 = false := (highzOn_iff_not_driven hp ha0).mpr hd1
  have hz2 : highzOn dump p (a0 ^^^ 1 <<< b) = false :=
    (highzOn_iff_not_driven hp hx0lt).mpr hd2
  rw [hz1, hz2] at hzero
  simp only [Bool.not_false, Bool.and_true] at hzero
  exact not_not.mp (of_decide_eq_false hzero)

theorem dependsHit_const_zero (p i bitpos : Nat) :
    dependsHit (fun _ => 0) p i bitpos = false := by
  unfold dependsHit
  split
  · rfl
  · simp

theorem dependsMap_const_zero (p : Nat) : dependsMap (fun _ => 0) p = 0 := by
  apply Nat.eq_of_testBit_eq
  intro k
  rw [testBit_dependsMap]
  simp [dependsHit_const_zero]

theorem c6_highz_correctness_witness :
    (0 : Nat) < 8 ∧ (0 : Nat) < 18 ∧ (0 : Nat) ≠ 0 + 10 ∧
      (dependsMap (fun _ => 0) 0).testBit 0 = false ∧ (0 : Nat) < 2 ^ 18 ∧
      drivenAt (fun _ => 0) 0 0 ∧ drivenAt (fun _ => 0) 0 (0 ^^^ (1 <<< 0)) ∧
      (fun _ => (0 : Nat)) 0 &&& (1 <<< 0) = (fun _ => (0 : Nat)) (0 ^^^ (1 <<< 0)) &&& (1 <<< 0) :=
  ⟨by decide, by decide, by decide, by simp [dependsMap_const_zero], by decide,
    rfl, rfl,
    c6_highz_correctness (fun _ => 0) 0 0 0 (by decide) (by decide) (by decide)
      (by simp [dependsMap_const_zero]) (by decide) rfl rfl⟩

/-- C7 refutation: when the dump length is wrong, the equations file is
not empty when the fatal error is raised: the header and the PIN lines
were already written before the length check. -/
theorem c7_counterexample :
    petePrologue "dump" defaultPinNames [] =
      PeteProlog.fatalLength "" (peteEquationsHeader "dump" ++ pinLines defaultPinNames) ∧
      (peteEquationsHeader "dump" ++ pinLines defaultPinNames) ≠ "" := by
  constructor
  · rfl
  · decide

/-- C7 amended: on a dump of wrong length pete raises the fatal length
error with the truthtable file still empty, but with the equations
header and the PIN lines already written to the equations file. -/
theorem c7_partial_output (stem : String) (pins : List (Nat × String)) (dump : List Nat)
    (h : dump.length ≠ 262144) :
    petePrologue stem pins dump =
      PeteProlog.fatalLength "" (peteEquationsHeader stem ++ pinLines pins) := by
  unfold petePrologue
  simp [h]

theorem c7_partial_output_witness :
    ([] : List Nat).length ≠ 262144 ∧
      petePrologue "dump" defaultPinNames [] =
        PeteProlog.fatalLength "" (peteEquationsHeader "dump" ++ pinLines defaultPinNames) :=
  ⟨by decide, c7_partial_output "dump" defaultPinNames [] (by decide)⟩

/-! ## Model of the JEDEC writer of src/simplegalasm.py (claim C9)

The fuse map is the `JedWriter._fusemap` byte array of ASCII digits,
modelled as a list of booleans (`true` for the character `1`). The
emitted file is modelled as its list of byte values. -/

def asciiOf (s : String) : List Nat := s.data.map Char.toNat

/-- Python `%04d` (zero-pad to at least four digits). -/
def decPad4 (n : Nat) : String :=
  (List.replicate (4 - (toString n).length) '0').asString ++ toString n

def hexDigit (n : Nat) : Char := "0123456789abcdef".data.getD n '0'

/-- Lowercase hexadecimal digits of a number, most significant first
(`fuel` bounds the recursion depth; `n + 1` always suffices). -/
def hexStrAux : Nat → Nat → List Char
  | 0, _ => []
  | fuel + 1, n =>
      if n < 16 then [hexDigit n]
      else hexStrAux fuel (n / 16) ++ [hexDigit (n % 16)]

/-- Lowercase hexadecimal rendering of a number. -/
def hexStr (n : Nat) : String := (hexStrAux (n + 1) n).asString

/-- Python `%04x` (zero-pad to at least four digits). -/
def hexPad4 (n : Nat) : String :=
  (List.replicate (4 - (hexStr n).length) '0').asString ++ hexStr n

def fuseChars (l : List Bool) : String :=
  (l.map (fun b => if b then '1' else '0')).asString

/-- `int(bstr[::-1], 2)`: the fuse byte value of one chunk, first fuse in
the least significant bit. -/
def chunkVal (l : List Bool) : Nat :=
  l.foldr (fun b acc => (if b then 1 else 0) + 2 * acc) 0

/-- The fuse checksum loop of `get_file`: sum the byte values of the
8-fuse chunks (the final chunk of a 2194-fuse map has 2 fuses). The sum
is NOT truncated to 16 bits before being printed with `%04x`. -/
def jedFuseChecksum : List Bool → Nat
  | b0 :: b1 :: b2 :: b3 :: b4 :: b5 :: b6 :: b7 :: rest =>
      chunkVal [b0, b1, b2, b3, b4, b5, b6, b7] + jedFuseChecksum rest
  | l => chunkVal l

/-- One `*L%04d %s` line: emitted only when the chunk is not all zeros. -/
def jedLLine (fm : List Bool) (offset len : Nat) : List Nat :=
  let chunk := (fm.drop offset).take len
  if chunk = List.replicate len false then []
  else asciiOf ("*L" ++ decPad4 offset ++ " " ++ fuseChars chunk ++ "\x0d\x0a")

/-- The framed part of `get_file`: STX through ETX inclusive. -/
def jedBody (fm : List Bool) : List Nat :=
  [2]
  ++ asciiOf "Device: GAL16V8\x0d\x0a"
  ++ asciiOf "*F0\x0d\x0a"
  ++ asciiOf "*G0\x0d\x0a"
  ++ asciiOf ("*QF" ++ toString fm.length ++ "\x0d\x0a")
  ++ ((List.range 64).flatMap (fun r => jedLLine fm (32 * r) 32))
  ++ jedLLine fm 2048 8
  ++ jedLLine fm 2056 64
  ++ jedLLine fm 2120 8
  ++ jedLLine fm 2128 64
  ++ jedLLine fm 2192 1
  ++ jedLLine fm 2193 1
  ++ asciiOf ("*C" ++ hexPad4 (jedFuseChecksum fm) ++ "\x0d\x0a")
  ++ asciiOf "*\x0d\x0a"
  ++ [3]

/-- `get_file`: the framed part followed by the 16-bit transmission
checksum of all its bytes. -/
def jedGetFile (fm : List Bool) : List Nat :=
  jedBody fm ++ asciiOf (hexPad4 ((jedBody fm).sum % 65536))

theorem length_asString (l : List Char) : l.asString.length = l.length := rfl

theorem length_asString_replicate (k : Nat) (c : Char) :
    ((List.replicate k c).asString).length = k := by
  rw [length_asString, List.length_replicate]

theorem length_asciiOf (str : String) : (asciiOf str).length = str.length := by
  unfold asciiOf
  rw [List.length_map]
  rfl

theorem hexStrAux_length_pos (fuel n : Nat) (h : 1 ≤ fuel) :
    1 ≤ (hexStrAux fuel n).length := by
  match fuel, h with
  | fuel + 1, _ =>
    rw [hexStrAux]
    split
    · simp
    · simp

theorem hexStrAux_length_le : ∀ fuel k n : Nat, n < 16 ^ k → 1 ≤ k →
    (hexStrAux fuel n).length ≤ k := by
  intro fuel
  induction fuel with
  | zero => intro k n _ _; simp [hexStrAux]
  | succ fuel ih =>
    intro k n hn hk
    rw [hexStrAux]
    split
    · simpa using hk
    · rename_i h16
      have hk2 : 2 ≤ k := by
        by_contra hcon
        have hk1 : k = 1 := by omega
        subst hk1
        simp at hn
        omega
      have hdiv : n / 16 < 16 ^ (k - 1) := by
        apply Nat.div_lt_of_lt_mul
        have hpow : 16 ^ k = 16 * 16 ^ (k - 1) := by
          rw [mul_comm, ← pow_succ]
          congr 1
          omega
        omega
      have := ih (k - 1) (n / 16) hdiv (by omega)
      rw [List.length_append]
      simp only [List.length_cons, List.length_nil]
      omega

theorem hexStr_length_pos (n : Nat) : 1 ≤ (hexStr n).length := by
  rw [hexStr, length_asString]
  exact hexStrAux_length_pos _ _ (by omega)

theorem hexStr_length_le {k n : Nat} (hk : 1 ≤ k) (h : n < 16 ^ k) :
    (hexStr n).length ≤ k := by
  rw [hexStr, length_asString]
  exact hexStrAux_length_le _ _ _ h hk

theorem length_hexPad4_of_lt {n : Nat} (h : n < 65536) : (hexPad4 n).length = 4 := by
  have h1 : (hexStr n).length ≤ 4 := hexStr_length_le (by norm_num) (by norm_num; omega)
  have h2 := hexStr_length_pos n
  unfold hexPad4
  rw [String.length_append, length_asString_replicate]
  omega

theorem length_hexPad4_ge (n : Nat) : 4 ≤ (hexPad4 n).length := by
  unfold hexPad4
  rw [String.length_append, length_asString_replicate]
  omega

set_option maxRecDepth 20000 in
/-- C9 refutation: on the all-ones fuse map the sum of the 8-bit fuse
values is 69873, which exceeds 16 bits; the emitted `*C` field renders
it with five hexadecimal digits instead of four, and differs from the
rendering of the 16-bit truncation. -/
theorem c9_counterexample :
    jedFuseChecksum (List.replicate 2194 true) = 69873 ∧
      (hexPad4 (jedFuseChecksum (List.replicate 2194 true))).length = 5 ∧
      hexPad4 (jedFuseChecksum (List.replicate 2194 true)) ≠
        hexPad4 (jedFuseChecksum (List.replicate 2194 true) % 65536) := by
  refine ⟨by decide, by decide, by decide⟩

/-- C9 amended: the trailing transmission checksum is the 16-bit sum of
all framed bytes (STX through ETX inclusive) rendered with exactly four
hexadecimal digits, and the `*C` fuse-checksum field renders the
untruncated sum of the 8-bit fuse values, with at least four digits. -/
theorem c9_checksums (fm : List Bool) :
    (jedGetFile fm).drop ((jedGetFile fm).length - 4) =
      asciiOf (hexPad4 (((jedGetFile fm).take ((jedGetFile fm).length - 4)).sum % 65536)) ∧
    (asciiOf (hexPad4 ((jedBody fm).sum % 65536))).length = 4 ∧
    (∃ pre, jedBody fm =
      pre ++ asciiOf ("*C" ++ hexPad4 (jedFuseChecksum fm) ++ "\x0d\x0a") ++
        asciiOf "*\x0d\x0a" ++ [3]) ∧
    4 ≤ (hexPad4 (jedFuseChecksum fm)).length := by
  have hmod : (jedBody fm).sum % 65536 < 65536 := Nat.mod_lt _ (by norm_num)
  have htail : (asciiOf (hexPad4 ((jedBody fm).sum % 65536))).length = 4 := by
    rw [length_asciiOf, length_hexPad4_of_lt hmod]
  have hlen : (jedGetFile fm).length - 4 = (jedBody fm).length := by
    unfold jedGetFile
    rw [List.length_append, htail]
    omega
  refine ⟨?_, htail, ?_, length_hexPad4_ge _⟩
  · rw [hlen]
    unfold jedGetFile
    rw [List.drop_left, List.take_left]
  · refine ⟨[2]
      ++ asciiOf "Device: GAL16V8\x0d\x0a"
      ++ asciiOf "*F0\x0d\x0a"
      ++ asciiOf "*G0\x0d\x0a"
      ++ asciiOf ("*QF" ++ toString fm.length ++ "\x0d\x0a")
      ++ ((List.range 64).flatMap (fun r => jedLLine fm (32 * r) 32))
      ++ jedLLine fm 2048 8
      ++ jedLLine fm 2056 64
      ++ jedLLine fm 2120 8
      ++ jedLLine fm 2128 64
      ++ jedLLine fm 2192 1
      ++ jedLLine fm 2193 1, ?_⟩
    unfold jedBody
    simp [List.append_assoc]

/-! ## Model of the assembler of src/simplegalasm.py (claims C8, C10)

Tokens are those produced by the Lexer; `Assembler.assemble` is modelled
as the token-consuming parse loop followed by the fuse-map check phase
over output pins 19 down to 12. Python dictionaries are again
insertion-ordered association lists. -/

inductive Tok where
  | kwPin (line : Nat)
  | ident (line : Nat) (name : String)
  | num (line : Nat) (n : Nat)
  | orT (line : Nat)
  | andT (line : Nat)
  | notT (line : Nat)
  | eqT (line : Nat)
  | dotT (line : Nat)
  | endT (line : Nat)
deriving DecidableEq, Repr

def tokLine : Tok → Nat
  | .kwPin ln => ln
  | .ident ln _ => ln
  | .num ln _ => ln
  | .orT ln => ln
  | .andT ln => ln
  | .notT ln => ln
  | .eqT ln => ln
  | .dotT ln => ln
  | .endT ln => ln

inductive AsmErr where
  | syntaxErr (line : Nat)
  | indexErr
  | dupNumber (n : Nat)
  | dupName (s : String)
  | invalidSub (s : String)
  | nonNegated (s : String)
  | tooManyProducts (s : String)
  | undefinedPins (s : String)
  | negatedOe (s : String)
  | tooManyOeProducts (s : String)
  | keyErr
deriving DecidableEq, Repr

inductive EqRhs where
  | num (v : Nat)
  | sop (products : List (List String))
deriving DecidableEq, Repr

structure Equation where
  negated : Bool
  rhs : EqRhs
deriving DecidableEq, Repr

def dictInsert {α β : Type} [DecidableEq α] : List (α × β) → α → β → List (α × β)
  | [], k, v => [(k, v)]
  | (k0, v0) :: rest, k, v =>
      if k0 = k then (k0, v) :: rest else (k0, v0) :: dictInsert rest k v

def dictLookup {α β : Type} [DecidableEq α] : List (α × β) → α → Option β
  | [], _ => none
  | (k0, v0) :: rest, k => if k0 = k then some v0 else dictLookup rest k

structure AsmState where
  pinnameByPinnumber : List (Nat × String)
  pinnumberByPinname : List (String × Nat)
  equations : List (String × Equation)
  oeEquations : List (String × Equation)
deriving DecidableEq, Repr

def emptyAsmState : AsmState := ⟨[], [], [], []⟩

/-- Python equality between an `int` and a `str` key is always `False`;
this is the comparison performed by the duplicate-pin-NAME guard, which
tests `number in self._pinnumber_by_pinname` (a dict keyed by name). -/
def pyIntEqStr (n : Nat) (s : String) : Bool := false

def addPin (st : AsmState) (n : Nat) (nm : String) : AsmState :=
  { st with pinnameByPinnumber := dictInsert st.pinnameByPinnumber n nm
            pinnumberByPinname := dictInsert st.pinnumberByPinname nm n }

def addEq (st : AsmState) (nm : String) (e : Equation) : AsmState :=
  { st with equations := dictInsert st.equations nm e }

def addOeEq (st : AsmState) (nm : String) (e : Equation) : AsmState :=
  { st with oeEquations := dictInsert st.oeEquations nm e }

/-- `cur_product.add(...)` on a Python set, modelled as a duplicate-free
insertion-ordered list. -/
def addLit (l : List String) (s : String) : List String :=
  if s ∈ l then l else l ++ [s]

/-- The sum-of-products branch of `Assembler._get_equation`: consume one
literal and the following separator; on `EndCmd` stop, leaving the
`EndCmd` token in the remaining stream (the caller skips it). -/
def parseSum (products : List (List String)) (cur : List String) :
    List Tok → Except AsmErr (EqRhs × List Tok)
  | .notT _ :: .ident _ nm :: .andT _ :: rest =>
      parseSum products (addLit cur ("!" ++ nm)) rest
  | .notT _ :: .ident _ nm :: .orT _ :: rest =>
      parseSum (products ++ [addLit cur ("!" ++ nm)]) [] rest
  | .notT _ :: .ident _ nm :: rest3@(.endT _ :: _) =>
      .ok (.sop (products ++ [addLit cur ("!" ++ nm)]), rest3)
  | .notT _ :: .ident _ _ :: [] => .error .indexErr
  | .notT _ :: .ident _ _ :: t :: _ => .error (.syntaxErr (tokLine t))
  | .notT _ :: [] => .error .indexErr
  | .notT _ :: t :: _ => .error (.syntaxErr (tokLine t))
  | .ident _ nm :: .andT _ :: rest =>
      parseSum products (addLit cur nm) rest
  | .ident _ nm :: .orT _ :: rest =>
      parseSum (products ++ [addLit cur nm]) [] rest
  | .ident _ nm :: rest3@(.endT _ :: _) =>
      .ok (.sop (products ++ [addLit cur nm]), rest3)
  | .ident _ _ :: [] => .error .indexErr
  | .ident _ _ :: t :: _ => .error (.syntaxErr (tokLine t))
  | [] => .error .indexErr
  | t :: _ => .error (.syntaxErr (tokLine t))

/-- `Assembler._get_equation`: a constant `0`/`1` followed by `EndCmd`,
or a sum of products. The returned stream still starts with the
terminating `EndCmd`. -/
def getEquation : List Tok → Except AsmErr (EqRhs × List Tok)
  | [] => .error .indexErr
  | .num ln v :: rest =>
      if v = 0 ∨ v = 1 then
        match rest with
        | [] => .error .indexErr
        | .endT _ :: _ => .ok (.num v, rest)
        | t :: _ => .error (.syntaxErr (tokLine t))
      else .error (.syntaxErr ln)
  | toks => parseSum [] [] toks

theorem parseSum_rest_le (products : List (List String)) (cur : List String)
    (toks : List Tok) : ∀ rhs rest, parseSum products cur toks = .ok (rhs, rest) →
    rest.length ≤ toks.length := by
  induction products, cur, toks using parseSum.induct <;> intro rhs rest h <;>
    simp only [parseSum, Except.ok.injEq, Prod.mk.injEq] at h
  all_goals
    first
      | exact Except.noConfusion h
      | (obtain ⟨h1, h2⟩ := h
         subst h2
         simp only [List.length_cons]
         omega)
      | (rename_i ih
         have := ih rhs rest h
         simp only [List.length_cons] at this ⊢
         omega)

theorem getEquation_rest_le (toks : List Tok) (rhs : EqRhs) (rest : List Tok)
    (h : getEquation toks = .ok (rhs, rest)) : rest.length ≤ toks.length := by
  rw [getEquation.eq_def] at h
  split at h
  · exact Except.noConfusion h
  · split at h
    · split at h
      · exact Except.noConfusion h
      · simp only [Except.ok.injEq, Prod.mk.injEq] at h
        obtain ⟨h1, h2⟩ := h
        subst h2
        simp only [List.length_cons]
        omega
      · exact Except.noConfusion h
    · exact Except.noConfusion h
  · exact parseSum_rest_le _ _ _ _ _ h

/-- The `while i < len(tokens)` loop of `Assembler.assemble`. The `eqneg`
flag records that a leading `!` followed by an identifier was consumed at
the start of the current command; the loop re-dispatches on the
identifier. Out-of-range token accesses are Python `IndexError`s. Every
step consumes at least one token, so the fuel of `parseLoop` below is
never exhausted; the exhaustion value is arbitrary. -/
def parseLoopF : Nat → AsmState → Bool → List Tok → Except AsmErr AsmState
  | 0, _, _, _ => .error .indexErr
  | _ + 1, st, _, [] => .ok st
  | _ + 1, _, _, .notT _ :: [] => .error .indexErr
  | fuel + 1, st, _, .notT _ :: .ident ln2 nm :: rest =>
      parseLoopF fuel st true (.ident ln2 nm :: rest)
  | _ + 1, _, _, .notT ln :: _ :: _ => .error (.syntaxErr ln)
  | fuel + 1, st, _, .kwPin ln :: rest =>
      match rest with
      | .num _ n :: .eqT _ :: .ident _ nm :: .endT _ :: rest2 =>
          if st.pinnameByPinnumber.any (fun kv => kv.1 = n) then .error (.dupNumber n)
          else if st.pinnumberByPinname.any (fun kv => pyIntEqStr n kv.1) then
            .error (.dupName nm)
          else parseLoopF fuel (addPin st n nm) false rest2
      | [] => .error .indexErr
      | .num _ _ :: [] => .error .indexErr
      | .num _ _ :: .eqT _ :: [] => .error .indexErr
      | .num _ _ :: .eqT _ :: .ident _ _ :: [] => .error .indexErr
      | .num _ _ :: .eqT _ :: .ident _ _ :: t :: _ => .error (.syntaxErr (tokLine t))
      | .num _ _ :: t :: _ => .error (.syntaxErr (tokLine t))
      | _ :: _ => .error (.syntaxErr ln)
  | _ + 1, _, _, .ident _ _ :: [] => .error .indexErr
  | fuel + 1, st, eqneg, .ident _ nm :: .eqT _ :: rest2 =>
      match getEquation rest2 with
      | .error e => .error e
      | .ok (rhs, rest3) => parseLoopF fuel (addEq st nm ⟨eqneg, rhs⟩) false (rest3.drop 1)
  | fuel + 1, st, eqneg, .ident ln nm :: .dotT _ :: rest2 =>
      match rest2 with
      | [] => .error .indexErr
      | .ident _ _ :: [] => .error .indexErr
      | .ident _ sub :: .eqT _ :: rest3 =>
          if sub = "OE" ∨ sub = "oe" then
            match getEquation rest3 with
            | .error e => .error e
            | .ok (rhs, rest4) =>
                parseLoopF fuel (addOeEq st nm ⟨eqneg, rhs⟩) false (rest4.drop 1)
          else .error (.invalidSub sub)
      | .ident _ _ :: _ :: _ => .error (.syntaxErr ln)
      | _ :: _ => .error (.syntaxErr ln)
  | _ + 1, _, _, .ident ln _ :: _ :: _ => .error (.syntaxErr ln)
  | fuel + 1, st, _, .endT _ :: rest => parseLoopF fuel st false rest
  | _ + 1, _, _, t :: _ => .error (.syntaxErr (tokLine t))

/-- The parse loop with enough fuel for its token stream. -/
def parseLoop (st : AsmState) (eqneg : Bool) (toks : List Tok) : Except AsmErr AsmState :=
  parseLoopF (toks.length + 1) st eqneg toks

/-- The fuel argument is irrelevant as soon as it exceeds the number of
tokens: each step consumes at least one token. -/
theorem parseLoopF_fuel_irrelevant : ∀ fuel fuel' : Nat, ∀ st eqneg toks,
    toks.length < fuel → toks.length < fuel' →
    parseLoopF fuel st eqneg toks = parseLoopF fuel' st eqneg toks := by
  intro fuel
  induction fuel with
  | zero => intro fuel' st eqneg toks h; omega
  | succ fuel ih =>
    intro fuel' st eqneg toks h h'
    match fuel', h' with
    | fuel' + 1, h' =>
    match toks with
    | [] => rfl
    | .notT _ :: [] => rfl
    | .notT _ :: .ident ln2 nm :: rest =>
        simp only [parseLoopF]
        exact ih _ _ _ _ (by simpa using h) (by simpa using h')
    | .notT _ :: .kwPin l :: r => rfl
    | .notT _ :: .num l n :: r => rfl
    | .notT _ :: .orT l :: r => rfl
    | .notT _ :: .andT l :: r => rfl
    | .notT _ :: .notT l :: r => rfl
    | .notT _ :: .eqT l :: r => rfl
    | .notT _ :: .dotT l :: r => rfl
    | .notT _ :: .endT l :: r => rfl
    | .kwPin ln :: rest =>
        simp only [parseLoopF]
        split
        · split
          · rfl
          · split
            · rfl
            · apply ih
              · simp at h; omega
              · simp at h'; omega
        all_goals rfl
    | .ident _ _ :: [] => rfl
    | .ident _ nm :: .eqT _ :: rest2 =>
        simp only [parseLoopF]
        split
        · rfl
        · rename_i rhs rest3 heq
          apply ih
          · have := getEquation_rest_le _ _ _ heq
            simp only [List.length_cons] at h
            simp only [List.length_drop]
            omega
          · have := getEquation_rest_le _ _ _ heq
            simp only [List.length_cons] at h'
            simp only [List.length_drop]
            omega
    | .ident ln nm :: .dotT _ :: rest2 =>
        simp only [parseLoopF]
        split
        · rfl
        · rfl
        · split
          · split
            · rfl
            · rename_i rhs rest4 heq
              apply ih
              · have := getEquation_rest_le _ _ _ heq
                simp only [List.length_cons] at h
                simp only [List.length_drop]
                omega
              · have := getEquation_rest_le _ _ _ heq
                simp only [List.length_cons] at h'
                simp only [List.length_drop]
                omega
          · rfl
        · rfl
        · rfl
    | .ident ln nm :: .kwPin l :: r => rfl
    | .ident ln nm :: .ident l n2 :: r => rfl
    | .ident ln nm :: .num l n2 :: r => rfl
    | .ident ln nm :: .orT l :: r => rfl
    | .ident ln nm :: .andT l :: r => rfl
    | .ident ln nm :: .notT l :: r => rfl
    | .ident ln nm :: .endT l :: r => rfl
    | .endT _ :: rest =>
        simp only [parseLoopF]
        exact ih _ _ _ _ (by simpa using h) (by simpa using h')
    | .num l n :: r => rfl
    | .orT l :: r => rfl
    | .andT l :: r => rfl
    | .eqT l :: r => rfl
    | .dotT l :: r => rfl

/-- The fixed input-pin column order of the GAL16V8 fuse rows. -/
def inputPinOrder : List Nat := [2, 1, 3, 18, 4, 17, 5, 16, 6, 15, 7, 14, 8, 13, 9, 11]

/-- The per-product inner loop: two fuses per input pin; a literal whose
pin name matches is removed from the (copied) product set. Undeclared
input pins raise a Python `KeyError`. -/
def buildProductFuses (pins : List (Nat × String)) :
    List Nat → List String → Except AsmErr (List Nat × List String)
  | [], product => .ok ([], product)
  | pn :: restPins, product =>
      match dictLookup pins pn with
      | none => .error .keyErr
      | some nm =>
          let f0 : Nat := if nm ∈ product then 0 else 1
          let p1 := if nm ∈ product then product.erase nm else product
          let f1 : Nat := if ("!" ++ nm) ∈ p1 then 0 else 1
          let p2 := if ("!" ++ nm) ∈ p1 then p1.erase ("!" ++ nm) else p1
          match buildProductFuses pins restPins p2 with
          | .error e => .error e
          | .ok (fuses, leftover) => .ok (f0 :: f1 :: fuses, leftover)

/-- The level-equation product loop: more than 7 products or a leftover
(unmatched) literal is fatal. -/
def checkLevelProducts (pins : List (Nat × String)) (name : String) :
    Nat → List (List String) → Except AsmErr (List (List Nat))
  | _, [] => .ok []
  | idx, product :: rest =>
      if idx > 6 then .error (.tooManyProducts name)
      else
        match buildProductFuses pins inputPinOrder product with
        | .error e => .error e
        | .ok (fuses, leftover) =>
            if leftover ≠ [] then .error (.undefinedPins name)
            else
              match checkLevelProducts pins name (idx + 1) rest with
              | .error e => .error e
              | .ok rows => .ok (fuses :: rows)

/-- The 7x32 term fuse map built from the processed product rows; unused
rows keep the bytearray default of zeros. -/
def levelFusemap (rows : List (List Nat)) : List Nat :=
  rows.join ++ List.replicate (224 - 32 * rows.length) 0

def checkPinLevel (st : AsmState) (name : String) : Except AsmErr (List Nat) :=
  match dictLookup st.equations name with
  | none => .ok (List.replicate 224 0)
  | some eq =>
      if eq.negated = false then .error (.nonNegated name)
      else
        match eq.rhs with
        | .num v => .ok (if v ≠ 0 then List.replicate 32 1 ++ List.replicate 192 0
                         else List.replicate 224 0)
        | .sop products =>
            match checkLevelProducts st.pinnameByPinnumber name 0 products with
            | .error e => .error e
            | .ok rows => .ok (levelFusemap rows)

def checkPinOe (st : AsmState) (name : String) : Except AsmErr (List Nat) :=
  match dictLookup st.oeEquations name with
  | none => .ok (if (dictLookup st.equations name).isSome then List.replicate 32 1
                 else List.replicate 32 0)
  | some eq =>
      if eq.negated then .error (.negatedOe name)
      else
        match eq.rhs with
        | .num v => .ok (if v ≠ 0 then List.replicate 32 1 else List.replicate 32 0)
        | .sop products =>
            if products.length > 1 then .error (.tooManyOeProducts name)
            else
              match products with
              | [] => .error .indexErr
              | product :: _ =>
                  match buildProductFuses st.pinnameByPinnumber inputPinOrder product with
                  | .error e => .error e
                  | .ok (fuses, leftover) =>
                      if leftover ≠ [] then .error (.undefinedPins name) else .ok fuses

def checkPin (st : AsmState) (pn : Nat) : Except AsmErr (List Nat × List Nat) :=
  match dictLookup st.pinnameByPinnumber pn with
  | none => .error .keyErr
  | some name =>
      match checkPinLevel st name with
      | .error e => .error e
      | .ok fm =>
          match checkPinOe st name with
          | .error e => .error e
          | .ok oefm => .ok (fm, oefm)

def outputPins : List Nat := [19, 18, 17, 16, 15, 14, 13, 12]

def checkAll (st : AsmState) : List Nat → Except AsmErr (List (Nat × List Nat × List Nat))
  | [] => .ok []
  | pn :: rest =>
      match checkPin st pn with
      | .error e => .error e
      | .ok maps =>
          match checkAll st rest with
          | .error e => .error e
          | .ok others => .ok ((pn, maps.1, maps.2) :: others)

/-- `Assembler.assemble`: the token loop, then the fuse-map construction
over output pins 19 down to 12. -/
def assemble (toks : List Tok) : Except AsmErr (List (Nat × List Nat × List Nat)) :=
  match parseLoop emptyAsmState false toks with
  | .error e => .error e
  | .ok st => checkAll st outputPins

/-- The five tokens of one `PIN <n> = <name>;` statement. -/
def pinToks (n : Nat) (nm : String) : List Tok :=
  [.kwPin 0, .num 0 n, .eqT 0, .ident 0 nm, .endT 0]

theorem any_pyIntEqStr (l : List (String × Nat)) (n : Nat) :
    l.any (fun kv => pyIntEqStr n kv.1) = false := by
  induction l <;> simp [pyIntEqStr, *]

theorem dictLookup_insert_self {α β : Type} [DecidableEq α] (l : List (α × β)) (k : α) (v : β) :
    dictLookup (dictInsert l k v) k = some v := by
  induction l with
  | nil => simp [dictInsert, dictLookup]
  | cons kv rest ih =>
      obtain ⟨k0, v0⟩ := kv
      by_cases h : k0 = k
      · subst h
        simp [dictInsert, dictLookup]
      · simp [dictInsert, dictLookup, h, ih]

theorem parseSum_error_shape (products : List (List String)) (cur : List String)
    (toks : List Tok) : ∀ e, parseSum products cur toks = .error e →
    e = .indexErr ∨ ∃ ln, e = .syntaxErr ln := by
  induction products, cur, toks using parseSum.induct <;> intro e h <;>
    simp only [parseSum, Except.error.injEq] at h
  all_goals
    first
      | exact Except.noConfusion h
      | (subst h; simp)
      | (subst h; exact Or.inr ⟨_, rfl⟩)
      | (rename_i ih; exact ih e h)

theorem getEquation_error_shape (toks : List Tok) (e : AsmErr)
    (h : getEquation toks = .error e) :
    e = .indexErr ∨ ∃ ln, e = .syntaxErr ln := by
  rw [getEquation.eq_def] at h
  split at h
  · simp only [Except.error.injEq] at h
    subst h
    simp
  · split at h
    · split at h
      · simp only [Except.error.injEq] at h
        subst h
        simp
      · exact Except.noConfusion h
      · simp only [Except.error.injEq] at h
        subst h
        exact Or.inr ⟨_, rfl⟩
    · simp only [Except.error.injEq] at h
      subst h
      exact Or.inr ⟨_, rfl⟩
  · exact parseSum_error_shape _ _ _ _ h

theorem getEquation_no_dupName (toks : List Tok) (s : String) :
    getEquation toks ≠ .error (.dupName s) := by
  intro h
  rcases getEquation_error_shape _ _ h with h3 | ⟨ln, h3⟩ <;> simp at h3

theorem parseLoopF_no_dupName (fuel : Nat) (st : AsmState) (eqneg : Bool)
    (toks : List Tok) : ∀ s, parseLoopF fuel st eqneg toks ≠ .error (.dupName s) := by
  induction fuel, st, eqneg, toks using parseLoopF.induct <;> intro s h <;>
    simp only [parseLoopF] at h
  all_goals try split at h
  all_goals
    first
      | (rename_i ih; exact ih s h)
      | simp_all [any_pyIntEqStr, getEquation_no_dupName]

/-- The duplicate-pin-name error is unreachable: its guard compares the
pin number against the keys of the name-keyed dictionary. -/
theorem parseLoop_no_dupName (st : AsmState) (eqneg : Bool) (toks : List Tok)
    (s : String) : parseLoop st eqneg toks ≠ .error (.dupName s) :=
  parseLoopF_no_dupName _ _ _ _ s

/-- One PIN statement consumes five tokens; the duplicate-name guard
never fires. -/
theorem parseLoopF_pin_step (fuel : Nat) (st : AsmState) (n : Nat) (nm : String)
    (rest : List Tok) :
    parseLoopF (fuel + 1) st false (pinToks n nm ++ rest) =
      if st.pinnameByPinnumber.any (fun kv => kv.1 = n) then .error (.dupNumber n)
      else parseLoopF fuel (addPin st n nm) false rest := by
  simp only [pinToks, List.append_eq, List.cons_append, List.nil_append, parseLoopF]
  rw [any_pyIntEqStr]
  simp

/-- C10 refutation of the completion conjunct: a stream consisting of the
two PIN statements `PIN 1 = A;` and `PIN 2 = A;` (the same name assigned
to two different pin numbers) does not complete without error: assemble
fails afterwards because output pin 19 is undeclared. The duplicate-name
PIN statements themselves are accepted. -/
theorem c10_counterexample :
    assemble (pinToks 1 "A" ++ pinToks 2 "A") = .error .keyErr ∧
      parseLoop emptyAsmState false (pinToks 1 "A" ++ pinToks 2 "A") =
        .ok ⟨[(1, "A"), (2, "A")], [("A", 2)], [], []⟩ := by
  constructor
  · rfl
  · rfl

/-- C10 amended: a duplicate pin NUMBER is rejected; the duplicate-NAME
error is never raised (its guard tests the pin number for membership in
the name-keyed dictionary, so it is always false); two PIN statements
assigning one name to two different numbers are both accepted, and the
name resolves to the later number; the rest of the stream is processed
from that state, so assemble completes exactly when the remainder
otherwise assembles. -/
theorem c10_duplicate_pin_handling :
    (∀ st n nm rest, st.pinnameByPinnumber.any (fun kv => kv.1 = n) = true →
       parseLoop st false (pinToks n nm ++ rest) = .error (.dupNumber n)) ∧
    (∀ st eqneg toks s, parseLoop st eqneg toks ≠ .error (.dupName s)) ∧
    (∀ st n1 n2 nm rest,
       st.pinnameByPinnumber.any (fun kv => kv.1 = n1) = false →
       (addPin st n1 nm).pinnameByPinnumber.any (fun kv => kv.1 = n2) = false →
       parseLoop st false (pinToks n1 nm ++ pinToks n2 nm ++ rest) =
         parseLoop (addPin (addPin st n1 nm) n2 nm) false rest ∧
       dictLookup (addPin (addPin st n1 nm) n2 nm).pinnumberByPinname nm = some n2) := by
  refine ⟨?_, fun st eqneg toks s => parseLoop_no_dupName st eqneg toks s, ?_⟩
  · intro st n nm rest h
    unfold parseLoop
    have hl : (pinToks n nm ++ rest).length + 1 = (rest.length + 5) + 1 := by
      simp [pinToks]
    rw [hl, parseLoopF_pin_step, if_pos h]
  · intro st n1 n2 nm rest h1 h2
    constructor
    · unfold parseLoop
      have hl : (pinToks n1 nm ++ pinToks n2 nm ++ rest).length + 1 =
          ((rest.length + 9) + 1) + 1 := by
        simp [pinToks]
      rw [hl]
      show parseLoopF (rest.length + 9 + 1 + 1) st false
          (pinToks n1 nm ++ (pinToks n2 nm ++ rest)) =
        parseLoopF (rest.length + 1) (addPin (addPin st n1 nm) n2 nm) false rest
      rw [parseLoopF_pin_step ((rest.length + 9) + 1) st n1 nm (pinToks n2 nm ++ rest)]
      rw [if_neg (by rw [h1]; exact Bool.false_ne_true)]
      rw [parseLoopF_pin_step (rest.length + 9) (addPin st n1 nm) n2 nm rest]
      rw [if_neg (by rw [h2]; exact Bool.false_ne_true)]
      exact parseLoopF_fuel_irrelevant _ _ _ _ _ (by omega) (by omega)
    · exact dictLookup_insert_self _ _ _

theorem c10_duplicate_pin_handling_witness :
    ((⟨[(1, "A")], [("A", 1)], [], []⟩ : AsmState).pinnameByPinnumber.any
        (fun kv => kv.1 = 1) = true) ∧
    parseLoop ⟨[(1, "A")], [("A", 1)], [], []⟩ false (pinToks 1 "B" ++ []) =
      .error (.dupNumber 1) ∧
    parseLoop emptyAsmState false (pinToks 1 "A" ++ pinToks 2 "A" ++ []) =
      parseLoop (addPin (addPin emptyAsmState 1 "A") 2 "A") false [] ∧
    dictLookup (addPin (addPin emptyAsmState 1 "A") 2 "A").pinnumberByPinname "A" =
      some 2 :=
  ⟨by decide,
   c10_duplicate_pin_handling.1 _ 1 "B" [] (by decide),
   (c10_duplicate_pin_handling.2.2 emptyAsmState 1 2 "A" [] (by decide) (by decide)).1,
   (c10_duplicate_pin_handling.2.2 emptyAsmState 1 2 "A" [] (by decide) (by decide)).2⟩

/-- All 18 PIN declarations `PIN k = pk;` as pete emits them. -/
def allPinDecls : List Tok :=
  (((List.range' 1 9) ++ (List.range' 11 9)).map
    (fun k => pinToks k ("p" ++ toString k))).join

/-- A stream declaring every pin and then the equation `!p19 = p12;`. -/
def c8Stream : List Tok :=
  allPinDecls ++ [.notT 0, .ident 0 "p19", .eqT 0, .ident 0 "p12", .endT 0]

set_option maxRecDepth 40000 in
/-- C8 refutation: in a stream in which every pin is declared and the
single equation references only the declared pin name `p12`, assemble
still raises the undefined-pin error: pin 12 is not one of the 16
input-capable pins, so its name is never removed from the product. -/
theorem c8_counterexample :
    assemble c8Stream = .error (.undefinedPins "p19") ∧
      (parseLoop emptyAsmState false c8Stream).map
        (fun st => dictLookup st.pinnumberByPinname "p12") = .ok (some 12) := by
  constructor
  · rfl
  · rfl


theorem dictLookup_mem {α β : Type} [DecidableEq α] (l : List (α × β)) (k : α) (v : β)
    (h : dictLookup l k = some v) : (k, v) ∈ l := by
  induction l with
  | nil => cases h
  | cons kv rest ih =>
      obtain ⟨k0, v0⟩ := kv
      simp only [dictLookup] at h
      by_cases hk : k0 = k
      · rw [if_pos hk] at h
        cases h
        subst hk
        simp
      · rw [if_neg hk] at h
        simp [ih h]

/-- When every pin of the column order is declared, the product-fuse loop
never raises the Python `KeyError`. -/
theorem buildProductFuses_total (pins : List (Nat × String)) :
    ∀ (order : List Nat) (product : List String),
    (∀ pn ∈ order, (dictLookup pins pn).isSome) →
    ∃ f lo, buildProductFuses pins order product = .ok (f, lo) := by
  intro order
  induction order with
  | nil =>
      intro product _
      exact ⟨[], product, rfl⟩
  | cons pn rest ih =>
      intro product hdec
      have h1 := hdec pn (by simp)
      cases hlk : dictLookup pins pn with
      | none =>
          rw [hlk] at h1
          simp at h1
      | some nm =>
          simp only [buildProductFuses, hlk]
          obtain ⟨f, lo, hres⟩ := ih
            (if ("!" ++ nm) ∈ (if nm ∈ product then product.erase nm else product) then
               (if nm ∈ product then product.erase nm else product).erase ("!" ++ nm)
             else (if nm ∈ product then product.erase nm else product))
            (fun q hq => hdec q (by simp [hq]))
          rw [hres]
          exact ⟨_, lo, rfl⟩

/-- A literal matching no declared input-column pin name survives the
product-fuse loop into the leftover set. -/
theorem buildProductFuses_leftover (pins : List (Nat × String)) :
    ∀ (order : List Nat) (product : List String) (lit : String)
      (f : List Nat) (lo : List String), lit ∈ product →
    (∀ pn ∈ order, ∀ nm, dictLookup pins pn = some nm →
       lit ≠ nm ∧ lit ≠ "!" ++ nm) →
    buildProductFuses pins order product = .ok (f, lo) → lit ∈ lo := by
  intro order
  induction order with
  | nil =>
      intro product lit f lo hmem _ hres
      simp only [buildProductFuses, Except.ok.injEq, Prod.mk.injEq] at hres
      rw [← hres.2]
      exact hmem
  | cons pn rest ih =>
      intro product lit f lo hmem hne hres
      cases hlk : dictLookup pins pn with
      | none =>
          simp only [buildProductFuses, hlk] at hres
          cases hres
      | some nm =>
          simp only [buildProductFuses, hlk] at hres
          have hnm := hne pn (by simp) nm hlk
          have hm1 : lit ∈ (if nm ∈ product then product.erase nm else product) := by
            by_cases h : nm ∈ product
            · rw [if_pos h]
              exact (List.mem_erase_of_ne hnm.1).mpr hmem
            · rw [if_neg h]
              exact hmem
          have hm2 : lit ∈ (if ("!" ++ nm) ∈ (if nm ∈ product then product.erase nm
                else product) then
              (if nm ∈ product then product.erase nm else product).erase ("!" ++ nm)
            else (if nm ∈ product then product.erase nm else product)) := by
            by_cases h : ("!" ++ nm) ∈ (if nm ∈ product then product.erase nm else product)
            · rw [if_pos h]
              exact (List.mem_erase_of_ne hnm.2).mpr hm1
            · rw [if_neg h]
              exact hm1
          cases hrec : buildProductFuses pins rest
              (if ("!" ++ nm) ∈ (if nm ∈ product then product.erase nm else product) then
                 (if nm ∈ product then product.erase nm else product).erase ("!" ++ nm)
               else (if nm ∈ product then product.erase nm else product)) with
          | error e =>
              rw [hrec] at hres
              cases hres
          | ok pr =>
              rw [hrec] at hres
              obtain ⟨fuses, leftover⟩ := pr
              simp only [Except.ok.injEq, Prod.mk.injEq] at hres
              rw [← hres.2]
              exact ih _ lit fuses leftover hm2
                (fun q hq nm2 hl => hne q (by simp [hq]) nm2 hl) hrec

/-- More than seven (clean) products overflow the term rows. -/
theorem checkLevelProducts_overflow (pins : List (Nat × String)) (name : String) :
    ∀ (products : List (List String)) (idx : Nat), products ≠ [] →
    7 < idx + products.length →
    (∀ p ∈ products, ∃ f, buildProductFuses pins inputPinOrder p = .ok (f, [])) →
    checkLevelProducts pins name idx products = .error (.tooManyProducts name) := by
  intro products
  induction products with
  | nil =>
      intro idx hne _ _
      exact absurd rfl hne
  | cons p rest ih =>
      intro idx _ hlen hclean
      by_cases hidx : idx > 6
      · simp only [checkLevelProducts]
        rw [if_pos hidx]
      · obtain ⟨f, hf⟩ := hclean p (by simp)
        have hrest : rest ≠ [] := by
          intro h
          rw [h] at hlen
          simp at hlen
          omega
        have hih := ih (idx + 1) hrest (by simp at hlen ⊢; omega)
          (fun q hq => hclean q (by simp [hq]))
        simp only [checkLevelProducts, hf, hih]
        rw [if_neg hidx]
        simp

/-- A product containing a literal that matches no declared input-column
pin name makes the level loop raise the undefined-pin error (provided the
row budget is not exhausted first and all column pins are declared). -/
theorem checkLevelProducts_leftover (pins : List (Nat × String)) (name : String) :
    ∀ (products : List (List String)) (idx : Nat) (p : List String) (lit : String),
    p ∈ products → idx + products.length ≤ 7 → lit ∈ p →
    (∀ pn ∈ inputPinOrder, (dictLookup pins pn).isSome) →
    (∀ pn ∈ inputPinOrder, ∀ nm, dictLookup pins pn = some nm →
       lit ≠ nm ∧ lit ≠ "!" ++ nm) →
    checkLevelProducts pins name idx products = .error (.undefinedPins name) := by
  intro products
  induction products with
  | nil =>
      intro idx p lit hp
      simp at hp
  | cons q rest ih =>
      intro idx p lit hp hlen hlit hdecl hne
      have hidx : ¬ idx > 6 := by
        simp only [List.length_cons] at hlen
        omega
      obtain ⟨f, lo, hres⟩ := buildProductFuses_total pins inputPinOrder q hdecl
      rcases List.mem_cons.mp hp with hqp | hprest
      · have hmem : lit ∈ lo :=
          buildProductFuses_leftover pins inputPinOrder q lit f lo
            (by rw [← hqp]; exact hlit) hne hres
        simp only [checkLevelProducts, hres]
        rw [if_neg hidx, if_pos (List.ne_nil_of_mem hmem)]
      · by_cases hlo : lo = []
        · have hih := ih (idx + 1) p lit hprest
            (by simp only [List.length_cons] at hlen; omega) hlit hdecl hne
          simp only [checkLevelProducts, hres, hlo, hih]
          rw [if_neg hidx]
          simp
        · simp only [checkLevelProducts, hres]
          rw [if_neg hidx, if_pos hlo]

/-- C8 amended: the named unsupported-equation errors fire as follows. A
level equation that is not negated raises the non-negated error; a
negated OE equation raises the negated-OE error; an OE sum with more than
one product raises the too-many-OE-products error; a level sum of more
than seven products (each of whose literals all match input columns)
raises the too-many-products error; and the undefined-pin error is raised
not for missing PIN declarations but for any product literal that matches
none of the declared names of the 16 input-capable fuse columns — in
particular a literal naming a DECLARED output-only pin (12 or 19) raises
it, which refutes the original "references only declared pins" reading. -/
theorem c8_unsupported_equations :
    (∀ st name eq, dictLookup st.equations name = some eq → eq.negated = false →
       checkPinLevel st name = .error (.nonNegated name)) ∧
    (∀ st name eq, dictLookup st.oeEquations name = some eq → eq.negated = true →
       checkPinOe st name = .error (.negatedOe name)) ∧
    (∀ st name eq products, dictLookup st.oeEquations name = some eq →
       eq.negated = false → eq.rhs = .sop products → 1 < products.length →
       checkPinOe st name = .error (.tooManyOeProducts name)) ∧
    (∀ st name eq products, dictLookup st.equations name = some eq →
       eq.negated = true → eq.rhs = .sop products → 7 < products.length →
       (∀ p ∈ products, ∃ f,
          buildProductFuses st.pinnameByPinnumber inputPinOrder p = .ok (f, [])) →
       checkPinLevel st name = .error (.tooManyProducts name)) ∧
    (∀ st name eq products p lit, dictLookup st.equations name = some eq →
       eq.negated = true → eq.rhs = .sop products → products.length ≤ 7 →
       p ∈ products → lit ∈ p →
       (∀ pn ∈ inputPinOrder, (dictLookup st.pinnameByPinnumber pn).isSome) →
       (∀ kv ∈ st.pinnameByPinnumber, kv.1 ∈ inputPinOrder →
          lit ≠ kv.2 ∧ lit ≠ "!" ++ kv.2) →
       checkPinLevel st name = .error (.undefinedPins name)) := by
  refine ⟨?_, ?_, ?_, ?_, ?_⟩
  · intro st name eq hlk hneg
    unfold checkPinLevel
    rw [hlk]
    simp [hneg]
  · intro st name eq hlk hneg
    unfold checkPinOe
    rw [hlk]
    simp [hneg]
  · intro st name eq products hlk hneg hrhs hlen
    unfold checkPinOe
    rw [hlk]
    simp only [hneg, hrhs, Bool.false_eq_true, if_false]
    rw [if_pos hlen]
  · intro st name eq products hlk hneg hrhs hlen hclean
    unfold checkPinLevel
    rw [hlk]
    simp only [hneg, hrhs]
    rw [if_neg (by simp)]
    rw [checkLevelProducts_overflow st.pinnameByPinnumber name products 0
          (by intro h; rw [h] at hlen; simp at hlen) (by omega) hclean]
  · intro st name eq products p lit hlk hneg hrhs hlen hp hlit hdecl hneD
    unfold checkPinLevel
    rw [hlk]
    simp only [hneg, hrhs]
    rw [if_neg (by simp)]
    have hne : ∀ pn ∈ inputPinOrder, ∀ nm,
        dictLookup st.pinnameByPinnumber pn = some nm →
        lit ≠ nm ∧ lit ≠ "!" ++ nm :=
      fun pn hpn nm hl => hneD (pn, nm) (dictLookup_mem _ _ _ hl) hpn
    rw [checkLevelProducts_leftover st.pinnameByPinnumber name products 0 p lit hp
          (by omega) hlit hdecl hne]

/-- All 18 pins declared with pete-style names pK. -/
def fullPinMap : List (Nat × String) :=
  ((List.range' 1 9) ++ (List.range' 11 9)).map (fun k => (k, "p" ++ toString k))

/-- A state in which every pin is declared and pin 19 carries the level
equation whose single product is the single literal p12. -/
def c8WitState : AsmState :=
  ⟨fullPinMap, [], [("p19", ⟨true, .sop [["p12"]]⟩)], []⟩

theorem c8_unsupported_equations_witness :
    checkPinLevel c8WitState "p19" = .error (.undefinedPins "p19") :=
  c8_unsupported_equations.2.2.2.2 c8WitState "p19" ⟨true, .sop [["p12"]]⟩
    [["p12"]] ["p12"] "p12" (by decide) rfl rfl (by decide) (by decide)
    (by decide) (by decide) (by decide)

/-! ## Verification of the Quine-McCluskey model

Association-list laws for the implicant tables and the pending worklist,
and the popcount grading of masks used by the worklist frontier. -/

theorem lookupTrue_insertTrue (l : List (Nat × TrueAttrs)) (p q : Nat) (a : TrueAttrs) :
    lookupTrue (insertTrue l p a) q = if p = q then some a else lookupTrue l q := by
  induction l with
  | nil =>
      by_cases h : p = q <;> simp [insertTrue, lookupTrue, h]
  | cons kv rest ih =>
      obtain ⟨k0, a0⟩ := kv
      simp only [insertTrue]
      by_cases h0 : k0 = p
      · rw [if_pos h0]
        simp only [lookupTrue]
        by_cases h : p = q
        · rw [if_pos (h0.trans h), if_pos h]
        · have hne : ¬ k0 = q := fun hc => h (h0.symm.trans hc)
          rw [if_neg hne, if_neg h, if_neg hne]
      · rw [if_neg h0]
        simp only [lookupTrue]
        by_cases hkq : k0 = q
        · have hpq : ¬ p = q := fun hc => h0 (hkq.trans hc.symm)
          rw [if_pos hkq, if_neg hpq, if_pos hkq]
        · rw [if_neg hkq, ih, if_neg hkq]

theorem lookupTrue_markCombinedIn (l : List (Nat × TrueAttrs)) (p q : Nat) :
    lookupTrue (markCombinedIn l p) q =
      if q = p then (lookupTrue l q).map (fun a => ⟨a.covered, true⟩)
      else lookupTrue l q := by
  induction l with
  | nil => by_cases h : q = p <;> simp [markCombinedIn, lookupTrue, h]
  | cons kv rest ih =>
      obtain ⟨k0, a0⟩ := kv
      have step : markCombinedIn ((k0, a0) :: rest) p =
          (if k0 = p then (k0, (⟨a0.covered, true⟩ : TrueAttrs)) else (k0, a0)) ::
            markCombinedIn rest p := rfl
      rw [step]
      by_cases hk : k0 = p
      · rw [if_pos hk]
        simp only [lookupTrue]
        by_cases hkq : k0 = q
        · rw [if_pos hkq, if_pos (hkq.symm.trans hk), if_pos hkq]
          simp
        · by_cases hq : q = p
          · exact absurd (hk.trans hq.symm) hkq
          · rw [if_neg hkq, if_neg hq, ih, if_neg hq, if_neg hkq]
      · rw [if_neg hk]
        simp only [lookupTrue]
        by_cases hkq : k0 = q
        · have hq : ¬ q = p := fun hc => hk (hkq.trans hc)
          rw [if_pos hkq, if_neg hq, if_pos hkq]
        · rw [if_neg hkq, ih]
          by_cases hq : q = p
          · rw [if_pos hq, if_pos hq]
            simp only [lookupTrue, if_neg hkq]
          · rw [if_neg hq, if_neg hq, if_neg hkq]

theorem mem_insertDc (l : List Nat) (p q : Nat) :
    q ∈ insertDc l p ↔ q ∈ l ∨ q = p := by
  unfold insertDc
  split <;> rename_i h
  · constructor
    · exact fun hq => Or.inl hq
    · rintro (hq | rfl)
      · exact hq
      · exact h
  · simp [or_comm]

def pendingLookup : Pending → Nat → Option ImplicantTable
  | [], _ => none
  | (m, t) :: rest, mask => if m = mask then some t else pendingLookup rest mask

def pendingMasks (P : Pending) : List Nat := P.map Prod.fst

theorem pendingAddTrue_lookup (P : Pending) (mask pat : Nat) (cov : Finset Nat) (m : Nat) :
    pendingLookup (pendingAddTrue P mask pat cov) m =
      if mask = m then
        some (match pendingLookup P m with
          | some t => { t with trueImplicants := insertTrue t.trueImplicants pat ⟨cov, false⟩ }
          | none => ⟨[(pat, ⟨cov, false⟩)], []⟩)
      else pendingLookup P m := by
  induction P with
  | nil => by_cases h : mask = m <;> simp [pendingAddTrue, pendingLookup, h]
  | cons e rest ih =>
      obtain ⟨m0, t0⟩ := e
      simp only [pendingAddTrue]
      by_cases h0 : m0 = mask
      · rw [if_pos h0]
        simp only [pendingLookup]
        by_cases h0m : m0 = m
        · rw [if_pos h0m, if_pos (h0.symm.trans h0m), if_pos h0m]
        · have hmm : ¬ mask = m := fun hc => h0m (h0.trans hc)
          rw [if_neg h0m, if_neg hmm, if_neg h0m]
      · rw [if_neg h0]
        simp only [pendingLookup]
        by_cases h0m : m0 = m
        · have hmm : ¬ mask = m := fun hc => h0 (h0m.trans hc.symm)
          rw [if_pos h0m, if_neg hmm, if_pos h0m]
        · rw [if_neg h0m, ih]
          by_cases h : mask = m
          · rw [if_pos h, if_pos h, if_neg h0m]
          · rw [if_neg h, if_neg h, if_neg h0m]

theorem pendingAddDc_lookup (P : Pending) (mask pat : Nat) (m : Nat) :
    pendingLookup (pendingAddDc P mask pat) m =
      if mask = m then
        some (match pendingLookup P m with
          | some t => { t with dontcareImplicants := insertDc t.dontcareImplicants pat }
          | none => ⟨[], [pat]⟩)
      else pendingLookup P m := by
  induction P with
  | nil => by_cases h : mask = m <;> simp [pendingAddDc, pendingLookup, h]
  | cons e rest ih =>
      obtain ⟨m0, t0⟩ := e
      simp only [pendingAddDc]
      by_cases h0 : m0 = mask
      · rw [if_pos h0]
        simp only [pendingLookup]
        by_cases h0m : m0 = m
        · rw [if_pos h0m, if_pos (h0.symm.trans h0m), if_pos h0m]
        · have hmm : ¬ mask = m := fun hc => h0m (h0.trans hc)
          rw [if_neg h0m, if_neg hmm, if_neg h0m]
      · rw [if_neg h0]
        simp only [pendingLookup]
        by_cases h0m : m0 = m
        · have hmm : ¬ mask = m := fun hc => h0 (h0m.trans hc.symm)
          rw [if_pos h0m, if_neg hmm, if_pos h0m]
        · rw [if_neg h0m, ih]
          by_cases h : mask = m
          · rw [if_pos h, if_pos h, if_neg h0m]
          · rw [if_neg h, if_neg h, if_neg h0m]

theorem pendingAddTrue_masks (P : Pending) (mask pat : Nat) (cov : Finset Nat) :
    pendingMasks (pendingAddTrue P mask pat cov) =
      if mask ∈ pendingMasks P then pendingMasks P else pendingMasks P ++ [mask] := by
  induction P with
  | nil => simp [pendingAddTrue, pendingMasks]
  | cons e rest ih =>
      obtain ⟨m0, t0⟩ := e
      by_cases h0 : m0 = mask
      · subst h0
        simp [pendingAddTrue, pendingMasks]
      · have h0' : ¬ mask = m0 := fun hc => h0 hc.symm
        have step : pendingAddTrue ((m0, t0) :: rest) mask pat cov =
            (m0, t0) :: pendingAddTrue rest mask pat cov := by
          simp only [pendingAddTrue, if_neg h0]
        have hm : pendingMasks ((m0, t0) :: pendingAddTrue rest mask pat cov) =
            m0 :: pendingMasks (pendingAddTrue rest mask pat cov) := rfl
        have hcons : pendingMasks ((m0, t0) :: rest) = m0 :: pendingMasks rest := rfl
        rw [step, hm, ih, hcons]
        by_cases hmem : mask ∈ pendingMasks rest <;>
          simp [List.mem_cons, h0', hmem, List.cons_append]

theorem pendingAddDc_masks (P : Pending) (mask pat : Nat) :
    pendingMasks (pendingAddDc P mask pat) =
      if mask ∈ pendingMasks P then pendingMasks P else pendingMasks P ++ [mask] := by
  induction P with
  | nil => simp [pendingAddDc, pendingMasks]
  | cons e rest ih =>
      obtain ⟨m0, t0⟩ := e
      by_cases h0 : m0 = mask
      · subst h0
        simp [pendingAddDc, pendingMasks]
      · have h0' : ¬ mask = m0 := fun hc => h0 hc.symm
        have step : pendingAddDc ((m0, t0) :: rest) mask pat =
            (m0, t0) :: pendingAddDc rest mask pat := by
          simp only [pendingAddDc, if_neg h0]
        have hm : pendingMasks ((m0, t0) :: pendingAddDc rest mask pat) =
            m0 :: pendingMasks (pendingAddDc rest mask pat) := rfl
        have hcons : pendingMasks ((m0, t0) :: rest) = m0 :: pendingMasks rest := rfl
        rw [step, hm, ih, hcons]
        by_cases hmem : mask ∈ pendingMasks rest <;>
          simp [List.mem_cons, h0', hmem, List.cons_append]

/-! ### The popcount grading of masks -/

def maskLevel (nv m : Nat) : Nat :=
  ((Finset.range nv).filter (fun j => m.testBit j)).card

theorem maskLevel_xor_bit {nv m j : Nat} (hj : j < nv) (hb : m.testBit j = true) :
    maskLevel nv (m ^^^ (1 <<< j)) + 1 = maskLevel nv m := by
  unfold maskLevel
  have hset : (Finset.range nv).filter (fun i => (m ^^^ (1 <<< j)).testBit i) =
      ((Finset.range nv).filter (fun i => m.testBit i)).erase j := by
    ext i
    simp only [Finset.mem_filter, Finset.mem_erase, Finset.mem_range]
    by_cases hij : i = j
    · subst hij
      have hx : (m ^^^ (1 <<< i)).testBit i = false := by
        rw [Nat.testBit_xor, hb, Nat.one_shiftLeft, Nat.testBit_two_pow]
        simp
      simp [hx, hb]
    · have hx : (m ^^^ (1 <<< j)).testBit i = m.testBit i := by
        rw [Nat.testBit_xor, Nat.one_shiftLeft, Nat.testBit_two_pow]
        have : ¬ j = i := fun hc => hij hc.symm
        simp [this]
      rw [hx]
      tauto
  rw [hset, Finset.card_erase_of_mem]
  · have hmem : j ∈ (Finset.range nv).filter (fun i => m.testBit i) := by
      simp only [Finset.mem_filter, Finset.mem_range]
      exact ⟨hj, hb⟩
    have := Finset.card_pos.mpr ⟨j, hmem⟩
    omega
  · simp only [Finset.mem_filter, Finset.mem_range]
    exact ⟨hj, hb⟩

theorem maskLevel_full (nv : Nat) : maskLevel nv (2 ^ nv - 1) = nv := by
  unfold maskLevel
  have hset : (Finset.range nv).filter (fun j => (2 ^ nv - 1).testBit j) = Finset.range nv := by
    ext i
    simp only [Finset.mem_filter, Finset.mem_range, Nat.testBit_two_pow_sub_one,
      decide_eq_true_eq]
    tauto
  rw [hset, Finset.card_range]

theorem subMask_testBit {m full : Nat} (h : m &&& full = m) {j : Nat}
    (hj : m.testBit j = true) : full.testBit j = true := by
  have h2 := congrArg (fun x => x.testBit j) h
  simp only [Nat.testBit_land] at h2
  rw [hj] at h2
  simpa using h2

theorem testBit_ge_of_subMask {nv m : Nat} (h : m &&& (2 ^ nv - 1) = m) {j : Nat}
    (hj : nv ≤ j) : m.testBit j = false := by
  cases hcb : m.testBit j
  · rfl
  · have := subMask_testBit h hcb
    rw [Nat.testBit_two_pow_sub_one] at this
    simp only [decide_eq_true_eq] at this
    omega

theorem maskLevel_le (nv m : Nat) : maskLevel nv m ≤ nv := by
  unfold maskLevel
  calc ((Finset.range nv).filter (fun j => m.testBit j)).card
      ≤ (Finset.range nv).card := Finset.card_filter_le _ _
    _ = nv := Finset.card_range nv

theorem maskLevel_eq_full {nv m : Nat} (h : m &&& (2 ^ nv - 1) = m)
    (hl : maskLevel nv m = nv) : m = 2 ^ nv - 1 := by
  have hsub : (Finset.range nv).filter (fun j => m.testBit j) ⊆ Finset.range nv :=
    Finset.filter_subset _ _
  have heq : (Finset.range nv).filter (fun j => m.testBit j) = Finset.range nv := by
    apply Finset.eq_of_subset_of_card_le hsub
    rw [Finset.card_range]
    unfold maskLevel at hl
    omega
  apply Nat.eq_of_testBit_eq
  intro i
  rw [Nat.testBit_two_pow_sub_one]
  by_cases hi : i < nv
  · have hmem : i ∈ (Finset.range nv).filter (fun j => m.testBit j) := by
      rw [heq]
      simp [hi]
    simp only [Finset.mem_filter] at hmem
    simp [hi, hmem.2]
  · have hge : m.testBit i = false := testBit_ge_of_subMask h (Nat.le_of_not_lt hi)
    simp [hi, hge]

theorem maskLevel_lt_exists {nv m : Nat} (h : m &&& (2 ^ nv - 1) = m)
    (hl : maskLevel nv m < nv) : ∃ j, j < nv ∧ m.testBit j = false := by
  by_contra hcon
  push_neg at hcon
  have hm : m = 2 ^ nv - 1 := by
    apply Nat.eq_of_testBit_eq
    intro i
    rw [Nat.testBit_two_pow_sub_one]
    by_cases hi : i < nv
    · have ht : m.testBit i = true := by
        cases hcb : m.testBit i
        · exact absurd hcb (hcon i hi)
        · rfl
      simp [hi, ht]
    · have hge : m.testBit i = false := testBit_ge_of_subMask h (Nat.le_of_not_lt hi)
      simp [hi, hge]
  rw [hm, maskLevel_full] at hl
  omega

theorem maskLevel_zero {nv m : Nat} (h : m &&& (2 ^ nv - 1) = m)
    (hl : maskLevel nv m = 0) : m = 0 := by
  apply Nat.eq_of_testBit_eq
  intro i
  simp only [Nat.zero_testBit]
  by_cases hi : i < nv
  · cases hcb : m.testBit i
    · rfl
    · exfalso
      have hmem : i ∈ (Finset.range nv).filter (fun j => m.testBit j) := by
        simp only [Finset.mem_filter, Finset.mem_range]
        exact ⟨hi, hcb⟩
      rw [Finset.card_eq_zero.mp hl] at hmem
      simp at hmem
  · exact testBit_ge_of_subMask h (Nat.le_of_not_lt hi)

/-! ### Bit lemmas for cube reasoning -/

theorem land_shift_ne {m j : Nat} : m &&& (1 <<< j) ≠ 0 ↔ m.testBit j = true := by
  rw [Nat.one_shiftLeft]
  constructor
  · intro h
    cases hcb : m.testBit j
    · exfalso
      apply h
      apply Nat.eq_of_testBit_eq
      intro i
      simp only [Nat.testBit_land, Nat.testBit_two_pow, Nat.zero_testBit]
      by_cases hij : j = i
      · subst hij
        simp [hcb]
      · simp [hij]
    · rfl
  · intro h hz
    have := congrArg (fun x => x.testBit j) hz
    simp [Nat.testBit_land, Nat.testBit_two_pow, h] at this

theorem subMask_trans {a b c : Nat} (hab : a &&& b = a) (hbc : b &&& c = b) :
    a &&& c = a := by
  apply Nat.eq_of_testBit_eq
  intro i
  simp only [Nat.testBit_land]
  cases hcb : a.testBit i
  · simp
  · have hb : b.testBit i = true := subMask_testBit hab hcb
    have hc : c.testBit i = true := subMask_testBit hbc hb
    simp [hc]

theorem xor_bit_subMask {m j : Nat} (hb : m.testBit j = true) :
    (m ^^^ (1 <<< j)) &&& m = m ^^^ (1 <<< j) := by
  apply Nat.eq_of_testBit_eq
  intro i
  simp only [Nat.testBit_land, Nat.testBit_xor, Nat.one_shiftLeft, Nat.testBit_two_pow]
  by_cases hij : j = i
  · subst hij
    simp [hb]
  · simp [hij]

theorem xor_bit_testBit_self {m j : Nat} : (m ^^^ (1 <<< j)).testBit j = !(m.testBit j) := by
  simp [Nat.testBit_xor, Nat.one_shiftLeft, Nat.testBit_two_pow]

theorem xor_bit_testBit_other {m j i : Nat} (hij : ¬ j = i) :
    (m ^^^ (1 <<< j)).testBit i = m.testBit i := by
  simp only [Nat.testBit_xor, Nat.one_shiftLeft, Nat.testBit_two_pow]
  simp [hij]

theorem land_assoc_right (a b : Nat) : (a &&& b) &&& b = a &&& b := by
  apply Nat.eq_of_testBit_eq
  intro i
  simp only [Nat.testBit_land]
  cases a.testBit i <;> cases b.testBit i <;> simp

/-- A point of the combined (child) cube projects to one of the two parent
patterns under the parent mask. -/
theorem child_point_parents {m0 j pat x : Nat} (hpat : pat &&& m0 = pat)
    (hj : m0.testBit j = true)
    (hx : x &&& (m0 ^^^ (1 <<< j)) = pat &&& (m0 ^^^ (1 <<< j))) :
    x &&& m0 = pat ∨ x &&& m0 = pat ^^^ (1 <<< j) := by
  have hbit : ∀ i, ¬ j = i → (x.testBit i && m0.testBit i) = pat.testBit i := by
    intro i hij
    have hmi : (m0 ^^^ (1 <<< j)).testBit i = m0.testBit i := xor_bit_testBit_other hij
    have h1 := congrArg (fun y => y.testBit i) hx
    simp only [Nat.testBit_land, hmi] at h1
    have h2 := congrArg (fun y => y.testBit i) hpat
    simp only [Nat.testBit_land] at h2
    rw [h1, h2]
  by_cases hxj : x.testBit j = pat.testBit j
  · left
    apply Nat.eq_of_testBit_eq
    intro i
    by_cases hij : j = i
    · subst hij
      simp only [Nat.testBit_land, hj, Bool.and_true, hxj]
    · simp only [Nat.testBit_land]
      exact hbit i hij
  · right
    apply Nat.eq_of_testBit_eq
    intro i
    by_cases hij : j = i
    · subst hij
      simp only [Nat.testBit_land, hj, Bool.and_true, xor_bit_testBit_self]
      revert hxj
      cases x.testBit j <;> cases pat.testBit j <;> simp
    · rw [xor_bit_testBit_other hij]
      simp only [Nat.testBit_land]
      exact hbit i hij

/-- Points of a parent cube are points of the combined child cube. -/
theorem parent_point_child {m0 j pat y : Nat} (hj : m0.testBit j = true)
    (hy : y &&& m0 = pat ∨ y &&& m0 = pat ^^^ (1 <<< j)) :
    y &&& (m0 ^^^ (1 <<< j)) = pat &&& (m0 ^^^ (1 <<< j))  := by
  apply Nat.eq_of_testBit_eq
  intro i
  by_cases hij : j = i
  · subst hij
    simp [Nat.testBit_land, xor_bit_testBit_self, hj]
  · have hm : (m0 ^^^ (1 <<< j)).testBit i = m0.testBit i := xor_bit_testBit_other hij
    simp only [Nat.testBit_land, hm]
    rcases hy with hy | hy
    · have h1 := congrArg (fun z => z.testBit i) hy
      simp only [Nat.testBit_land] at h1
      rw [← h1]
      cases y.testBit i <;> cases m0.testBit i <;> simp
    · have h1 := congrArg (fun z => z.testBit i) hy
      simp only [Nat.testBit_land, xor_bit_testBit_other hij] at h1
      rw [← h1]
      cases y.testBit i <;> cases m0.testBit i <;> simp

/-! ### Cube predicates -/

def GoodCube (nv : Nat) (mts dcs : List Nat) (pat mask : Nat) : Prop :=
  pat &&& mask = pat ∧ ∀ x, x < 2 ^ nv → x &&& mask = pat → x ∈ mts ∨ x ∈ dcs

def HasMintermPoint (nv : Nat) (mts : List Nat) (pat mask : Nat) : Prop :=
  ∃ x, x ∈ mts ∧ x < 2 ^ nv ∧ x &&& mask = pat

structure CubeT (nv : Nat) (mts dcs : List Nat) (mask pat : Nat) (S : Finset Nat) : Prop where
  canon : pat &&& mask = pat
  sound : ∀ x, x < 2 ^ nv → x &&& mask = pat → x ∈ mts ∨ x ∈ dcs
  covS : ∀ i ∈ S, ∃ x, mts.get? i = some x ∧ x &&& mask = pat
  covNE : S.Nonempty
  jprop : ∀ x, x ∈ mts → x < 2 ^ nv → x &&& mask = pat → ∃ i ∈ S, mts.get? i = some x

structure CubeDc (nv : Nat) (dcs : List Nat) (mask pat : Nat) : Prop where
  canon : pat &&& mask = pat
  dcsound : ∀ x, x < 2 ^ nv → x &&& mask = pat → x ∈ dcs

structure TableOk (nv : Nat) (mts dcs : List Nat) (mask : Nat) (t : ImplicantTable) : Prop where
  trueOk : ∀ pat a, lookupTrue t.trueImplicants pat = some a →
    CubeT nv mts dcs mask pat a.covered
  dcOk : ∀ pat, pat ∈ t.dontcareImplicants → CubeDc nv dcs mask pat
  keysOk : (t.trueImplicants.map Prod.fst).Nodup

def FlagsFalse (t : ImplicantTable) : Prop :=
  ∀ pat a, lookupTrue t.trueImplicants pat = some a → a.wasCombined = false

def patPresent (t : ImplicantTable) (q : Nat) : Prop :=
  (lookupTrue t.trueImplicants q).isSome = true ∨ q ∈ t.dontcareImplicants

def flagTrue (t : ImplicantTable) (q : Nat) : Prop :=
  ∃ a, lookupTrue t.trueImplicants q = some a ∧ a.wasCombined = true

def present (nv : Nat) (mts : List Nat) (mask : Nat) (t : ImplicantTable) (pat : Nat) : Prop :=
  (HasMintermPoint nv mts pat mask → (lookupTrue t.trueImplicants pat).isSome = true) ∧
  (¬ HasMintermPoint nv mts pat mask → pat ∈ t.dontcareImplicants)

def pendHasTrue (P : Pending) (mask pat : Nat) : Prop :=
  ∃ t, pendingLookup P mask = some t ∧ (lookupTrue t.trueImplicants pat).isSome = true

def pendHasDc (P : Pending) (mask pat : Nat) : Prop :=
  ∃ t, pendingLookup P mask = some t ∧ pat ∈ t.dontcareImplicants

def MaximalCube (nv : Nat) (mts dcs : List Nat) (pat mask : Nat) : Prop :=
  ∀ j, j < nv → mask.testBit j = true →
    ¬ GoodCube nv mts dcs (pat &&& (mask ^^^ (1 <<< j))) (mask ^^^ (1 <<< j))

def sameCore (t t' : ImplicantTable) : Prop :=
  t.trueImplicants.map Prod.fst = t'.trueImplicants.map Prod.fst ∧
  (∀ q, (lookupTrue t.trueImplicants q).map TrueAttrs.covered =
        (lookupTrue t'.trueImplicants q).map TrueAttrs.covered) ∧
  t.dontcareImplicants = t'.dontcareImplicants

/-! ### List-level dictionary lemmas -/

theorem lookupTrue_isSome_iff (l : List (Nat × TrueAttrs)) (p : Nat) :
    (lookupTrue l p).isSome = true ↔ p ∈ l.map Prod.fst := by
  induction l with
  | nil => simp [lookupTrue]
  | cons kv rest ih =>
      obtain ⟨k0, a0⟩ := kv
      simp only [lookupTrue, List.map_cons, List.mem_cons]
      by_cases h : k0 = p
      · subst h
        simp
      · have h' : ¬ p = k0 := fun hc => h hc.symm
        simp [h, h', ih]

theorem lookupTrue_mem {l : List (Nat × TrueAttrs)} {p : Nat} {a : TrueAttrs}
    (h : lookupTrue l p = some a) : (p, a) ∈ l := by
  induction l with
  | nil => simp [lookupTrue] at h
  | cons kv rest ih =>
      obtain ⟨k0, a0⟩ := kv
      simp only [lookupTrue] at h
      by_cases h0 : k0 = p
      · rw [if_pos h0] at h
        subst h0
        cases h
        exact List.mem_cons_self _ _
      · rw [if_neg h0] at h
        exact List.mem_cons_of_mem _ (ih h)

theorem lookupTrue_of_mem_nodup {l : List (Nat × TrueAttrs)} {p : Nat} {a : TrueAttrs}
    (hnd : (l.map Prod.fst).Nodup) (hmem : (p, a) ∈ l) : lookupTrue l p = some a := by
  induction l with
  | nil => simp at hmem
  | cons kv rest ih =>
      obtain ⟨k0, a0⟩ := kv
      simp only [List.map_cons, List.nodup_cons] at hnd
      rcases List.mem_cons.mp hmem with heq | hmem'
      · cases heq
        simp [lookupTrue]
      · have hk0 : ¬ k0 = p := by
          intro hc
          subst hc
          exact hnd.1 (List.mem_map.mpr ⟨(k0, a), hmem', rfl⟩)
        simp only [lookupTrue, if_neg hk0]
        exact ih hnd.2 hmem'

theorem insertTrue_keys (l : List (Nat × TrueAttrs)) (p : Nat) (a : TrueAttrs) :
    (insertTrue l p a).map Prod.fst =
      if p ∈ l.map Prod.fst then l.map Prod.fst else l.map Prod.fst ++ [p] := by
  induction l with
  | nil => simp [insertTrue]
  | cons kv rest ih =>
      obtain ⟨k0, a0⟩ := kv
      by_cases h0 : k0 = p
      · subst h0
        simp [insertTrue]
      · have h0' : ¬ p = k0 := fun hc => h0 hc.symm
        simp only [insertTrue, if_neg h0, List.map_cons, ih]
        by_cases hmem : p ∈ rest.map Prod.fst <;>
          simp [List.mem_cons, h0', hmem]

theorem insertTrue_keys_nodup {l : List (Nat × TrueAttrs)} {p : Nat} {a : TrueAttrs}
    (hnd : (l.map Prod.fst).Nodup) : ((insertTrue l p a).map Prod.fst).Nodup := by
  rw [insertTrue_keys]
  by_cases hmem : p ∈ l.map Prod.fst
  · rwa [if_pos hmem]
  · rw [if_neg hmem]
    simp [List.nodup_append, hnd, hmem]

theorem markCombinedIn_keys (l : List (Nat × TrueAttrs)) (p : Nat) :
    (markCombinedIn l p).map Prod.fst = l.map Prod.fst := by
  induction l with
  | nil => rfl
  | cons kv rest ih =>
      obtain ⟨k0, a0⟩ := kv
      by_cases h : k0 = p <;> simp [markCombinedIn, h] <;>
        simpa [markCombinedIn] using ih

theorem sameCore_refl (t : ImplicantTable) : sameCore t t :=
  ⟨rfl, fun _ => rfl, rfl⟩

theorem sameCore_mark {t t0 : ImplicantTable} (h : sameCore t t0) (p : Nat) :
    sameCore { t with trueImplicants := markCombinedIn t.trueImplicants p } t0 := by
  obtain ⟨hk, hc, hd⟩ := h
  refine ⟨?_, ?_, hd⟩
  · rw [markCombinedIn_keys]
    exact hk
  · intro q
    rw [lookupTrue_markCombinedIn]
    by_cases hq : q = p
    · rw [if_pos hq, ← hc q]
      cases lookupTrue t.trueImplicants q <;> rfl
    · rw [if_neg hq]
      exact hc q

theorem sameCore_patPresent {t t0 : ImplicantTable} (h : sameCore t t0) (q : Nat) :
    patPresent t q ↔ patPresent t0 q := by
  obtain ⟨hk, _, hd⟩ := h
  unfold patPresent
  rw [lookupTrue_isSome_iff, lookupTrue_isSome_iff, hk, hd]

theorem sameCore_covered {t t0 : ImplicantTable} (h : sameCore t t0) {q : Nat}
    {a : TrueAttrs} (hl : lookupTrue t.trueImplicants q = some a) :
    ∃ a0, lookupTrue t0.trueImplicants q = some a0 ∧ a0.covered = a.covered := by
  have := h.2.1 q
  rw [hl] at this
  cases hl0 : lookupTrue t0.trueImplicants q with
  | none => rw [hl0] at this; simp at this
  | some a0 =>
      rw [hl0] at this
      exact ⟨a0, rfl, (Option.some.inj this).symm⟩

theorem sameCore_isSome {t t0 : ImplicantTable} (h : sameCore t t0) (q : Nat) :
    (lookupTrue t.trueImplicants q).isSome = (lookupTrue t0.trueImplicants q).isSome := by
  have h1 := lookupTrue_isSome_iff t.trueImplicants q
  have h2 := lookupTrue_isSome_iff t0.trueImplicants q
  rw [h.1] at h1
  by_cases hm : q ∈ t0.trueImplicants.map Prod.fst
  · rw [h1.mpr hm, h2.mpr hm]
  · have e1 : (lookupTrue t.trueImplicants q).isSome = false := by
      cases hcb : (lookupTrue t.trueImplicants q).isSome
      · rfl
      · exact absurd (h1.mp hcb) hm
    have e2 : (lookupTrue t0.trueImplicants q).isSome = false := by
      cases hcb : (lookupTrue t0.trueImplicants q).isSome
      · rfl
      · exact absurd (h2.mp hcb) hm
    rw [e1, e2]

theorem sameCore_tableOk {nv : Nat} {mts dcs : List Nat} {mask : Nat}
    {t t0 : ImplicantTable} (h : sameCore t t0) (hok : TableOk nv mts dcs mask t0) :
    TableOk nv mts dcs mask t := by
  refine ⟨?_, ?_, ?_⟩
  · intro pat a hl
    obtain ⟨a0, hl0, hcov⟩ := sameCore_covered h hl
    have := hok.trueOk pat a0 hl0
    rw [hcov] at this
    exact this
  · intro pat hmem
    rw [h.2.2] at hmem
    exact hok.dcOk pat hmem
  · rw [h.1]
    exact hok.keysOk

/-! ### Cube combination lemmas -/

theorem cubeT_combine {nv : Nat} {mts dcs : List Nat} {m0 pat j : Nat}
    {S1 S2 : Finset Nat} (hj : m0.testBit j = true)
    (c1 : CubeT nv mts dcs m0 pat S1) (c2 : CubeT nv mts dcs m0 (pat ^^^ (1 <<< j)) S2) :
    CubeT nv mts dcs (m0 ^^^ (1 <<< j)) (pat &&& (m0 ^^^ (1 <<< j))) (S1 ∪ S2) := by
  refine ⟨land_assoc_right _ _, ?_, ?_, ?_, ?_⟩
  · intro x hx hxp
    rcases child_point_parents c1.canon hj hxp with hc | hc
    · exact c1.sound x hx hc
    · exact c2.sound x hx hc
  · intro i hi
    rcases Finset.mem_union.mp hi with hi | hi
    · obtain ⟨x, hg, hm⟩ := c1.covS i hi
      exact ⟨x, hg, parent_point_child hj (Or.inl hm)⟩
    · obtain ⟨x, hg, hm⟩ := c2.covS i hi
      exact ⟨x, hg, parent_point_child hj (Or.inr hm)⟩
  · obtain ⟨i, hi⟩ := c1.covNE
    exact ⟨i, Finset.mem_union_left _ hi⟩
  · intro x hxm hxlt hxp
    rcases child_point_parents c1.canon hj hxp with hc | hc
    · obtain ⟨i, hi, hg⟩ := c1.jprop x hxm hxlt hc
      exact ⟨i, Finset.mem_union_left _ hi, hg⟩
    · obtain ⟨i, hi, hg⟩ := c2.jprop x hxm hxlt hc
      exact ⟨i, Finset.mem_union_right _ hi, hg⟩

theorem cubeT_combine_dc {nv : Nat} {mts dcs : List Nat} {m0 pat j : Nat}
    {S : Finset Nat} (hj : m0.testBit j = true)
    (c1 : CubeT nv mts dcs m0 pat S) (c2 : CubeDc nv dcs m0 (pat ^^^ (1 <<< j)))
    (hnm : ¬ HasMintermPoint nv mts (pat ^^^ (1 <<< j)) m0) :
    CubeT nv mts dcs (m0 ^^^ (1 <<< j)) (pat &&& (m0 ^^^ (1 <<< j))) S := by
  refine ⟨land_assoc_right _ _, ?_, ?_, c1.covNE, ?_⟩
  · intro x hx hxp
    rcases child_point_parents c1.canon hj hxp with hc | hc
    · exact c1.sound x hx hc
    · exact Or.inr (c2.dcsound x hx hc)
  · intro i hi
    obtain ⟨x, hg, hm⟩ := c1.covS i hi
    exact ⟨x, hg, parent_point_child hj (Or.inl hm)⟩
  · intro x hxm hxlt hxp
    rcases child_point_parents c1.canon hj hxp with hc | hc
    · exact c1.jprop x hxm hxlt hc
    · exact absurd ⟨x, hxm, hxlt, hc⟩ hnm

theorem cubeDc_combine {nv : Nat} {dcs : List Nat} {m0 pat j : Nat}
    (hj : m0.testBit j = true)
    (c1 : CubeDc nv dcs m0 pat) (c2 : CubeDc nv dcs m0 (pat ^^^ (1 <<< j))) :
    CubeDc nv dcs (m0 ^^^ (1 <<< j)) (pat &&& (m0 ^^^ (1 <<< j))) := by
  refine ⟨land_assoc_right _ _, ?_⟩
  intro x hx hxp
  rcases child_point_parents c1.canon hj hxp with hc | hc
  · exact c1.dcsound x hx hc
  · exact c2.dcsound x hx hc

theorem goodCube_of_cubeT {nv : Nat} {mts dcs : List Nat} {mask pat : Nat}
    {S : Finset Nat} (c : CubeT nv mts dcs mask pat S) : GoodCube nv mts dcs pat mask :=
  ⟨c.canon, c.sound⟩

theorem goodCube_of_cubeDc {nv : Nat} {mts dcs : List Nat} {mask pat : Nat}
    (c : CubeDc nv dcs mask pat) : GoodCube nv mts dcs pat mask :=
  ⟨c.canon, fun x hx hxp => Or.inr (c.dcsound x hx hxp)⟩

theorem goodCube_parent {nv : Nat} {mts dcs : List Nat} {m0 j q p : Nat}
    (hgood : GoodCube nv mts dcs q (m0 ^^^ (1 <<< j))) (hj : m0.testBit j = true)
    (hp : p &&& m0 = p) (hpq : p &&& (m0 ^^^ (1 <<< j)) = q) :
    GoodCube nv mts dcs p m0 := by
  refine ⟨hp, ?_⟩
  intro x hx hxp
  apply hgood.2 x hx
  rw [← hpq]
  exact parent_point_child hj (Or.inl hxp)

/-! ### Pending-list write lemmas -/

structure PendProps (nv : Nat) (mts dcs : List Nat) (m0 : Nat) (base P : Pending) : Prop where
  masksExt : ∃ ms, pendingMasks P = pendingMasks base ++ ms ∧
      ∀ m ∈ ms, ∃ j, j < nv ∧ m0.testBit j = true ∧ m = m0 ^^^ (1 <<< j)
  nodupPres : (pendingMasks base).Nodup → (pendingMasks P).Nodup
  monoTrue : ∀ m p, pendHasTrue base m p → pendHasTrue P m p
  monoDc : ∀ m p, pendHasDc base m p → pendHasDc P m p
  tablesOk : (∀ e ∈ base, TableOk nv mts dcs e.1 e.2 ∧ FlagsFalse e.2) →
      ∀ e ∈ P, TableOk nv mts dcs e.1 e.2 ∧ FlagsFalse e.2

theorem pendProps_refl (nv : Nat) (mts dcs : List Nat) (m0 : Nat) (P : Pending) :
    PendProps nv mts dcs m0 P P :=
  ⟨⟨[], by simp, by simp⟩, fun h => h, fun _ _ h => h, fun _ _ h => h, fun h => h⟩

theorem pendProps_trans {nv : Nat} {mts dcs : List Nat} {m0 : Nat} {P1 P2 P3 : Pending}
    (h12 : PendProps nv mts dcs m0 P1 P2) (h23 : PendProps nv mts dcs m0 P2 P3) :
    PendProps nv mts dcs m0 P1 P3 := by
  refine ⟨?_, fun h => h23.nodupPres (h12.nodupPres h), ?_, ?_, ?_⟩
  · obtain ⟨ms1, he1, hp1⟩ := h12.masksExt
    obtain ⟨ms2, he2, hp2⟩ := h23.masksExt
    refine ⟨ms1 ++ ms2, ?_, ?_⟩
    · rw [he2, he1, List.append_assoc]
    · intro m hm
      rcases List.mem_append.mp hm with hm | hm
      · exact hp1 m hm
      · exact hp2 m hm
  · exact fun m p h => h23.monoTrue m p (h12.monoTrue m p h)
  · exact fun m p h => h23.monoDc m p (h12.monoDc m p h)
  · exact fun h => h23.tablesOk (h12.tablesOk h)

theorem mem_pendingAddTrue {P : Pending} {mask pat : Nat} {cov : Finset Nat} {e} :
    e ∈ pendingAddTrue P mask pat cov →
      e ∈ P ∨
      (∃ t, pendingLookup P mask = some t ∧
        e = (mask, { t with trueImplicants := insertTrue t.trueImplicants pat ⟨cov, false⟩ })) ∨
      (pendingLookup P mask = none ∧
        e = (mask, (⟨[(pat, ⟨cov, false⟩)], []⟩ : ImplicantTable))) := by
  induction P with
  | nil =>
      intro h
      simp only [pendingAddTrue, List.mem_singleton] at h
      exact Or.inr (Or.inr ⟨rfl, h⟩)
  | cons kv rest ih =>
      obtain ⟨m1, t1⟩ := kv
      intro h
      simp only [pendingAddTrue] at h
      by_cases h1 : m1 = mask
      · rw [if_pos h1] at h
        rcases List.mem_cons.mp h with heq | hmem
        · subst h1
          exact Or.inr (Or.inl ⟨t1, by simp [pendingLookup], heq⟩)
        · exact Or.inl (List.mem_cons_of_mem _ hmem)
      · rw [if_neg h1] at h
        rcases List.mem_cons.mp h with heq | hmem
        · exact Or.inl (heq ▸ List.mem_cons_self _ _)
        · rcases ih hmem with hm | hm | hm
          · exact Or.inl (List.mem_cons_of_mem _ hm)
          · obtain ⟨t, hl, he⟩ := hm
            exact Or.inr (Or.inl ⟨t, by simp [pendingLookup, h1, hl], he⟩)
          · exact Or.inr (Or.inr ⟨by simp [pendingLookup, h1, hm.1], hm.2⟩)

theorem mem_pendingAddDc {P : Pending} {mask pat : Nat} {e} :
    e ∈ pendingAddDc P mask pat →
      e ∈ P ∨
      (∃ t, pendingLookup P mask = some t ∧
        e = (mask, { t with dontcareImplicants := insertDc t.dontcareImplicants pat })) ∨
      (pendingLookup P mask = none ∧
        e = (mask, (⟨[], [pat]⟩ : ImplicantTable))) := by
  induction P with
  | nil =>
      intro h
      simp only [pendingAddDc, List.mem_singleton] at h
      exact Or.inr (Or.inr ⟨rfl, h⟩)
  | cons kv rest ih =>
      obtain ⟨m1, t1⟩ := kv
      intro h
      simp only [pendingAddDc] at h
      by_cases h1 : m1 = mask
      · rw [if_pos h1] at h
        rcases List.mem_cons.mp h with heq | hmem
        · subst h1
          exact Or.inr (Or.inl ⟨t1, by simp [pendingLookup], heq⟩)
        · exact Or.inl (List.mem_cons_of_mem _ hmem)
      · rw [if_neg h1] at h
        rcases List.mem_cons.mp h with heq | hmem
        · exact Or.inl (heq ▸ List.mem_cons_self _ _)
        · rcases ih hmem with hm | hm | hm
          · exact Or.inl (List.mem_cons_of_mem _ hm)
          · obtain ⟨t, hl, he⟩ := hm
            exact Or.inr (Or.inl ⟨t, by simp [pendingLookup, h1, hl], he⟩)
          · exact Or.inr (Or.inr ⟨by simp [pendingLookup, h1, hm.1], hm.2⟩)

theorem tableOk_insertTrue {nv : Nat} {mts dcs : List Nat} {mask : Nat}
    {t : ImplicantTable} {pat : Nat} {cov : Finset Nat}
    (hok : TableOk nv mts dcs mask t) (hc : CubeT nv mts dcs mask pat cov) :
    TableOk nv mts dcs mask
      { t with trueImplicants := insertTrue t.trueImplicants pat ⟨cov, false⟩ } := by
  refine ⟨?_, hok.dcOk, insertTrue_keys_nodup hok.keysOk⟩
  intro q a hl
  rw [lookupTrue_insertTrue] at hl
  by_cases hq : pat = q
  · rw [if_pos hq] at hl
    cases hl
    exact hq ▸ hc
  · rw [if_neg hq] at hl
    exact hok.trueOk q a hl

theorem flagsFalse_insertTrue {t : ImplicantTable} {pat : Nat} {cov : Finset Nat}
    (hf : FlagsFalse t) :
    FlagsFalse { t with trueImplicants := insertTrue t.trueImplicants pat ⟨cov, false⟩ } := by
  intro q a hl
  rw [lookupTrue_insertTrue] at hl
  by_cases hq : pat = q
  · rw [if_pos hq] at hl
    cases hl
    rfl
  · rw [if_neg hq] at hl
    exact hf q a hl

theorem tableOk_insertDc {nv : Nat} {mts dcs : List Nat} {mask : Nat}
    {t : ImplicantTable} {pat : Nat}
    (hok : TableOk nv mts dcs mask t) (hc : CubeDc nv dcs mask pat) :
    TableOk nv mts dcs mask
      { t with dontcareImplicants := insertDc t.dontcareImplicants pat } := by
  refine ⟨hok.trueOk, ?_, hok.keysOk⟩
  intro q hq
  rcases (mem_insertDc _ _ _).mp hq with hq | hq
  · exact hok.dcOk q hq
  · exact hq ▸ hc

theorem pendingLookup_mem {P : Pending} {mask : Nat} {t : ImplicantTable}
    (h : pendingLookup P mask = some t) : (mask, t) ∈ P := by
  induction P with
  | nil => simp [pendingLookup] at h
  | cons kv rest ih =>
      obtain ⟨m1, t1⟩ := kv
      simp only [pendingLookup] at h
      by_cases h1 : m1 = mask
      · rw [if_pos h1] at h
        cases h
        exact h1 ▸ List.mem_cons_self _ _
      · rw [if_neg h1] at h
        exact List.mem_cons_of_mem _ (ih h)

theorem pendingAddTrue_lookup_some {P : Pending} {mask pat m : Nat} {cov : Finset Nat}
    {t : ImplicantTable} (h : pendingLookup P m = some t) :
    pendingLookup (pendingAddTrue P mask pat cov) m =
      if mask = m then
        some { t with trueImplicants := insertTrue t.trueImplicants pat ⟨cov, false⟩ }
      else some t := by
  rw [pendingAddTrue_lookup, h]

theorem pendingAddTrue_lookup_none {P : Pending} {mask pat m : Nat} {cov : Finset Nat}
    (h : pendingLookup P m = none) :
    pendingLookup (pendingAddTrue P mask pat cov) m =
      if mask = m then some (⟨[(pat, ⟨cov, false⟩)], []⟩ : ImplicantTable)
      else none := by
  rw [pendingAddTrue_lookup, h]

theorem pendingAddDc_lookup_some {P : Pending} {mask pat m : Nat}
    {t : ImplicantTable} (h : pendingLookup P m = some t) :
    pendingLookup (pendingAddDc P mask pat) m =
      if mask = m then
        some { t with dontcareImplicants := insertDc t.dontcareImplicants pat }
      else some t := by
  rw [pendingAddDc_lookup, h]

theorem pendingAddDc_lookup_none' {P : Pending} {mask pat m : Nat}
    (h : pendingLookup P m = none) :
    pendingLookup (pendingAddDc P mask pat) m =
      if mask = m then some (⟨[], [pat]⟩ : ImplicantTable)
      else none := by
  rw [pendingAddDc_lookup, h]

theorem pendProps_addTrue {nv : Nat} {mts dcs : List Nat} {m0 : Nat} {P : Pending}
    {mask pat : Nat} {cov : Finset Nat}
    (hc : CubeT nv mts dcs mask pat cov)
    (hchild : ∃ j, j < nv ∧ m0.testBit j = true ∧ mask = m0 ^^^ (1 <<< j)) :
    PendProps nv mts dcs m0 P (pendingAddTrue P mask pat cov) ∧
    pendHasTrue (pendingAddTrue P mask pat cov) mask pat := by
  constructor
  · refine ⟨?_, ?_, ?_, ?_, ?_⟩
    · rw [pendingAddTrue_masks]
      by_cases hm : mask ∈ pendingMasks P
      · exact ⟨[], by simp [hm], by simp⟩
      · refine ⟨[mask], by simp [hm], ?_⟩
        intro m hm2
        rw [List.mem_singleton] at hm2
        exact hm2 ▸ hchild
    · intro hnd
      rw [pendingAddTrue_masks]
      by_cases hm : mask ∈ pendingMasks P
      · rwa [if_pos hm]
      · rw [if_neg hm]
        simp [List.nodup_append, hnd, hm]
    · rintro m p ⟨t, hl, hs⟩
      have hres := @pendingAddTrue_lookup_some _ mask pat _ cov _ hl
      by_cases h : mask = m
      · rw [if_pos h] at hres
        refine ⟨_, hres, ?_⟩
        rw [lookupTrue_insertTrue]
        by_cases hq : pat = p
        · rw [if_pos hq]
          rfl
        · rw [if_neg hq]
          exact hs
      · rw [if_neg h] at hres
        exact ⟨t, hres, hs⟩
    · rintro m p ⟨t, hl, hs⟩
      have hres := @pendingAddTrue_lookup_some _ mask pat _ cov _ hl
      by_cases h : mask = m
      · rw [if_pos h] at hres
        exact ⟨_, hres, hs⟩
      · rw [if_neg h] at hres
        exact ⟨t, hres, hs⟩
    · intro hbase e he
      rcases mem_pendingAddTrue he with hm | hm | hm
      · exact hbase e hm
      · obtain ⟨t, hl, he2⟩ := hm
        have := hbase (mask, t) (pendingLookup_mem hl)
        subst he2
        exact ⟨tableOk_insertTrue this.1 hc, flagsFalse_insertTrue this.2⟩
      · obtain ⟨hl0, he2⟩ := hm
        subst he2
        refine ⟨⟨?_, ?_, ?_⟩, ?_⟩
        · intro q a hl
          simp only [lookupTrue] at hl
          by_cases hq : pat = q
          · rw [if_pos hq] at hl
            cases hl
            exact hq ▸ hc
          · rw [if_neg hq] at hl
            cases hl
        · intro q hq
          simp at hq
        · simp
        · intro q a hl
          simp only [lookupTrue] at hl
          by_cases hq : pat = q
          · rw [if_pos hq] at hl
            cases hl
            rfl
          · rw [if_neg hq] at hl
            cases hl
  · cases hl : pendingLookup P mask with
    | none =>
        have hres := @pendingAddTrue_lookup_none _ mask pat _ cov hl
        rw [if_pos rfl] at hres
        exact ⟨_, hres, by simp [lookupTrue]⟩
    | some t =>
        have hres := @pendingAddTrue_lookup_some _ mask pat _ cov _ hl
        rw [if_pos rfl] at hres
        refine ⟨_, hres, ?_⟩
        rw [lookupTrue_insertTrue]
        simp

theorem pendProps_addDc {nv : Nat} {mts dcs : List Nat} {m0 : Nat} {P : Pending}
    {mask pat : Nat}
    (hc : CubeDc nv dcs mask pat)
    (hchild : ∃ j, j < nv ∧ m0.testBit j = true ∧ mask = m0 ^^^ (1 <<< j)) :
    PendProps nv mts dcs m0 P (pendingAddDc P mask pat) ∧
    pendHasDc (pendingAddDc P mask pat) mask pat := by
  constructor
  · refine ⟨?_, ?_, ?_, ?_, ?_⟩
    · rw [pendingAddDc_masks]
      by_cases hm : mask ∈ pendingMasks P
      · exact ⟨[], by simp [hm], by simp⟩
      · refine ⟨[mask], by simp [hm], ?_⟩
        intro m hm2
        rw [List.mem_singleton] at hm2
        exact hm2 ▸ hchild
    · intro hnd
      rw [pendingAddDc_masks]
      by_cases hm : mask ∈ pendingMasks P
      · rwa [if_pos hm]
      · rw [if_neg hm]
        simp [List.nodup_append, hnd, hm]
    · rintro m p ⟨t, hl, hs⟩
      have hres := @pendingAddDc_lookup_some _ mask pat _ _ hl
      by_cases h : mask = m
      · rw [if_pos h] at hres
        exact ⟨_, hres, hs⟩
      · rw [if_neg h] at hres
        exact ⟨t, hres, hs⟩
    · rintro m p ⟨t, hl, hs⟩
      have hres := @pendingAddDc_lookup_some _ mask pat _ _ hl
      by_cases h : mask = m
      · rw [if_pos h] at hres
        refine ⟨_, hres, ?_⟩
        rw [mem_insertDc]
        exact Or.inl hs
      · rw [if_neg h] at hres
        exact ⟨t, hres, hs⟩
    · intro hbase e he
      rcases mem_pendingAddDc he with hm | hm | hm
      · exact hbase e hm
      · obtain ⟨t, hl, he2⟩ := hm
        have := hbase (mask, t) (pendingLookup_mem hl)
        subst he2
        refine ⟨tableOk_insertDc this.1 hc, ?_⟩
        intro q a hl2
        exact this.2 q a hl2
      · obtain ⟨hl0, he2⟩ := hm
        subst he2
        refine ⟨⟨?_, ?_, ?_⟩, ?_⟩
        · intro q a hl
          simp [lookupTrue] at hl
        · intro q hq
          rw [List.mem_singleton] at hq
          exact hq ▸ hc
        · simp
        · intro q a hl
          simp [lookupTrue] at hl
  · cases hl : pendingLookup P mask with
    | none =>
        have hres := @pendingAddDc_lookup_none' _ mask pat _ hl
        rw [if_pos rfl] at hres
        exact ⟨_, hres, by simp⟩
    | some t =>
        have hres := @pendingAddDc_lookup_some _ mask pat _ _ hl
        rw [if_pos rfl] at hres
        refine ⟨_, hres, ?_⟩
        rw [mem_insertDc]
        exact Or.inr rfl

/-! ### Flag lemmas -/

theorem flagTrue_mark_mono {l : List (Nat × TrueAttrs)} {p q : Nat}
    (h : ∃ a, lookupTrue l q = some a ∧ a.wasCombined = true) :
    ∃ a, lookupTrue (markCombinedIn l p) q = some a ∧ a.wasCombined = true := by
  obtain ⟨a, hl, hf⟩ := h
  rw [lookupTrue_markCombinedIn]
  by_cases hq : q = p
  · rw [if_pos hq, hl]
    exact ⟨_, rfl, rfl⟩
  · rw [if_neg hq]
    exact ⟨a, hl, hf⟩

theorem flagTrue_mark_self {l : List (Nat × TrueAttrs)} {p : Nat}
    (h : (lookupTrue l p).isSome = true) :
    ∃ a, lookupTrue (markCombinedIn l p) p = some a ∧ a.wasCombined = true := by
  rw [lookupTrue_markCombinedIn, if_pos rfl]
  cases hl : lookupTrue l p with
  | none => rw [hl] at h; simp at h
  | some a => exact ⟨_, rfl, rfl⟩

theorem flagTrue_mark_cases {l : List (Nat × TrueAttrs)} {p q : Nat}
    (h : ∃ a, lookupTrue (markCombinedIn l p) q = some a ∧ a.wasCombined = true) :
    (q = p ∧ (lookupTrue l q).isSome = true) ∨
    (∃ a, lookupTrue l q = some a ∧ a.wasCombined = true) := by
  obtain ⟨a, hl, hf⟩ := h
  rw [lookupTrue_markCombinedIn] at hl
  by_cases hq : q = p
  · rw [if_pos hq] at hl
    cases hlo : lookupTrue l q with
    | none => rw [hlo] at hl; simp at hl
    | some b => exact Or.inl ⟨hq, by simp [hlo]⟩
  · rw [if_neg hq] at hl
    exact Or.inr ⟨a, hl, hf⟩

theorem xor_bit_canon {pat m0 j : Nat} (hp : pat &&& m0 = pat) (hj : m0.testBit j = true) :
    (pat ^^^ (1 <<< j)) &&& m0 = pat ^^^ (1 <<< j) := by
  apply Nat.eq_of_testBit_eq
  intro i
  simp only [Nat.testBit_land]
  by_cases hij : j = i
  · subst hij
    rw [hj, Bool.and_true]
  · rw [xor_bit_testBit_other hij]
    have := congrArg (fun y => y.testBit i) hp
    simpa only [Nat.testBit_land] using this

theorem xor_xor_cancel (a b : Nat) : a ^^^ b ^^^ b = a := by
  rw [Nat.xor_assoc, Nat.xor_self, Nat.xor_zero]

structure TblRel (nv : Nat) (mts dcs : List Nat) (m0 : Nat) (t0 : ImplicantTable)
    (P0 : Pending) (st : QmState) : Prop where
  core : sameCore st.tbl t0
  pend : PendProps nv mts dcs m0 P0 st.pend
  flagWit : ∀ q, flagTrue st.tbl q → ∃ j, j < nv ∧ m0.testBit j = true ∧
      patPresent t0 (q ^^^ (1 <<< j)) ∧
      pendHasTrue st.pend (m0 ^^^ (1 <<< j)) (q &&& (m0 ^^^ (1 <<< j)))

theorem combineStep_rel {nv : Nat} {mts dcs : List Nat} {m0 : Nat} {t0 : ImplicantTable}
    {P0 : Pending} {st : QmState} {pat : Nat} {a : TrueAttrs} {j : Nat}
    (hm0sub : m0 &&& (2 ^ nv - 1) = m0)
    (hok : TableOk nv mts dcs m0 t0)
    (hself : ∀ q, GoodCube nv mts dcs q m0 → present nv mts m0 t0 q)
    (hpat : lookupTrue t0.trueImplicants pat = some a)
    (hrel : TblRel nv mts dcs m0 t0 P0 st) (hjnv : j < nv) :
    TblRel nv mts dcs m0 t0 P0 (combineStep m0 pat a.covered st j) ∧
    (∀ q, flagTrue st.tbl q → flagTrue (combineStep m0 pat a.covered st j).tbl q) ∧
    (m0.testBit j = true → patPresent t0 (pat ^^^ (1 <<< j)) →
      flagTrue (combineStep m0 pat a.covered st j).tbl pat ∧
      pendHasTrue (combineStep m0 pat a.covered st j).pend (m0 ^^^ (1 <<< j))
        (pat &&& (m0 ^^^ (1 <<< j)))) ∧
    PendProps nv mts dcs m0 st.pend (combineStep m0 pat a.covered st j).pend := by
  have ha : CubeT nv mts dcs m0 pat a.covered := hok.trueOk pat a hpat
  by_cases hbit : m0 &&& (1 <<< j) ≠ 0
  · have htb : m0.testBit j = true := land_shift_ne.mp hbit
    have hlvl : maskLevel nv (m0 ^^^ (1 <<< j)) + 1 = maskLevel nv m0 :=
      maskLevel_xor_bit hjnv htb
    have hsub' : (m0 ^^^ (1 <<< j)) &&& (2 ^ nv - 1) = m0 ^^^ (1 <<< j) :=
      subMask_trans (xor_bit_subMask htb) hm0sub
    have hplc : (pat ^^^ (1 <<< j)) &&& (m0 ^^^ (1 <<< j)) = pat &&& (m0 ^^^ (1 <<< j)) :=
      parent_point_child htb (Or.inr (xor_bit_canon ha.canon htb))
    cases hlp : lookupTrue st.tbl.trueImplicants (pat ^^^ (1 <<< j)) with
    | some pa2 =>
        have hstep : combineStep m0 pat a.covered st j =
            ⟨{ st.tbl with trueImplicants :=
                markCombinedIn (markCombinedIn st.tbl.trueImplicants pat) (pat ^^^ (1 <<< j)) },
              pendingAddTrue st.pend (m0 ^^^ (1 <<< j)) (pat &&& (m0 ^^^ (1 <<< j)))
                (a.covered ∪ pa2.covered)⟩ := by
          simp only [combineStep]
          rw [if_pos hbit, hlp]
        obtain ⟨a2, hl2, hcov2⟩ := sameCore_covered hrel.core hlp
        have hc2 : CubeT nv mts dcs m0 (pat ^^^ (1 <<< j)) pa2.covered := by
          have := hok.trueOk _ a2 hl2
          rwa [hcov2] at this
        have hcomb := cubeT_combine htb ha hc2
        obtain ⟨hpp, hhas⟩ := @pendProps_addTrue _ _ _ m0 st.pend _ _ _ hcomb ⟨j, hjnv, htb, rfl⟩
        rw [hstep]
        refine ⟨⟨?_, ?_, ?_⟩, ?_, ?_, hpp⟩
        · exact sameCore_mark (sameCore_mark hrel.core pat) (pat ^^^ (1 <<< j))
        · exact pendProps_trans hrel.pend hpp
        · intro q hq
          rcases flagTrue_mark_cases hq with ⟨hqe, hqs⟩ | hq2
          · subst hqe
            refine ⟨j, hjnv, htb, ?_, ?_⟩
            · rw [xor_xor_cancel]
              exact Or.inl (by rw [hpat]; rfl)
            · rw [hplc]
              exact hhas
          · rcases flagTrue_mark_cases hq2 with ⟨hqe, hqs⟩ | hq3
            · subst hqe
              refine ⟨j, hjnv, htb, ?_, ?_⟩
              · refine Or.inl ?_
                rw [← sameCore_isSome hrel.core, hlp]
                rfl
              · exact hhas
            · obtain ⟨j2, hj2, htb2, hpp2, hpt2⟩ := hrel.flagWit q hq3
              exact ⟨j2, hj2, htb2, hpp2, hpp.monoTrue _ _ hpt2⟩
        · intro q hq
          exact flagTrue_mark_mono (flagTrue_mark_mono hq)
        · intro _ _
          constructor
          · apply flagTrue_mark_mono
            apply flagTrue_mark_self
            rw [sameCore_isSome hrel.core, hpat]
            rfl
          · exact hhas
    | none =>
        by_cases hdc : (pat ^^^ (1 <<< j)) ∈ st.tbl.dontcareImplicants
        · have hstep : combineStep m0 pat a.covered st j =
              ⟨{ st.tbl with trueImplicants := markCombinedIn st.tbl.trueImplicants pat },
                pendingAddTrue st.pend (m0 ^^^ (1 <<< j)) (pat &&& (m0 ^^^ (1 <<< j)))
                  a.covered⟩ := by
            simp only [combineStep]
            rw [if_pos hbit, hlp, if_pos hdc]
          have hdc0 : (pat ^^^ (1 <<< j)) ∈ t0.dontcareImplicants := by
            rw [← hrel.core.2.2]
            exact hdc
          have hc2 : CubeDc nv dcs m0 (pat ^^^ (1 <<< j)) := hok.dcOk _ hdc0
          have hnm : ¬ HasMintermPoint nv mts (pat ^^^ (1 <<< j)) m0 := by
            intro hmp
            have hpres := hself _ (goodCube_of_cubeDc hc2)
            have hs := hpres.1 hmp
            rw [← sameCore_isSome hrel.core, hlp] at hs
            simp at hs
          have hcomb := cubeT_combine_dc htb ha hc2 hnm
          obtain ⟨hpp, hhas⟩ := @pendProps_addTrue _ _ _ m0 st.pend _ _ _ hcomb ⟨j, hjnv, htb, rfl⟩
          rw [hstep]
          refine ⟨⟨?_, ?_, ?_⟩, ?_, ?_, hpp⟩
          · exact sameCore_mark hrel.core pat
          · exact pendProps_trans hrel.pend hpp
          · intro q hq
            rcases flagTrue_mark_cases hq with ⟨hqe, hqs⟩ | hq2
            · subst hqe
              refine ⟨j, hjnv, htb, Or.inr hdc0, hhas⟩
            · obtain ⟨j2, hj2, htb2, hpp2, hpt2⟩ := hrel.flagWit q hq2
              exact ⟨j2, hj2, htb2, hpp2, hpp.monoTrue _ _ hpt2⟩
          · intro q hq
            exact flagTrue_mark_mono hq
          · intro _ _
            constructor
            · apply flagTrue_mark_self
              rw [sameCore_isSome hrel.core, hpat]
              rfl
            · exact hhas
        · have hstep : combineStep m0 pat a.covered st j = st := by
            simp only [combineStep]
            rw [if_pos hbit, hlp, if_neg hdc]
          rw [hstep]
          refine ⟨hrel, fun q hq => hq, ?_, pendProps_refl nv mts dcs m0 st.pend⟩
          intro _ hpp
          exfalso
          rcases hpp with hs | hmem
          · rw [← sameCore_isSome hrel.core, hlp] at hs
            simp at hs
          · rw [← hrel.core.2.2] at hmem
            exact hdc hmem
  · have hstep : combineStep m0 pat a.covered st j = st := by
      simp only [combineStep]
      rw [if_neg hbit]
    rw [hstep]
    refine ⟨hrel, fun q hq => hq, ?_, pendProps_refl nv mts dcs m0 st.pend⟩
    intro htb _
    exact absurd (land_shift_ne.mpr htb) hbit

theorem present_patPresent {nv : Nat} {mts : List Nat} {m0 : Nat} {t0 : ImplicantTable}
    {q : Nat} (h : present nv mts m0 t0 q) : patPresent t0 q := by
  by_cases hm : HasMintermPoint nv mts q m0
  · exact Or.inl (h.1 hm)
  · exact Or.inr (h.2 hm)

theorem processBits_rel {nv : Nat} {mts dcs : List Nat} {m0 : Nat} {t0 : ImplicantTable}
    {P0 : Pending} {pat : Nat} {a : TrueAttrs}
    (hm0sub : m0 &&& (2 ^ nv - 1) = m0)
    (hok : TableOk nv mts dcs m0 t0)
    (hself : ∀ q, GoodCube nv mts dcs q m0 → present nv mts m0 t0 q)
    (hpat : lookupTrue t0.trueImplicants pat = some a) :
    ∀ (js : List Nat) (st : QmState), (∀ j ∈ js, j < nv) →
    TblRel nv mts dcs m0 t0 P0 st →
    TblRel nv mts dcs m0 t0 P0 (js.foldl (combineStep m0 pat a.covered) st) ∧
    (∀ q, flagTrue st.tbl q →
      flagTrue (js.foldl (combineStep m0 pat a.covered) st).tbl q) ∧
    PendProps nv mts dcs m0 st.pend (js.foldl (combineStep m0 pat a.covered) st).pend ∧
    (∀ j ∈ js, m0.testBit j = true → patPresent t0 (pat ^^^ (1 <<< j)) →
      flagTrue (js.foldl (combineStep m0 pat a.covered) st).tbl pat ∧
      pendHasTrue (js.foldl (combineStep m0 pat a.covered) st).pend (m0 ^^^ (1 <<< j))
        (pat &&& (m0 ^^^ (1 <<< j)))) := by
  intro js
  induction js with
  | nil =>
      intro st _ hrel
      exact ⟨hrel, fun q hq => hq, pendProps_refl nv mts dcs m0 st.pend, by simp⟩
  | cons j js ih =>
      intro st hbnd hrel
      have hj : j < nv := hbnd j (List.mem_cons_self _ _)
      obtain ⟨rel1, mono1, fire1, pmono1⟩ :=
        combineStep_rel hm0sub hok hself hpat hrel hj
      obtain ⟨rel2, mono2, pmono2, fire2⟩ :=
        ih (combineStep m0 pat a.covered st j) (fun i hi => hbnd i (List.mem_cons_of_mem _ hi))
          rel1
      rw [List.foldl_cons]
      refine ⟨rel2, fun q hq => mono2 q (mono1 q hq), pendProps_trans pmono1 pmono2, ?_⟩
      intro i hi htb hpp
      rcases List.mem_cons.mp hi with heq | hmem
      · subst heq
        obtain ⟨hfl, hht⟩ := fire1 htb hpp
        exact ⟨mono2 _ hfl, pmono2.monoTrue _ _ hht⟩
      · exact fire2 i hmem htb hpp

theorem processOneTrue_rel {nv : Nat} {mts dcs : List Nat} {m0 : Nat} {t0 : ImplicantTable}
    {P0 : Pending} {pat : Nat} {a : TrueAttrs} {acc : QmState × List PI}
    (hm0sub : m0 &&& (2 ^ nv - 1) = m0)
    (hok : TableOk nv mts dcs m0 t0)
    (hself : ∀ q, GoodCube nv mts dcs q m0 → present nv mts m0 t0 q)
    (hpat : lookupTrue t0.trueImplicants pat = some a)
    (hrel : TblRel nv mts dcs m0 t0 P0 acc.1) :
    TblRel nv mts dcs m0 t0 P0 (processOneTrue nv m0 pat a.covered acc).1 ∧
    (∀ q, flagTrue acc.1.tbl q →
      flagTrue (processOneTrue nv m0 pat a.covered acc).1.tbl q) ∧
    PendProps nv mts dcs m0 acc.1.pend (processOneTrue nv m0 pat a.covered acc).1.pend ∧
    (∃ em, (processOneTrue nv m0 pat a.covered acc).2 = acc.2 ++ em ∧
      (em = [] ∧ flagTrue (processOneTrue nv m0 pat a.covered acc).1.tbl pat ∨
       em = [(pat, m0, a.covered)] ∧
         (∀ j, j < nv → m0.testBit j = true → ¬ patPresent t0 (pat ^^^ (1 <<< j))))) ∧
    (∀ j, j < nv → m0.testBit j = true → patPresent t0 (pat ^^^ (1 <<< j)) →
      pendHasTrue (processOneTrue nv m0 pat a.covered acc).1.pend (m0 ^^^ (1 <<< j))
        (pat &&& (m0 ^^^ (1 <<< j)))) := by
  obtain ⟨rel2, mono2, pmono2, fire2⟩ :=
    processBits_rel hm0sub hok hself hpat (List.range nv) acc.1
      (fun j hj => List.mem_range.mp hj) hrel
  have hst : (processOneTrue nv m0 pat a.covered acc).1 =
      (List.range nv).foldl (combineStep m0 pat a.covered) acc.1 := by
    simp only [processOneTrue]
    split <;> rfl
  have hfire : ∀ j, j < nv → m0.testBit j = true → patPresent t0 (pat ^^^ (1 <<< j)) →
      flagTrue ((List.range nv).foldl (combineStep m0 pat a.covered) acc.1).tbl pat ∧
      pendHasTrue ((List.range nv).foldl (combineStep m0 pat a.covered) acc.1).pend
        (m0 ^^^ (1 <<< j)) (pat &&& (m0 ^^^ (1 <<< j))) := by
    intro j hj htb hpp
    exact fire2 j (List.mem_range.mpr hj) htb hpp
  refine ⟨hst ▸ rel2, hst ▸ mono2, hst ▸ pmono2, ?_, ?_⟩
  · set st2 := (List.range nv).foldl (combineStep m0 pat a.covered) acc.1 with hst2
    have hs2 : (lookupTrue st2.tbl.trueImplicants pat).isSome = true := by
      rw [sameCore_isSome rel2.core, hpat]
      rfl
    cases hl2 : lookupTrue st2.tbl.trueImplicants pat with
    | none => rw [hl2] at hs2; simp at hs2
    | some a2 =>
        cases hcomb : a2.wasCombined with
        | true =>
            have hres : (processOneTrue nv m0 pat a.covered acc).2 = acc.2 := by
              simp only [processOneTrue, ← hst2, hl2, hcomb]
              rfl
            refine ⟨[], by rw [hres, List.append_nil], Or.inl ⟨rfl, ?_⟩⟩
            rw [hst]
            exact ⟨a2, hl2, hcomb⟩
        | false =>
            have hres : (processOneTrue nv m0 pat a.covered acc).2 =
                acc.2 ++ [(pat, m0, a.covered)] := by
              simp only [processOneTrue, ← hst2, hl2, hcomb]
              rfl
            refine ⟨[(pat, m0, a.covered)], hres, Or.inr ⟨rfl, ?_⟩⟩
            intro j hj htb hpp
            obtain ⟨hfl, _⟩ := hfire j hj htb hpp
            obtain ⟨a3, hl3, hf3⟩ := hfl
            rw [hl2] at hl3
            cases hl3
            rw [hcomb] at hf3
            cases hf3
  · intro j hj htb hpp
    rw [hst]
    exact (hfire j hj htb hpp).2

def processTruesFold (nv m0 : Nat) (todo : List (Nat × TrueAttrs))
    (acc : QmState × List PI) : QmState × List PI :=
  todo.foldl (fun b pa => processOneTrue nv m0 pa.1 pa.2.covered b) acc

theorem processTruesFold_rel {nv : Nat} {mts dcs : List Nat} {m0 : Nat}
    {t0 : ImplicantTable} {P0 : Pending}
    (hm0sub : m0 &&& (2 ^ nv - 1) = m0)
    (hok : TableOk nv mts dcs m0 t0)
    (hself : ∀ q, GoodCube nv mts dcs q m0 → present nv mts m0 t0 q) :
    ∀ (todo : List (Nat × TrueAttrs)) (acc : QmState × List PI),
    (∀ pa ∈ todo, lookupTrue t0.trueImplicants pa.1 = some pa.2) →
    (todo.map Prod.fst).Nodup →
    TblRel nv mts dcs m0 t0 P0 acc.1 →
    TblRel nv mts dcs m0 t0 P0 (processTruesFold nv m0 todo acc).1 ∧
    (∀ q, flagTrue acc.1.tbl q → flagTrue (processTruesFold nv m0 todo acc).1.tbl q) ∧
    PendProps nv mts dcs m0 acc.1.pend (processTruesFold nv m0 todo acc).1.pend ∧
    (∃ em, (processTruesFold nv m0 todo acc).2 = acc.2 ++ em ∧
       (∀ e ∈ em, e.2.1 = m0 ∧
          (∃ a', lookupTrue t0.trueImplicants e.1 = some a' ∧ a'.covered = e.2.2) ∧
          (∀ j, j < nv → m0.testBit j = true → ¬ patPresent t0 (e.1 ^^^ (1 <<< j)))) ∧
       (em.map Prod.fst).Nodup ∧
       (∀ e ∈ em, e.1 ∈ todo.map Prod.fst)) ∧
    (∀ pa ∈ todo, (∃ e, e ∈ (processTruesFold nv m0 todo acc).2 ∧ e.1 = pa.1 ∧
        e.2.1 = m0 ∧ e.2.2 = pa.2.covered) ∨
      flagTrue (processTruesFold nv m0 todo acc).1.tbl pa.1) ∧
    (∀ pa ∈ todo, ∀ j, j < nv → m0.testBit j = true →
      patPresent t0 (pa.1 ^^^ (1 <<< j)) →
      pendHasTrue (processTruesFold nv m0 todo acc).1.pend (m0 ^^^ (1 <<< j))
        (pa.1 &&& (m0 ^^^ (1 <<< j)))) := by
  intro todo
  induction todo with
  | nil =>
      intro acc _ _ hrel
      refine ⟨hrel, fun q hq => hq, pendProps_refl nv mts dcs m0 acc.1.pend,
        ⟨[], by simp [processTruesFold], by simp, by simp, by simp⟩, by simp, by simp⟩
  | cons pa todo ih =>
      intro acc hlk hnd hrel
      have hpa : lookupTrue t0.trueImplicants pa.1 = some pa.2 :=
        hlk pa (List.mem_cons_self _ _)
      obtain ⟨rel1, mono1, pmono1, ⟨em1, hres1, hcase1⟩, fire1⟩ :=
        @processOneTrue_rel _ _ _ _ _ _ _ _ acc hm0sub hok hself hpa hrel
      have hstep : processTruesFold nv m0 (pa :: todo) acc =
          processTruesFold nv m0 todo (processOneTrue nv m0 pa.1 pa.2.covered acc) := rfl
      have hnd' : pa.1 ∉ todo.map Prod.fst ∧ (todo.map Prod.fst).Nodup := by
        rw [List.map_cons, List.nodup_cons] at hnd
        exact hnd
      obtain ⟨rel2, mono2, pmono2, ⟨em2, hres2, hprops2, hnd2, hsub2⟩, emflag2, fire2⟩ :=
        ih (processOneTrue nv m0 pa.1 pa.2.covered acc)
          (fun q hq => hlk q (List.mem_cons_of_mem _ hq))
          hnd'.2 rel1
      rw [hstep]
      refine ⟨rel2, fun q hq => mono2 q (mono1 q hq), pendProps_trans pmono1 pmono2,
        ⟨em1 ++ em2, ?_, ?_, ?_, ?_⟩, ?_, ?_⟩
      · rw [hres2, hres1, List.append_assoc]
      · intro e he
        rcases List.mem_append.mp he with he | he
        · rcases hcase1 with ⟨hemp, _⟩ | ⟨hsing, hnopart⟩
          · rw [hemp] at he
            simp at he
          · rw [hsing] at he
            rw [List.mem_singleton] at he
            subst he
            exact ⟨rfl, ⟨pa.2, hpa, rfl⟩, hnopart⟩
        · exact hprops2 e he
      · rw [List.map_append]
        rw [List.nodup_append]
        refine ⟨?_, hnd2, ?_⟩
        · rcases hcase1 with ⟨hemp, _⟩ | ⟨hsing, _⟩
          · rw [hemp]; simp
          · rw [hsing]; simp
        · intro x hx1 hx2
          rcases hcase1 with ⟨hemp, _⟩ | ⟨hsing, _⟩
          · rw [hemp] at hx1
            simp at hx1
          · rw [hsing] at hx1
            simp at hx1
            subst hx1
            have := hsub2
            have hx2' : pa.1 ∈ todo.map Prod.fst := by
              obtain ⟨e, he, hfst⟩ := List.mem_map.mp hx2
              rw [← hfst]
              exact hsub2 e he
            exact hnd'.1 hx2'
      · intro e he
        rcases List.mem_append.mp he with he | he
        · rcases hcase1 with ⟨hemp, _⟩ | ⟨hsing, _⟩
          · rw [hemp] at he
            simp at he
          · rw [hsing] at he
            rw [List.mem_singleton] at he
            subst he
            simp
        · simp only [List.map_cons, List.mem_cons]
          exact Or.inr (hsub2 e he)
      · intro q hq
        rcases List.mem_cons.mp hq with heq | hmem
        · subst heq
          rcases hcase1 with ⟨hemp, hflag⟩ | ⟨hsing, _⟩
          · exact Or.inr (mono2 _ hflag)
          · refine Or.inl ⟨(q.1, m0, q.2.covered), ?_, rfl, rfl, rfl⟩
            rw [hres2, hres1, hsing]
            simp
        · exact emflag2 q hmem
      · intro q hq j hj htb hpp
        rcases List.mem_cons.mp hq with heq | hmem
        · subst heq
          exact pmono2.monoTrue _ _ (fire1 j hj htb hpp)
        · exact fire2 q hmem j hj htb hpp

theorem dcCombineStep_rel {nv : Nat} {mts dcs : List Nat} {m0 : Nat}
    {t0 t : ImplicantTable} {pat : Nat} {P : Pending} {j : Nat}
    (hm0sub : m0 &&& (2 ^ nv - 1) = m0)
    (hok : TableOk nv mts dcs m0 t0)
    (hdcs : t.dontcareImplicants = t0.dontcareImplicants)
    (hjnv : j < nv) :
    PendProps nv mts dcs m0 P (dcCombineStep m0 pat t P j) ∧
    (m0.testBit j = true → pat ∈ t.dontcareImplicants →
      (pat ^^^ (1 <<< j)) ∈ t.dontcareImplicants →
      pendHasDc (dcCombineStep m0 pat t P j) (m0 ^^^ (1 <<< j))
        (pat &&& (m0 ^^^ (1 <<< j)))) := by
  by_cases hbit : m0 &&& (1 <<< j) ≠ 0
  · have htb : m0.testBit j = true := land_shift_ne.mp hbit
    by_cases hcond : pat ∈ t.dontcareImplicants ∧ (pat ^^^ (1 <<< j)) ∈ t.dontcareImplicants
    · have hstep : dcCombineStep m0 pat t P j =
          pendingAddDc P (m0 ^^^ (1 <<< j)) (pat &&& (m0 ^^^ (1 <<< j))) := by
        simp only [dcCombineStep]
        rw [if_pos hbit, if_pos hcond]
      have hc1 : CubeDc nv dcs m0 pat := hok.dcOk pat (hdcs ▸ hcond.1)
      have hc2 : CubeDc nv dcs m0 (pat ^^^ (1 <<< j)) := hok.dcOk _ (hdcs ▸ hcond.2)
      have hcomb := cubeDc_combine htb hc1 hc2
      obtain ⟨hpp, hhas⟩ := @pendProps_addDc _ mts _ m0 P _ _ hcomb ⟨j, hjnv, htb, rfl⟩
      rw [hstep]
      exact ⟨hpp, fun _ _ _ => hhas⟩
    · have hstep : dcCombineStep m0 pat t P j = P := by
        simp only [dcCombineStep]
        rw [if_pos hbit, if_neg hcond]
      rw [hstep]
      exact ⟨pendProps_refl nv mts dcs m0 P, fun _ h1 h2 => absurd ⟨h1, h2⟩ hcond⟩
  · have hstep : dcCombineStep m0 pat t P j = P := by
      simp only [dcCombineStep]
      rw [if_neg hbit]
    rw [hstep]
    exact ⟨pendProps_refl nv mts dcs m0 P,
      fun htb _ _ => absurd (land_shift_ne.mpr htb) hbit⟩

theorem dcBits_rel {nv : Nat} {mts dcs : List Nat} {m0 : Nat}
    {t0 t : ImplicantTable} {pat : Nat}
    (hm0sub : m0 &&& (2 ^ nv - 1) = m0)
    (hok : TableOk nv mts dcs m0 t0)
    (hdcs : t.dontcareImplicants = t0.dontcareImplicants) :
    ∀ (js : List Nat) (P : Pending), (∀ j ∈ js, j < nv) →
    PendProps nv mts dcs m0 P (js.foldl (dcCombineStep m0 pat t) P) ∧
    (∀ j ∈ js, m0.testBit j = true → pat ∈ t.dontcareImplicants →
      (pat ^^^ (1 <<< j)) ∈ t.dontcareImplicants →
      pendHasDc (js.foldl (dcCombineStep m0 pat t) P) (m0 ^^^ (1 <<< j))
        (pat &&& (m0 ^^^ (1 <<< j)))) := by
  intro js
  induction js with
  | nil =>
      intro P _
      exact ⟨pendProps_refl nv mts dcs m0 P, by simp⟩
  | cons j js ih =>
      intro P hbnd
      have hj : j < nv := hbnd j (List.mem_cons_self _ _)
      obtain ⟨hpp1, hfire1⟩ :=
        @dcCombineStep_rel _ _ _ _ _ _ pat P _ hm0sub hok hdcs hj
      obtain ⟨hpp2, hfire2⟩ := ih (dcCombineStep m0 pat t P j)
        (fun i hi => hbnd i (List.mem_cons_of_mem _ hi))
      rw [List.foldl_cons]
      refine ⟨pendProps_trans hpp1 hpp2, ?_⟩
      intro i hi htb h1 h2
      rcases List.mem_cons.mp hi with heq | hmem
      · subst heq
        exact hpp2.monoDc _ _ (hfire1 htb h1 h2)
      · exact hfire2 i hmem htb h1 h2

theorem processDcs_rel {nv : Nat} {mts dcs : List Nat} {m0 : Nat}
    {t0 t : ImplicantTable}
    (hm0sub : m0 &&& (2 ^ nv - 1) = m0)
    (hok : TableOk nv mts dcs m0 t0)
    (hdcs : t.dontcareImplicants = t0.dontcareImplicants) :
    ∀ (ds : List Nat) (P : Pending),
    PendProps nv mts dcs m0 P
      (ds.foldl (fun acc pat => (List.range nv).foldl (dcCombineStep m0 pat t) acc) P) ∧
    (∀ pat ∈ ds, ∀ j, j < nv → m0.testBit j = true → pat ∈ t.dontcareImplicants →
      (pat ^^^ (1 <<< j)) ∈ t.dontcareImplicants →
      pendHasDc
        (ds.foldl (fun acc pat => (List.range nv).foldl (dcCombineStep m0 pat t) acc) P)
        (m0 ^^^ (1 <<< j)) (pat &&& (m0 ^^^ (1 <<< j)))) := by
  intro ds
  induction ds with
  | nil =>
      intro P
      exact ⟨pendProps_refl nv mts dcs m0 P, by simp⟩
  | cons pat ds ih =>
      intro P
      obtain ⟨hpp1, hfire1⟩ := @dcBits_rel _ _ _ _ _ _ pat hm0sub hok hdcs (List.range nv) P
        (fun j hj => List.mem_range.mp hj)
      obtain ⟨hpp2, hfire2⟩ := ih ((List.range nv).foldl (dcCombineStep m0 pat t) P)
      rw [List.foldl_cons]
      refine ⟨pendProps_trans hpp1 hpp2, ?_⟩
      intro q hq j hj htb h1 h2
      rcases List.mem_cons.mp hq with heq | hmem
      · subst heq
        exact hpp2.monoDc _ _ (hfire1 j (List.mem_range.mpr hj) htb h1 h2)
      · exact hfire2 q hmem j hj htb h1 h2

/-! ### Helpers for the worklist step theorem -/

theorem pendingLookup_of_mem_nodup {P : Pending} {m : Nat} {t : ImplicantTable}
    (hnd : (pendingMasks P).Nodup) (hmem : (m, t) ∈ P) : pendingLookup P m = some t := by
  induction P with
  | nil => simp at hmem
  | cons kv rest ih =>
      obtain ⟨m1, t1⟩ := kv
      have hnd' : m1 ∉ pendingMasks rest ∧ (pendingMasks rest).Nodup := by
        rw [show pendingMasks ((m1, t1) :: rest) = m1 :: pendingMasks rest from rfl,
          List.nodup_cons] at hnd
        exact hnd
      rcases List.mem_cons.mp hmem with heq | hmem'
      · cases heq
        simp [pendingLookup]
      · have hm1 : ¬ m1 = m := by
          intro hc
          subst hc
          exact hnd'.1 (List.mem_map.mpr ⟨(m1, t), hmem', rfl⟩)
        simp only [pendingLookup, if_neg hm1]
        exact ih hnd'.2 hmem'

theorem land_project {x m0 msub : Nat} (h : msub &&& m0 = msub) :
    (x &&& m0) &&& msub = x &&& msub := by
  rw [Nat.land_assoc]
  rw [show m0 &&& msub = msub from by rw [Nat.land_comm]; exact h]

theorem submask_xor_bit {mask m0 b : Nat} (h : mask &&& m0 = mask)
    (hb : mask.testBit b = false) : mask &&& (m0 ^^^ (1 <<< b)) = mask := by
  apply Nat.eq_of_testBit_eq
  intro i
  simp only [Nat.testBit_land]
  by_cases hib : b = i
  · subst hib
    simp [hb]
  · rw [xor_bit_testBit_other hib]
    have := congrArg (fun y => y.testBit i) h
    simpa only [Nat.testBit_land] using this

theorem proper_submask_bit {mask m0 : Nat} (h : mask &&& m0 = mask) (hne : mask ≠ m0) :
    ∃ b, m0.testBit b = true ∧ mask.testBit b = false := by
  by_contra hcon
  push_neg at hcon
  apply hne
  apply Nat.eq_of_testBit_eq
  intro i
  cases hcb : mask.testBit i with
  | true => exact (subMask_testBit h hcb).symm
  | false =>
      cases hcb2 : m0.testBit i with
      | true => exact absurd hcb (hcon i hcb2)
      | false => rfl

theorem goodCube_combine {nv : Nat} {mts dcs : List Nat} {m0 pat j : Nat}
    (hj : m0.testBit j = true)
    (h1 : GoodCube nv mts dcs pat m0) (h2 : GoodCube nv mts dcs (pat ^^^ (1 <<< j)) m0) :
    GoodCube nv mts dcs (pat &&& (m0 ^^^ (1 <<< j))) (m0 ^^^ (1 <<< j)) := by
  refine ⟨land_assoc_right _ _, ?_⟩
  intro x hx hxp
  rcases child_point_parents h1.1 hj hxp with hc | hc
  · exact h1.2 x hx hc
  · exact h2.2 x hx hc

theorem goodCube_supermask {nv : Nat} {mts dcs : List Nat} {pat mask msup : Nat}
    (hg : GoodCube nv mts dcs pat mask) (hsub : mask &&& msup = mask) :
    GoodCube nv mts dcs pat msup := by
  refine ⟨subMask_trans hg.1 hsub, ?_⟩
  intro x hx hxp
  apply hg.2 x hx
  have h1 : x &&& mask = (x &&& msup) &&& mask := (land_project hsub).symm
  rw [h1, hxp, hg.1]

theorem map_eq_append_split {α β : Type} {f : α → β} {l : List α} {L1 L2 : List β}
    (h : l.map f = L1 ++ L2) :
    ∃ l1 l2, l = l1 ++ l2 ∧ l1.map f = L1 ∧ l2.map f = L2 := by
  induction L1 generalizing l with
  | nil =>
      exact ⟨[], l, rfl, rfl, by simpa using h⟩
  | cons b L1 ih =>
      cases l with
      | nil => simp at h
      | cons a l =>
          simp only [List.map_cons, List.cons_append] at h
          obtain ⟨hb, hrest⟩ := List.cons.inj h
          obtain ⟨l1, l2, hl, h1, h2⟩ := ih hrest
          exact ⟨a :: l1, l2, by rw [hl, List.cons_append], by simp [h1, hb], h2⟩

theorem sum_map_const {α : Type} {f : α → Nat} {l : List α} {c : Nat}
    (h : ∀ x ∈ l, f x = c) : (l.map f).sum = l.length * c := by
  induction l with
  | nil => simp
  | cons a l ih =>
      simp only [List.map_cons, List.sum_cons, List.length_cons]
      rw [h a (List.mem_cons_self _ _), ih (fun x hx => h x (List.mem_cons_of_mem _ hx))]
      ring

def qmMu (nv : Nat) (P : Pending) : Nat :=
  ((pendingMasks P).map (fun m => (nv + 1) ^ maskLevel nv m)).sum

theorem childMasks_length_le {nv m0 : Nat} {ms : List Nat} (hnd : ms.Nodup)
    (hch : ∀ m ∈ ms, ∃ j, j < nv ∧ m0.testBit j = true ∧ m = m0 ^^^ (1 <<< j)) :
    ms.length ≤ nv := by
  have hsub : ms.toFinset ⊆ (Finset.range nv).image (fun j => m0 ^^^ (1 <<< j)) := by
    intro m hm
    rw [List.mem_toFinset] at hm
    obtain ⟨j, hj, _, hme⟩ := hch m hm
    exact Finset.mem_image.mpr ⟨j, Finset.mem_range.mpr hj, hme.symm⟩
  calc ms.length = ms.toFinset.card := (List.toFinset_card_of_nodup hnd).symm
    _ ≤ ((Finset.range nv).image (fun j => m0 ^^^ (1 <<< j))).card :=
        Finset.card_le_card hsub
    _ ≤ (Finset.range nv).card := Finset.card_image_le
    _ = nv := Finset.card_range nv

theorem mem_pendingMasks_iff {P : Pending} {m : Nat} :
    m ∈ pendingMasks P ↔ ∃ t, (m, t) ∈ P := by
  constructor
  · intro h
    obtain ⟨e, he, heq⟩ := List.mem_map.mp h
    obtain ⟨m1, t1⟩ := e
    have heq' : m1 = m := heq
    subst heq'
    exact ⟨t1, he⟩
  · rintro ⟨t, ht⟩
    exact List.mem_map.mpr ⟨(m, t), ht, rfl⟩

structure QmInv (nv : Nat) (mts dcs : List Nat) (P : Pending) (E : List PI) : Prop where
  masksNodup : (pendingMasks P).Nodup
  masksSub : ∀ e ∈ P, e.1 &&& (2 ^ nv - 1) = e.1
  tables : ∀ e ∈ P, TableOk nv mts dcs e.1 e.2 ∧ FlagsFalse e.2
  selfComplete : ∀ e ∈ P, ∀ pat, GoodCube nv mts dcs pat e.1 → present nv mts e.1 e.2 pat
  flevel : ∃ k A B, P = A ++ B ∧ (∀ e ∈ A, maskLevel nv e.1 = k) ∧
      (∀ e ∈ B, maskLevel nv e.1 + 1 = k) ∧ (∀ e ∈ E, k ≤ maskLevel nv e.2.1)
  emitOk : ∀ e ∈ E, CubeT nv mts dcs e.2.1 e.1 e.2.2 ∧
      e.2.1 &&& (2 ^ nv - 1) = e.2.1 ∧ MaximalCube nv mts dcs e.1 e.2.1
  emitFresh : ∀ e ∈ E, e.2.1 ∉ pendingMasks P
  emitNodup : (E.map (fun e => (e.1, e.2.1))).Nodup
  kcov : ∀ x ∈ mts, x < 2 ^ nv →
      (∃ e ∈ E, x &&& e.2.1 = e.1) ∨
      (∃ e ∈ P, (lookupTrue e.2.trueImplicants (x &&& e.1)).isSome = true)
  coverage : ∀ pat mask, mask &&& (2 ^ nv - 1) = mask → GoodCube nv mts dcs pat mask →
      (∃ mask', mask &&& mask' = mask ∧ mask' ∈ pendingMasks P) ∨
      (MaximalCube nv mts dcs pat mask → HasMintermPoint nv mts pat mask →
        ∃ S, (pat, mask, S) ∈ E)

theorem qmInv_step {nv : Nat} {mts dcs : List Nat} {m0 : Nat} {t0 : ImplicantTable}
    {rest : Pending} {E : List PI}
    (hInv : QmInv nv mts dcs ((m0, t0) :: rest) E) :
    QmInv nv mts dcs
      (processDcs nv m0
        (processTruesFold nv m0 t0.trueImplicants ⟨⟨t0, rest⟩, []⟩).1.tbl
        (processTruesFold nv m0 t0.trueImplicants ⟨⟨t0, rest⟩, []⟩).1.pend)
      (E ++ (processTruesFold nv m0 t0.trueImplicants ⟨⟨t0, rest⟩, []⟩).2) ∧
    qmMu nv (processDcs nv m0
        (processTruesFold nv m0 t0.trueImplicants ⟨⟨t0, rest⟩, []⟩).1.tbl
        (processTruesFold nv m0 t0.trueImplicants ⟨⟨t0, rest⟩, []⟩).1.pend) <
      qmMu nv ((m0, t0) :: rest) := by
  have hhead : (m0, t0) ∈ (m0, t0) :: rest := List.mem_cons_self _ _
  have hok0 := (hInv.tables _ hhead).1
  have hff0 := (hInv.tables _ hhead).2
  have hself0 : ∀ q, GoodCube nv mts dcs q m0 → present nv mts m0 t0 q :=
    fun q hq => hInv.selfComplete _ hhead q hq
  have hsub0 : m0 &&& (2 ^ nv - 1) = m0 := hInv.masksSub _ hhead
  have hndP : m0 ∉ pendingMasks rest ∧ (pendingMasks rest).Nodup := by
    have h := hInv.masksNodup
    rw [show pendingMasks ((m0, t0) :: rest) = m0 :: pendingMasks rest from rfl,
      List.nodup_cons] at h
    exact h
  have hrel0 : TblRel nv mts dcs m0 t0 rest ⟨t0, rest⟩ := by
    refine ⟨sameCore_refl t0, pendProps_refl nv mts dcs m0 rest, ?_⟩
    rintro q ⟨a, hl, hf⟩
    rw [hff0 q a hl] at hf
    cases hf
  obtain ⟨rel1, mono1, pmono1, ⟨em, hem, hemprops, hemnd, hemsub⟩, emflag, fire⟩ :=
    processTruesFold_rel hsub0 hok0 hself0 t0.trueImplicants ⟨⟨t0, rest⟩, []⟩
      (fun pa hpa => lookupTrue_of_mem_nodup hok0.keysOk hpa) hok0.keysOk hrel0
  rw [List.nil_append] at hem
  have hdcs1 : (processTruesFold nv m0 t0.trueImplicants
      (⟨⟨t0, rest⟩, []⟩ : QmState × List PI)).1.tbl.dontcareImplicants =
      t0.dontcareImplicants := rel1.core.2.2
  obtain ⟨ppDc, dcfire⟩ := processDcs_rel hsub0 hok0 hdcs1
    (processTruesFold nv m0 t0.trueImplicants ⟨⟨t0, rest⟩, []⟩).1.tbl.dontcareImplicants
    (processTruesFold nv m0 t0.trueImplicants ⟨⟨t0, rest⟩, []⟩).1.pend
  have hpp : PendProps nv mts dcs m0 rest
      (processDcs nv m0
        (processTruesFold nv m0 t0.trueImplicants ⟨⟨t0, rest⟩, []⟩).1.tbl
        (processTruesFold nv m0 t0.trueImplicants ⟨⟨t0, rest⟩, []⟩).1.pend) :=
    pendProps_trans rel1.pend ppDc
  set P2 := processDcs nv m0
    (processTruesFold nv m0 t0.trueImplicants ⟨⟨t0, rest⟩, []⟩).1.tbl
    (processTruesFold nv m0 t0.trueImplicants ⟨⟨t0, rest⟩, []⟩).1.pend with hP2def
  rw [hem]
  obtain ⟨ms, hmasks, hch⟩ := hpp.masksExt
  have hmasksNodup2 : (pendingMasks P2).Nodup := hpp.nodupPres hndP.2
  have hmsNodup : ms.Nodup := by
    rw [hmasks, List.nodup_append] at hmasksNodup2
    exact hmasksNodup2.2.1
  have hmasksNodup2' : (pendingMasks P2).Nodup := hpp.nodupPres hndP.2
  have hmsLvl : ∀ m ∈ ms, maskLevel nv m + 1 = maskLevel nv m0 := by
    intro m hm
    obtain ⟨j, hj, htb, rfl⟩ := hch m hm
    exact maskLevel_xor_bit hj htb
  have hmsSub : ∀ m ∈ ms, m &&& (2 ^ nv - 1) = m := by
    intro m hm
    obtain ⟨j, hj, htb, rfl⟩ := hch m hm
    exact subMask_trans (xor_bit_subMask htb) hsub0
  have hm0notms : m0 ∉ ms := by
    intro hm
    have := hmsLvl m0 hm
    omega
  have hwriteT : ∀ p j, j < nv → m0.testBit j = true →
      (lookupTrue t0.trueImplicants p).isSome = true →
      patPresent t0 (p ^^^ (1 <<< j)) →
      pendHasTrue P2 (m0 ^^^ (1 <<< j)) (p &&& (m0 ^^^ (1 <<< j))) := by
    intro p j hj htb hsome hpp2
    cases hl : lookupTrue t0.trueImplicants p with
    | none => rw [hl] at hsome; cases hsome
    | some a =>
        exact ppDc.monoTrue _ _ (fire (p, a) (lookupTrue_mem hl) j hj htb hpp2)
  have hwriteD : ∀ p j, j < nv → m0.testBit j = true →
      p ∈ t0.dontcareImplicants → (p ^^^ (1 <<< j)) ∈ t0.dontcareImplicants →
      pendHasDc P2 (m0 ^^^ (1 <<< j)) (p &&& (m0 ^^^ (1 <<< j))) := by
    intro p j hj htb h1 h2
    exact dcfire p (hdcs1 ▸ h1) j hj htb (hdcs1 ▸ h1) (hdcs1 ▸ h2)
  have presentInP2 : ∀ m ∈ pendingMasks P2, ∀ pat, GoodCube nv mts dcs pat m →
      (HasMintermPoint nv mts pat m → pendHasTrue P2 m pat) ∧
      (¬ HasMintermPoint nv mts pat m → pendHasDc P2 m pat) := by
    intro m hm pat hgood
    rw [hmasks] at hm
    rcases List.mem_append.mp hm with hm | hm
    · obtain ⟨told, hmem'⟩ := mem_pendingMasks_iff.mp hm
      have hpres := hInv.selfComplete (m, told) (List.mem_cons_of_mem _ hmem') pat hgood
      have hlk : pendingLookup rest m = some told :=
        pendingLookup_of_mem_nodup hndP.2 hmem'
      exact ⟨fun hmp => hpp.monoTrue _ _ ⟨told, hlk, hpres.1 hmp⟩,
        fun hmp => hpp.monoDc _ _ ⟨told, hlk, hpres.2 hmp⟩⟩
    · obtain ⟨b, hbnv, htbb, rfl⟩ := hch m hm
      have hpatc : pat &&& (m0 ^^^ (1 <<< b)) = pat := hgood.1
      have hpatc0 : pat &&& m0 = pat := subMask_trans hpatc (xor_bit_subMask htbb)
      have hg1 : GoodCube nv mts dcs pat m0 := goodCube_parent hgood htbb hpatc0 hpatc
      have hplcb : (pat ^^^ (1 <<< b)) &&& (m0 ^^^ (1 <<< b)) =
          pat &&& (m0 ^^^ (1 <<< b)) :=
        parent_point_child htbb (Or.inr (xor_bit_canon hpatc0 htbb))
      have hg2 : GoodCube nv mts dcs (pat ^^^ (1 <<< b)) m0 :=
        goodCube_parent hgood htbb (xor_bit_canon hpatc0 htbb) (by rw [hplcb, hpatc])
      have hp1 := hself0 pat hg1
      have hp2 := hself0 _ hg2
      constructor
      · rintro ⟨x, hxm, hxlt, hxp⟩
        have hxp' : x &&& (m0 ^^^ (1 <<< b)) = pat &&& (m0 ^^^ (1 <<< b)) := by
          rw [hpatc]
          exact hxp
        rcases child_point_parents hpatc0 htbb hxp' with hc | hc
        · have hsome := hp1.1 ⟨x, hxm, hxlt, hc⟩
          have := hwriteT pat b hbnv htbb hsome (present_patPresent hp2)
          rwa [hpatc] at this
        · have hsome := hp2.1 ⟨x, hxm, hxlt, hc⟩
          have := hwriteT _ b hbnv htbb hsome
            (by rw [xor_xor_cancel]; exact present_patPresent hp1)
          rwa [hplcb, hpatc] at this
      · intro hmp
        have hnm1 : ¬ HasMintermPoint nv mts pat m0 := by
          rintro ⟨x, hxm, hxlt, hxp⟩
          exact hmp ⟨x, hxm, hxlt, by
            have := parent_point_child htbb (Or.inl hxp)
            rwa [hpatc] at this⟩
        have hnm2 : ¬ HasMintermPoint nv mts (pat ^^^ (1 <<< b)) m0 := by
          rintro ⟨x, hxm, hxlt, hxp⟩
          exact hmp ⟨x, hxm, hxlt, by
            have := parent_point_child htbb (Or.inr hxp)
            rwa [hpatc] at this⟩
        have := hwriteD pat b hbnv htbb (hp1.2 hnm1) (hp2.2 hnm2)
        rwa [hpatc] at this
  refine ⟨⟨hmasksNodup2, ?_, ?_, ?_, ?_, ?_, ?_, ?_, ?_, ?_⟩, ?_⟩
  · -- masksSub
    rintro ⟨m, t'⟩ hmem
    have hm : m ∈ pendingMasks P2 := List.mem_map.mpr ⟨(m, t'), hmem, rfl⟩
    rw [hmasks] at hm
    rcases List.mem_append.mp hm with hm | hm
    · obtain ⟨told, hmem'⟩ := mem_pendingMasks_iff.mp hm
      exact hInv.masksSub (m, told) (List.mem_cons_of_mem _ hmem')
    · exact hmsSub m hm
  · -- tables
    exact hpp.tablesOk (fun e he => hInv.tables e (List.mem_cons_of_mem _ he))
  · -- selfComplete
    rintro ⟨m, t'⟩ hmem pat hgood
    have hm : m ∈ pendingMasks P2 := List.mem_map.mpr ⟨(m, t'), hmem, rfl⟩
    have hlook : pendingLookup P2 m = some t' :=
      pendingLookup_of_mem_nodup hmasksNodup2 hmem
    obtain ⟨hT, hD⟩ := presentInP2 m hm pat hgood
    constructor
    · intro hmp
      obtain ⟨t'', hl'', hs''⟩ := hT hmp
      rw [hlook] at hl''
      cases hl''
      exact hs''
    · intro hmp
      obtain ⟨t'', hl'', hs''⟩ := hD hmp
      rw [hlook] at hl''
      cases hl''
      exact hs''
  · -- flevel
    obtain ⟨k, A, B, hPeq, hA, hB, hE⟩ := hInv.flevel
    have hnorm : ∃ k1 A1 B1, rest = A1 ++ B1 ∧ (∀ e ∈ A1, maskLevel nv e.1 = k1) ∧
        (∀ e ∈ B1, maskLevel nv e.1 + 1 = k1) ∧ maskLevel nv m0 = k1 ∧
        (∀ e ∈ E, k1 ≤ maskLevel nv e.2.1) := by
      rcases A with _ | ⟨a0, A'⟩
      · cases B with
        | nil => simp at hPeq
        | cons b0 B' =>
            rw [List.nil_append] at hPeq
            obtain ⟨hb0, hrest⟩ := List.cons.inj hPeq
            have hk1 : maskLevel nv m0 + 1 = k := by
              have := hB b0 (List.mem_cons_self _ _)
              rw [← hb0] at this
              exact this
            refine ⟨k - 1, B', [], by rw [hrest, List.append_nil], ?_, by simp, by omega, ?_⟩
            · intro e he
              have := hB e (List.mem_cons_of_mem _ he)
              omega
            · intro e he
              have := hE e he
              omega
      · have hPeq' : (m0, t0) :: rest = a0 :: (A' ++ B) := by
          rw [hPeq]
          rfl
        obtain ⟨ha0, hrest⟩ := List.cons.inj hPeq'
        refine ⟨k, A', B, hrest, fun e he => hA e (List.mem_cons_of_mem _ he), hB, ?_, hE⟩
        have := hA a0 (List.mem_cons_self _ _)
        rw [← ha0] at this
        exact this
    obtain ⟨k1, A1, B1, hrest1, hA1, hB1, hk1, hE1⟩ := hnorm
    have hsplit : P2.map Prod.fst = pendingMasks A1 ++ (pendingMasks B1 ++ ms) := by
      rw [show P2.map Prod.fst = pendingMasks P2 from rfl, hmasks, hrest1]
      rw [show pendingMasks (A1 ++ B1) = pendingMasks A1 ++ pendingMasks B1 from
        List.map_append _ _ _]
      rw [List.append_assoc]
    obtain ⟨A2, B2, hP2eq, hA2m, hB2m⟩ := map_eq_append_split hsplit
    refine ⟨k1, A2, B2, hP2eq, ?_, ?_, ?_⟩
    · intro e he
      have : e.1 ∈ pendingMasks A1 := by
        rw [← hA2m]
        exact List.mem_map.mpr ⟨e, he, rfl⟩
      obtain ⟨e', he', heq⟩ := List.mem_map.mp this
      rw [← heq]
      exact hA1 e' he'
    · intro e he
      have : e.1 ∈ pendingMasks B1 ++ ms := by
        rw [← hB2m]
        exact List.mem_map.mpr ⟨e, he, rfl⟩
      rcases List.mem_append.mp this with hm | hm
      · obtain ⟨e', he', heq⟩ := List.mem_map.mp hm
        rw [← heq]
        exact hB1 e' he'
      · have := hmsLvl _ hm
        omega
    · intro e he
      rcases List.mem_append.mp he with he | he
      · exact hE1 e he
      · have := (hemprops e (hem ▸ he)).1
        rw [this]
        omega
  · -- emitOk
    intro e he
    rcases List.mem_append.mp he with he | he
    · exact hInv.emitOk e he
    · obtain ⟨hm0e, ⟨a', hla', hcov'⟩, hnopart⟩ := hemprops e (hem ▸ he)
      have hcube := hok0.trueOk e.1 a' hla'
      rw [hcov'] at hcube
      refine ⟨hm0e ▸ hcube, hm0e ▸ hsub0, ?_⟩
      rw [hm0e]
      intro j hj htbj hgoodsup
      have hcanon : e.1 &&& m0 = e.1 := hcube.canon
      have hplcj : (e.1 ^^^ (1 <<< j)) &&& (m0 ^^^ (1 <<< j)) =
          e.1 &&& (m0 ^^^ (1 <<< j)) :=
        parent_point_child htbj (Or.inr (xor_bit_canon hcanon htbj))
      have hsib : GoodCube nv mts dcs (e.1 ^^^ (1 <<< j)) m0 :=
        goodCube_parent hgoodsup htbj (xor_bit_canon hcanon htbj) hplcj
      exact hnopart j hj htbj (present_patPresent (hself0 _ hsib))
  · -- emitFresh
    intro e he
    rw [hmasks]
    rcases List.mem_append.mp he with he | he
    · intro hc
      rcases List.mem_append.mp hc with hc | hc
      · have := hInv.emitFresh e he
        rw [show pendingMasks ((m0, t0) :: rest) = m0 :: pendingMasks rest from rfl] at this
        exact this (List.mem_cons_of_mem _ hc)
      · obtain ⟨k, A, B, hPeq, hA, hB, hE⟩ := hInv.flevel
        have hkhead : maskLevel nv m0 + 1 = k ∨ maskLevel nv m0 = k := by
          rcases A with _ | ⟨a0, A'⟩
          · cases B with
            | nil => simp at hPeq
            | cons b0 B' =>
                rw [List.nil_append] at hPeq
                obtain ⟨hb0, _⟩ := List.cons.inj hPeq
                exact Or.inl (by have := hB b0 (List.mem_cons_self _ _); rw [← hb0] at this; exact this)
          · have hPeq' : (m0, t0) :: rest = a0 :: (A' ++ B) := by rw [hPeq]; rfl
            obtain ⟨ha0, _⟩ := List.cons.inj hPeq'
            exact Or.inr (by have := hA a0 (List.mem_cons_self _ _); rw [← ha0] at this; exact this)
        have hEe := hE e he
        have := hmsLvl _ hc
        rcases hkhead with hk1 | hk1 <;> omega
    · have := (hemprops e (hem ▸ he)).1
      rw [this]
      intro hc
      rcases List.mem_append.mp hc with hc | hc
      · exact hndP.1 hc
      · exact hm0notms hc
  · -- emitNodup
    rw [List.map_append, List.nodup_append]
    refine ⟨hInv.emitNodup, ?_, ?_⟩
    · have hcomp : ∀ (l : List PI),
          (l.map (fun e => (e.1, e.2.1))).map Prod.fst = l.map Prod.fst := by
        intro l
        induction l with
        | nil => rfl
        | cons a l ih => simp [ih]
      rw [← hcomp em] at hemnd
      exact hemnd.of_map
    · intro x hx1 hx2
      obtain ⟨e1, he1, heq1⟩ := List.mem_map.mp hx1
      obtain ⟨e2, he2, heq2⟩ := List.mem_map.mp hx2
      have hm2 : e2.2.1 = m0 := (hemprops e2 (hem ▸ he2)).1
      have hm1 : e1.2.1 = m0 := by
        have : (e1.1, e1.2.1) = (e2.1, e2.2.1) := by rw [heq1, heq2]
        have := congrArg Prod.snd this
        simp at this
        rw [this, hm2]
      have := hInv.emitFresh e1 he1
      rw [hm1, show pendingMasks ((m0, t0) :: rest) = m0 :: pendingMasks rest from rfl] at this
      exact this (List.mem_cons_self _ _)
  · -- kcov
    intro x hxm hxlt
    rcases hInv.kcov x hxm hxlt with ⟨e, he, hxe⟩ | ⟨e, he, hsome⟩
    · exact Or.inl ⟨e, List.mem_append_left _ he, hxe⟩
    · rcases List.mem_cons.mp he with heq | hmem
      · subst heq
        cases hl0 : lookupTrue t0.trueImplicants (x &&& m0) with
        | none =>
            rw [hl0] at hsome
            cases hsome
        | some a0 =>
            rcases emflag (x &&& m0, a0) (lookupTrue_mem hl0) with
              ⟨e', he', hfst, hsnd, _⟩ | hflag
            · refine Or.inl ⟨e', List.mem_append_right _ (hem ▸ he'), ?_⟩
              rw [hsnd, hfst]
            · obtain ⟨j, hj, htbj, _, hpt⟩ := rel1.flagWit _ hflag
              have h2 := ppDc.monoTrue _ _ hpt
              rw [land_project (xor_bit_subMask htbj)] at h2
              obtain ⟨t'', hl'', hs''⟩ := h2
              exact Or.inr ⟨(m0 ^^^ (1 <<< j), t''), pendingLookup_mem hl'', hs''⟩
      · have hlk : pendingLookup rest e.1 = some e.2 :=
          pendingLookup_of_mem_nodup hndP.2 (by
            have : (e.1, e.2) = e := rfl
            rw [this]
            exact hmem)
        obtain ⟨t'', hl'', hs''⟩ := hpp.monoTrue _ _ ⟨e.2, hlk, hsome⟩
        exact Or.inr ⟨(e.1, t''), pendingLookup_mem hl'', hs''⟩
  · -- coverage
    intro pat mask hsubm hgood
    rcases hInv.coverage pat mask hsubm hgood with ⟨mask', hsm, hmem'⟩ | hhandled
    · have hmem'' : mask' = m0 ∨ mask' ∈ pendingMasks rest := by
        rw [show pendingMasks ((m0, t0) :: rest) = m0 :: pendingMasks rest from rfl] at hmem'
        exact List.mem_cons.mp hmem'
      rcases hmem'' with heq | hmem''
      · rw [heq] at hsm
        by_cases hmm0 : mask = m0
        · refine Or.inr ?_
          rw [hmm0]
          rw [hmm0] at hgood
          intro hmax hmin
          have hpres := hself0 pat hgood
          have hsome := hpres.1 hmin
          cases hl0 : lookupTrue t0.trueImplicants pat with
          | none =>
              rw [hl0] at hsome
              cases hsome
          | some a0 =>
              rcases emflag (pat, a0) (lookupTrue_mem hl0) with
                ⟨e', he', hfst, hsnd, _⟩ | hflag
              · refine ⟨e'.2.2, ?_⟩
                have heeq : e' = (pat, m0, e'.2.2) := by
                  obtain ⟨p1, mm, ss⟩ := e'
                  simp only at hfst hsnd
                  rw [hfst, hsnd]
                rw [← heeq]
                exact List.mem_append_right _ (hem ▸ he')
              · obtain ⟨j, hj, htbj, hpartner, _⟩ := rel1.flagWit pat hflag
                have hpg : GoodCube nv mts dcs (pat ^^^ (1 <<< j)) m0 := by
                  rcases hpartner with hs | hd
                  · cases hlp : lookupTrue t0.trueImplicants (pat ^^^ (1 <<< j)) with
                    | none =>
                        rw [hlp] at hs
                        cases hs
                    | some ap => exact goodCube_of_cubeT (hok0.trueOk _ ap hlp)
                  · exact goodCube_of_cubeDc (hok0.dcOk _ hd)
                exact absurd (goodCube_combine htbj hgood hpg) (hmax j hj htbj)
        · obtain ⟨b, htbb, hmb⟩ := proper_submask_bit hsm hmm0
          have hbnv : b < nv := by
            have := subMask_testBit hsub0 htbb
            rw [Nat.testBit_two_pow_sub_one] at this
            simpa using this
          have hsubm'' : mask &&& (m0 ^^^ (1 <<< b)) = mask := submask_xor_bit hsm hmb
          have hgood'' : GoodCube nv mts dcs pat (m0 ^^^ (1 <<< b)) :=
            goodCube_supermask hgood hsubm''
          have hpatc'' : pat &&& (m0 ^^^ (1 <<< b)) = pat := hgood''.1
          have hpatc0 : pat &&& m0 = pat := subMask_trans hpatc'' (xor_bit_subMask htbb)
          have hg1 : GoodCube nv mts dcs pat m0 :=
            goodCube_parent hgood'' htbb hpatc0 hpatc''
          have hplcb : (pat ^^^ (1 <<< b)) &&& (m0 ^^^ (1 <<< b)) =
              pat &&& (m0 ^^^ (1 <<< b)) :=
            parent_point_child htbb (Or.inr (xor_bit_canon hpatc0 htbb))
          have hg2 : GoodCube nv mts dcs (pat ^^^ (1 <<< b)) m0 :=
            goodCube_parent hgood'' htbb (xor_bit_canon hpatc0 htbb)
              (by rw [hplcb, hpatc''])
          have hp1 := hself0 pat hg1
          have hp2 := hself0 _ hg2
          have hhasTable : ∃ t'', pendingLookup P2 (m0 ^^^ (1 <<< b)) = some t'' := by
            by_cases hm1 : HasMintermPoint nv mts pat m0
            · obtain ⟨t'', hl'', _⟩ := hwriteT pat b hbnv htbb (hp1.1 hm1)
                (present_patPresent hp2)
              exact ⟨t'', hl''⟩
            · by_cases hm2 : HasMintermPoint nv mts (pat ^^^ (1 <<< b)) m0
              · obtain ⟨t'', hl'', _⟩ := hwriteT _ b hbnv htbb (hp2.1 hm2)
                  (by rw [xor_xor_cancel]; exact present_patPresent hp1)
                exact ⟨t'', hl''⟩
              · obtain ⟨t'', hl'', _⟩ := hwriteD pat b hbnv htbb (hp1.2 hm1) (hp2.2 hm2)
                exact ⟨t'', hl''⟩
          obtain ⟨t'', hl''⟩ := hhasTable
          exact Or.inl ⟨m0 ^^^ (1 <<< b), hsubm'',
            List.mem_map.mpr ⟨(m0 ^^^ (1 <<< b), t''), pendingLookup_mem hl'', rfl⟩⟩
      · refine Or.inl ⟨mask', hsm, ?_⟩
        rw [hmasks]
        exact List.mem_append_left _ hmem''
    · refine Or.inr fun hmax hmin => ?_
      obtain ⟨S, hS⟩ := hhandled hmax hmin
      exact ⟨S, List.mem_append_left _ hS⟩
  · -- measure decrease
    have h1 : qmMu nv P2 =
        ((pendingMasks rest).map (fun m => (nv + 1) ^ maskLevel nv m)).sum +
        (ms.map (fun m => (nv + 1) ^ maskLevel nv m)).sum := by
      unfold qmMu
      rw [hmasks, List.map_append, List.sum_append]
    have h2 : qmMu nv ((m0, t0) :: rest) =
        (nv + 1) ^ maskLevel nv m0 +
        ((pendingMasks rest).map (fun m => (nv + 1) ^ maskLevel nv m)).sum := by
      unfold qmMu
      rw [show pendingMasks ((m0, t0) :: rest) = m0 :: pendingMasks rest from rfl,
        List.map_cons, List.sum_cons]
    rw [h1, h2]
    have hkey : (ms.map (fun m => (nv + 1) ^ maskLevel nv m)).sum <
        (nv + 1) ^ maskLevel nv m0 := by
      by_cases hempty : ms = []
      · rw [hempty]
        simp only [List.map_nil, List.sum_nil]
        exact pow_pos (by omega) _
      · obtain ⟨mhd, hmhd⟩ := List.exists_mem_of_ne_nil ms hempty
        have hL0pos : 1 ≤ maskLevel nv m0 := by
          have := hmsLvl mhd hmhd
          omega
        have hsum : (ms.map (fun m => (nv + 1) ^ maskLevel nv m)).sum =
            ms.length * (nv + 1) ^ (maskLevel nv m0 - 1) := by
          apply sum_map_const
          intro m hm
          have := hmsLvl m hm
          congr 1
          omega
        have hlen : ms.length ≤ nv := childMasks_length_le hmsNodup hch
        rw [hsum]
        calc ms.length * (nv + 1) ^ (maskLevel nv m0 - 1)
            ≤ nv * (nv + 1) ^ (maskLevel nv m0 - 1) :=
              Nat.mul_le_mul_right _ hlen
          _ < (nv + 1) * (nv + 1) ^ (maskLevel nv m0 - 1) := by
              apply (Nat.mul_lt_mul_right (pow_pos (by omega) _)).mpr
              omega
          _ = (nv + 1) ^ (maskLevel nv m0 - 1 + 1) := by
              rw [pow_succ]
              ring
          _ = (nv + 1) ^ maskLevel nv m0 := by
              congr 1
              omega
    omega

theorem qmLoop_final {nv : Nat} {mts dcs : List Nat} :
    ∀ (fuel : Nat) (P : Pending) (E : List PI),
    QmInv nv mts dcs P E → qmMu nv P < fuel →
    QmInv nv mts dcs [] (qmLoop nv fuel P E) := by
  intro fuel
  induction fuel with
  | zero =>
      intro P E _ hmu
      omega
  | succ fuel ih =>
      intro P E hInv hmu
      cases P with
      | nil => exact hInv
      | cons e rest =>
          obtain ⟨m0, t0⟩ := e
          obtain ⟨hInv2, hdec⟩ := qmInv_step hInv
          have hstep : qmLoop nv (fuel + 1) ((m0, t0) :: rest) E =
              qmLoop nv fuel
                (processDcs nv m0
                  (processTruesFold nv m0 t0.trueImplicants ⟨⟨t0, rest⟩, []⟩).1.tbl
                  (processTruesFold nv m0 t0.trueImplicants ⟨⟨t0, rest⟩, []⟩).1.pend)
                (E ++ (processTruesFold nv m0 t0.trueImplicants ⟨⟨t0, rest⟩, []⟩).2) := rfl
          rw [hstep]
          exact ih _ _ hInv2 (by omega)

theorem foldl_insertTrue_lookup (l : List (Nat × Nat)) :
    ∀ (acc : List (Nat × TrueAttrs)) (p : Nat) (a : TrueAttrs),
    lookupTrue (l.foldl (fun acc im => insertTrue acc im.2 ⟨{im.1}, false⟩) acc) p =
      some a →
    (∃ im ∈ l, im.2 = p ∧ a = ⟨{im.1}, false⟩) ∨ lookupTrue acc p = some a := by
  induction l with
  | nil => exact fun acc p a h => Or.inr h
  | cons im l ih =>
      intro acc p a h
      rcases ih _ p a h with ⟨im', hmem, heq⟩ | h2
      · exact Or.inl ⟨im', List.mem_cons_of_mem _ hmem, heq⟩
      · rw [lookupTrue_insertTrue] at h2
        by_cases hq : im.2 = p
        · rw [if_pos hq] at h2
          cases h2
          exact Or.inl ⟨im, List.mem_cons_self _ _, hq, rfl⟩
        · rw [if_neg hq] at h2
          exact Or.inr h2

theorem foldl_insertTrue_isSome_mono (l : List (Nat × Nat)) :
    ∀ (acc : List (Nat × TrueAttrs)) (p : Nat),
    (lookupTrue acc p).isSome = true →
    (lookupTrue (l.foldl (fun acc im => insertTrue acc im.2 ⟨{im.1}, false⟩) acc)
      p).isSome = true := by
  induction l with
  | nil => exact fun acc p h => h
  | cons im l ih =>
      intro acc p h
      apply ih
      rw [lookupTrue_insertTrue]
      by_cases hq : im.2 = p
      · rw [if_pos hq]
        rfl
      · rw [if_neg hq]
        exact h

theorem foldl_insertTrue_isSome (l : List (Nat × Nat)) :
    ∀ (acc : List (Nat × TrueAttrs)) (im : Nat × Nat), im ∈ l →
    (lookupTrue (l.foldl (fun acc im => insertTrue acc im.2 ⟨{im.1}, false⟩) acc)
      im.2).isSome = true := by
  induction l with
  | nil => intro _ _ h; simp at h
  | cons im0 l ih =>
      intro acc im hmem
      rcases List.mem_cons.mp hmem with heq | hmem'
      · subst heq
        rw [List.foldl_cons]
        apply foldl_insertTrue_isSome_mono
        rw [lookupTrue_insertTrue, if_pos rfl]
        rfl
      · exact ih _ im hmem'

theorem foldl_insertTrue_nodup (l : List (Nat × Nat)) :
    ∀ (acc : List (Nat × TrueAttrs)), ((acc.map Prod.fst).Nodup) →
    (((l.foldl (fun acc im => insertTrue acc im.2 ⟨{im.1}, false⟩) acc)).map
      Prod.fst).Nodup := by
  induction l with
  | nil => exact fun acc h => h
  | cons im l ih =>
      intro acc h
      exact ih _ (insertTrue_keys_nodup h)

theorem foldl_insertDc_mem (l : List Nat) :
    ∀ (acc : List Nat) (p : Nat), p ∈ l.foldl insertDc acc ↔ p ∈ acc ∨ p ∈ l := by
  induction l with
  | nil => simp
  | cons d l ih =>
      intro acc p
      rw [List.foldl_cons, ih, mem_insertDc]
      simp only [List.mem_cons]
      tauto

theorem land_full_of_lt {x nv : Nat} (h : x < 2 ^ nv) : x &&& (2 ^ nv - 1) = x := by
  apply Nat.eq_of_testBit_eq
  intro i
  simp only [Nat.testBit_land, Nat.testBit_two_pow_sub_one]
  by_cases hi : i < nv
  · simp [hi]
  · have : x.testBit i = false := Nat.testBit_lt_two_pow (by
      calc x < 2 ^ nv := h
        _ ≤ 2 ^ i := Nat.pow_le_pow_right (by omega) (by omega))
    simp [this]

theorem lt_of_land_full {x nv : Nat} (h : x &&& (2 ^ nv - 1) = x) : x < 2 ^ nv := by
  have h1 : x ≤ 2 ^ nv - 1 := by
    rw [← h]
    exact Nat.and_le_right
  have h2 : 0 < 2 ^ nv := Nat.pos_pow_of_pos _ (by omega)
  omega

theorem qmInv_init (nv : Nat) (mts dcs : List Nat)
    (hon : ∀ x ∈ mts, x < 2 ^ nv) (hdc : ∀ x ∈ dcs, x < 2 ^ nv) :
    QmInv nv mts dcs [(2 ^ nv - 1, setImplicants mts dcs)] [] := by
  have hTlook : ∀ p a, lookupTrue (setImplicants mts dcs).trueImplicants p = some a →
      ∃ i, mts.get? i = some p ∧ a = ⟨{i}, false⟩ := by
    intro p a h
    rcases foldl_insertTrue_lookup mts.enum [] p a h with ⟨im, hmem, h2, h3⟩ | h2
    · refine ⟨im.1, ?_, h3⟩
      rw [← h2]
      exact (List.mem_enum_iff_get?.mp (by
        obtain ⟨i, x⟩ := im
        exact hmem))
    · simp [lookupTrue] at h2
  have hTmem : ∀ p ∈ mts, (lookupTrue (setImplicants mts dcs).trueImplicants p).isSome =
      true := by
    intro p hp
    obtain ⟨i, hi⟩ := List.mem_iff_get?.mp hp
    exact foldl_insertTrue_isSome mts.enum [] (i, p) (List.mem_enum_iff_get?.mpr hi)
  have hDmem : ∀ p, p ∈ (setImplicants mts dcs).dontcareImplicants ↔ p ∈ dcs := by
    intro p
    rw [show (setImplicants mts dcs).dontcareImplicants = dcs.foldl insertDc [] from rfl,
      foldl_insertDc_mem]
    simp
  have hpoint : ∀ x p, x < 2 ^ nv → (x &&& (2 ^ nv - 1) = p ↔ x = p) := by
    intro x p hx
    rw [land_full_of_lt hx]
  have hok : TableOk nv mts dcs (2 ^ nv - 1) (setImplicants mts dcs) := by
    refine ⟨?_, ?_, ?_⟩
    · intro pat a hl
      obtain ⟨i, hi, ha⟩ := hTlook pat a hl
      have hpm : pat ∈ mts := List.get?_mem hi
      have hplt : pat < 2 ^ nv := hon pat hpm
      refine ⟨land_full_of_lt hplt, ?_, ?_, ?_, ?_⟩
      · intro x hx hxp
        rw [hpoint x pat hx] at hxp
        subst hxp
        exact Or.inl hpm
      · intro i2 hi2
        rw [ha] at hi2
        simp only [Finset.mem_singleton] at hi2
        subst hi2
        exact ⟨pat, hi, land_full_of_lt hplt⟩
      · rw [ha]
        exact ⟨i, Finset.mem_singleton_self i⟩
      · intro x hxm hxlt hxp
        rw [hpoint x pat hxlt] at hxp
        subst hxp
        rw [ha]
        exact ⟨i, Finset.mem_singleton_self i, hi⟩
    · intro pat hmem
      rw [hDmem] at hmem
      have hplt : pat < 2 ^ nv := hdc pat hmem
      refine ⟨land_full_of_lt hplt, ?_⟩
      intro x hx hxp
      rw [hpoint x pat hx] at hxp
      subst hxp
      exact hmem
    · exact foldl_insertTrue_nodup mts.enum [] (by simp)
  refine ⟨?_, ?_, ?_, ?_, ?_, ?_, ?_, ?_, ?_, ?_⟩
  · simp [pendingMasks]
  · rintro ⟨m, t⟩ hmem
    rw [List.mem_singleton] at hmem
    cases hmem
    apply land_full_of_lt
    have h2 : 0 < 2 ^ nv := Nat.pos_pow_of_pos _ (by omega)
    omega
  · rintro ⟨m, t⟩ hmem
    rw [List.mem_singleton] at hmem
    cases hmem
    refine ⟨hok, ?_⟩
    intro p a hl
    obtain ⟨i, _, ha⟩ := hTlook p a hl
    rw [ha]
  · rintro ⟨m, t⟩ hmem pat hgood
    rw [List.mem_singleton] at hmem
    cases hmem
    have hplt : pat < 2 ^ nv := lt_of_land_full hgood.1
    constructor
    · rintro ⟨x, hxm, hxlt, hxp⟩
      rw [hpoint x pat hxlt] at hxp
      subst hxp
      exact hTmem x hxm
    · intro hmp
      rcases hgood.2 pat hplt (land_full_of_lt hplt) with hm | hm
      · exact absurd ⟨pat, hm, hplt, land_full_of_lt hplt⟩ hmp
      · rw [hDmem]
        exact hm
  · refine ⟨nv, [(2 ^ nv - 1, setImplicants mts dcs)], [], rfl, ?_, by simp, by simp⟩
    rintro ⟨m, t⟩ hmem
    rw [List.mem_singleton] at hmem
    cases hmem
    exact maskLevel_full nv
  · intro e he
    simp at he
  · intro e he
    simp at he
  · simp
  · intro x hxm hxlt
    refine Or.inr ⟨(2 ^ nv - 1, setImplicants mts dcs), List.mem_singleton_self _, ?_⟩
    rw [land_full_of_lt hxlt]
    exact hTmem x hxm
  · intro pat mask hsubm _
    exact Or.inl ⟨2 ^ nv - 1, hsubm, by simp [pendingMasks]⟩

theorem primeImplicants_inv (nv : Nat) (mts dcs : List Nat)
    (hon : ∀ x ∈ mts, x < 2 ^ nv) (hdc : ∀ x ∈ dcs, x < 2 ^ nv) :
    QmInv nv mts dcs [] (primeImplicants nv mts dcs) := by
  have hfull : (1 <<< nv) - 1 = 2 ^ nv - 1 := by rw [Nat.one_shiftLeft]
  unfold primeImplicants qmFuel
  rw [hfull]
  apply qmLoop_final _ _ _ (qmInv_init nv mts dcs hon hdc)
  unfold qmMu pendingMasks
  simp [maskLevel_full]


/-! ### Consequences of the loop invariant for the emitted prime implicants -/

theorem primeImplicants_nil (nv : Nat) (dcs : List Nat)
    (hdc : ∀ x ∈ dcs, x < 2 ^ nv) : primeImplicants nv [] dcs = [] := by
  have hinv := primeImplicants_inv nv [] dcs (by simp) hdc
  cases hE : primeImplicants nv [] dcs with
  | nil => rfl
  | cons e E' =>
      exfalso
      have hok := hinv.emitOk e (hE ▸ List.mem_cons_self _ _)
      obtain ⟨i, hi⟩ := hok.1.covNE
      obtain ⟨x, hx, _⟩ := hok.1.covS i hi
      simp at hx

theorem primeImplicants_full (nv : Nat) (mts dcs : List Nat)
    (hon : ∀ x ∈ mts, x < 2 ^ nv) (hdc : ∀ x ∈ dcs, x < 2 ^ nv)
    (hfull : ∀ x, x < 2 ^ nv → x ∈ mts ∨ x ∈ dcs) (hne : mts ≠ []) :
    ∃ S : Finset Nat, primeImplicants nv mts dcs = [(0, 0, S)] ∧ S.Nonempty := by
  have hinv := primeImplicants_inv nv mts dcs hon hdc
  have hshape : ∀ e ∈ primeImplicants nv mts dcs, e.1 = 0 ∧ e.2.1 = 0 := by
    intro e he
    obtain ⟨hcube, hsub, hmax⟩ := hinv.emitOk e he
    have hm0 : e.2.1 = 0 := by
      apply Nat.eq_of_testBit_eq
      intro j
      simp only [Nat.zero_testBit]
      by_cases hj : j < nv
      · cases hcb : e.2.1.testBit j with
        | false => rfl
        | true =>
            exfalso
            apply hmax j hj hcb
            refine ⟨land_assoc_right _ _, ?_⟩
            intro x hx _
            exact hfull x hx
      · exact testBit_ge_of_subMask hsub (by omega)
    refine ⟨?_, hm0⟩
    have := hcube.canon
    rw [hm0] at this
    simpa using this.symm
  have hnonempty : primeImplicants nv mts dcs ≠ [] := by
    intro hnil
    cases mts with
    | nil => exact hne rfl
    | cons x0 mts' =>
        rcases hinv.kcov x0 (List.mem_cons_self _ _)
          (hon x0 (List.mem_cons_self _ _)) with ⟨e, he, _⟩ | ⟨e, he, _⟩
        · rw [hnil] at he
          simp at he
        · simp at he
  cases hE : primeImplicants nv mts dcs with
  | nil => exact absurd hE hnonempty
  | cons e E' =>
      cases E' with
      | nil =>
          obtain ⟨h1, h2⟩ := hshape e (hE ▸ List.mem_cons_self _ _)
          refine ⟨e.2.2, ?_, ?_⟩
          · rw [show ((0 : Nat), (0 : Nat), e.2.2) = e from by
              obtain ⟨p, m, S⟩ := e
              simp only at h1 h2
              rw [h1, h2]]
          · exact ((hinv.emitOk e (hE ▸ List.mem_cons_self _ _)).1).covNE
      | cons e2 E'' =>
          exfalso
          have hnd := hinv.emitNodup
          rw [hE] at hnd
          simp only [List.map_cons, List.nodup_cons] at hnd
          obtain ⟨h1a, h1b⟩ := hshape e (hE ▸ List.mem_cons_self _ _)
          obtain ⟨h2a, h2b⟩ := hshape e2 (hE ▸ List.mem_cons_of_mem _ (List.mem_cons_self _ _))
          apply hnd.1
          rw [List.mem_cons]
          left
          rw [h1a, h1b, h2a, h2b]

/-- C2: every cube emitted by `_compute_prime_implicants` evaluates true
only at inputs that are listed minterms or listed don't-cares. -/
theorem c2_qm_soundness (nv : Nat) (mts dcs : List Nat)
    (hon : ∀ x ∈ mts, x < 2 ^ nv) (hdc : ∀ x ∈ dcs, x < 2 ^ nv) :
    ∀ e ∈ primeImplicants nv mts dcs, ∀ x, x < 2 ^ nv →
      x &&& e.2.1 = e.1 → x ∈ mts ∨ x ∈ dcs := by
  intro e he x hx hxe
  exact ((primeImplicants_inv nv mts dcs hon hdc).emitOk e he).1.sound x hx hxe

theorem c2_qm_soundness_witness :
    (∀ x ∈ [1, 2], x < 2 ^ 2) ∧ (∀ x ∈ [3], x < 2 ^ 2) ∧
    (∀ e ∈ primeImplicants 2 [1, 2] [3], ∀ x, x < 2 ^ 2 →
      x &&& e.2.1 = e.1 → x ∈ [1, 2] ∨ x ∈ [3]) :=
  ⟨by decide, by decide, c2_qm_soundness 2 [1, 2] [3] (by decide) (by decide)⟩

/-- C3: no emitted prime implicant is a strict sub-cube of another
emitted one. -/
theorem c3_qm_primality (nv : Nat) (mts dcs : List Nat)
    (hon : ∀ x ∈ mts, x < 2 ^ nv) (hdc : ∀ x ∈ dcs, x < 2 ^ nv) :
    ∀ e1 ∈ primeImplicants nv mts dcs, ∀ e2 ∈ primeImplicants nv mts dcs,
      e2.2.1 &&& e1.2.1 = e2.2.1 → e2.2.1 ≠ e1.2.1 →
      e1.1 &&& e2.2.1 ≠ e2.1 := by
  intro e1 he1 e2 he2 hsub hne heq
  have hinv := primeImplicants_inv nv mts dcs hon hdc
  obtain ⟨hc1, hs1, hmax1⟩ := hinv.emitOk e1 he1
  obtain ⟨hc2, hs2, _⟩ := hinv.emitOk e2 he2
  obtain ⟨b, htb1, htb2⟩ := proper_submask_bit hsub hne
  have hbnv : b < nv := by
    have := subMask_testBit hs1 htb1
    rw [Nat.testBit_two_pow_sub_one] at this
    simpa using this
  apply hmax1 b hbnv htb1
  refine ⟨land_assoc_right _ _, ?_⟩
  intro x hx hxp
  apply hc2.sound x hx
  have hsub2 : e2.2.1 &&& (e1.2.1 ^^^ (1 <<< b)) = e2.2.1 := submask_xor_bit hsub htb2
  calc x &&& e2.2.1 = (x &&& (e1.2.1 ^^^ (1 <<< b))) &&& e2.2.1 :=
        (land_project hsub2).symm
    _ = (e1.1 &&& (e1.2.1 ^^^ (1 <<< b))) &&& e2.2.1 := by rw [hxp]
    _ = e1.1 &&& e2.2.1 := land_project hsub2
    _ = e2.1 := heq

theorem c3_qm_primality_witness :
    (∀ x ∈ [0, 1, 2], x < 2 ^ 2) ∧ (∀ x ∈ ([] : List Nat), x < 2 ^ 2) ∧
    (∀ e1 ∈ primeImplicants 2 [0, 1, 2] [], ∀ e2 ∈ primeImplicants 2 [0, 1, 2] [],
      e2.2.1 &&& e1.2.1 = e2.2.1 → e2.2.1 ≠ e1.2.1 → e1.1 &&& e2.2.1 ≠ e2.1) :=
  ⟨by decide, by decide, c3_qm_primality 2 [0, 1, 2] [] (by decide) (by decide)⟩


/-! ### The constant cases of Petrick's method -/

theorem coveredBySet_universal {S : Finset Nat} {i : Nat} (hi : i ∈ S) :
    coveredBySet [(0, 0, S)] i = {0} := by
  simp [coveredBySet, hi]

theorem absorbStep_ne_nil (primes : List PI) (acc : List MintermInfo) (i : Nat) :
    absorbStep primes acc i ≠ [] := by
  simp [absorbStep]

theorem foldl_absorb_ne_nil (primes : List PI) :
    ∀ (l : List Nat) (acc : List MintermInfo), acc ≠ [] →
    l.foldl (absorbStep primes) acc ≠ [] := by
  intro l
  induction l with
  | nil => exact fun acc h => h
  | cons i l ih =>
      intro acc _
      rw [List.foldl_cons]
      exact ih _ (absorbStep_ne_nil primes acc i)

theorem foldl_absorb_universal (primes : List PI) :
    ∀ (l : List Nat) (acc : List MintermInfo),
    (∀ i ∈ l, coveredBySet primes i = {0}) →
    (acc = [] ∨ ∃ i0 rest, acc = ⟨i0, {0}, false⟩ :: rest ∧
      ∀ r ∈ rest, r.absorbed = true ∧ r.coveredBy = {0}) →
    (l.foldl (absorbStep primes) acc = [] ∨
      ∃ i0 rest, l.foldl (absorbStep primes) acc = ⟨i0, {0}, false⟩ :: rest ∧
      ∀ r ∈ rest, r.absorbed = true ∧ r.coveredBy = {0}) := by
  intro l
  induction l with
  | nil => exact fun acc _ h => h
  | cons i l ih =>
      intro acc hcov hshape
      rw [List.foldl_cons]
      apply ih _ (fun j hj => hcov j (List.mem_cons_of_mem _ hj))
      right
      have hcbi : coveredBySet primes i = {0} := hcov i (List.mem_cons_self _ _)
      rcases hshape with hnil | ⟨i0, rest, hacc, hrest⟩
      · subst hnil
        refine ⟨i, [], ?_, by simp⟩
        simp [absorbStep, hcbi]
      · subst hacc
        refine ⟨i0, rest ++ [⟨i, {0}, true⟩], ?_, ?_⟩
        · have hmapid : ∀ (l : List MintermInfo),
              (∀ r ∈ l, r.coveredBy = ({0} : Finset Nat)) →
              l.map (fun info =>
                if info.coveredBy ⊆ ({0} : Finset Nat) then info
                else if ({0} : Finset Nat) ⊆ info.coveredBy then
                  (⟨info.idx, info.coveredBy, true⟩ : MintermInfo) else info) = l := by
            intro l hl
            induction l with
            | nil => rfl
            | cons a l ih =>
                rw [List.map_cons, ih (fun r hr => hl r (List.mem_cons_of_mem _ hr))]
                have ha := hl a (List.mem_cons_self _ _)
                simp [ha]
          simp only [absorbStep, hcbi]
          rw [hmapid _ (by
            intro r hr
            rcases List.mem_cons.mp hr with heq | hr2
            · subst heq
              rfl
            · exact (hrest r hr2).2)]
          simp
        · intro r hr
          rcases List.mem_append.mp hr with hr | hr
          · exact hrest r hr
          · rw [List.mem_singleton] at hr
            subst hr
            exact ⟨rfl, rfl⟩


theorem computeProductOfSums_universal {S : Finset Nat} (hS : S.Nonempty) :
    computeProductOfSums [(0, 0, S)] = [[({0} : Finset Nat)]] := by
  have hidx : allMintermIdxs [(0, 0, S)] = S.sort (· ≤ ·) := by
    simp [allMintermIdxs]
  unfold computeProductOfSums
  rw [hidx]
  have hcov : ∀ i ∈ S.sort (· ≤ ·), coveredBySet [(0, 0, S)] i = {0} := by
    intro i hi
    exact coveredBySet_universal ((Finset.mem_sort _).mp hi)
  have hshape := foldl_absorb_universal [(0, 0, S)] (S.sort (· ≤ ·)) [] hcov (Or.inl rfl)
  have hne : (S.sort (· ≤ ·)).foldl (absorbStep [(0, 0, S)]) [] ≠ [] := by
    cases hl : S.sort (· ≤ ·) with
    | nil =>
        exfalso
        obtain ⟨x, hx⟩ := hS
        have : x ∈ S.sort (· ≤ ·) := (Finset.mem_sort _).mpr hx
        rw [hl] at this
        simp at this
    | cons a l =>
        rw [List.foldl_cons]
        exact foldl_absorb_ne_nil _ _ _ (absorbStep_ne_nil _ _ _)
  rcases hshape with hnil | ⟨i0, rest, heq, hrest⟩
  · exact absurd hnil hne
  · rw [heq]
    rw [List.filterMap_cons]
    have hrest2 : rest.filterMap (fun info =>
        if info.absorbed then none
        else some ((info.coveredBy.sort (· ≤ ·)).map (fun i => ({i} : Finset Nat)))) =
        [] := by
      rw [List.filterMap_eq_nil]
      intro info hinfo
      rw [(hrest info hinfo).1]
      rfl
    simp only [hrest2]
    simp [Finset.sort_singleton]

theorem petrick_single_universal {S : Finset Nat} (hS : S.Nonempty) :
    petrickSimplestResults [(0, 0, S)] = .isTrue := by
  unfold petrickSimplestResults
  rw [computeProductOfSums_universal hS]
  have hmo : multiplyOut [[({0} : Finset Nat)]] = [{0}] := rfl
  rw [hmo]
  simp [computeSimplestResults, Finset.sort_singleton, List.getD]

theorem petrick_nil : petrickSimplestResults [] = .isFalse := by
  have h1 : allMintermIdxs [] = [] := by
    simp [allMintermIdxs]
  have h2 : computeProductOfSums [] = [] := by
    unfold computeProductOfSums
    rw [h1]
    rfl
  unfold petrickSimplestResults
  rw [h2]
  rfl

/-- C5 counterexample: with an empty minterm list and don't-cares covering
all of the domain, `_compute_prime_implicants` emits no implicant at all,
not the claimed single universal cube (and `simplify_minterms` returns
False, not True). -/
theorem c5_counterexample :
    (∀ x, x < 2 ^ 1 → x ∈ ([] : List Nat) ∨ x ∈ [0, 1]) ∧
    primeImplicants 1 [] [0, 1] = [] ∧
    (∀ S : Finset Nat, primeImplicants 1 [] [0, 1] ≠ [(0, 0, S)]) ∧
    simplifyMinterms 1 [] [0, 1] = .isFalse := by
  refine ⟨by decide, by rfl, ?_, ?_⟩
  · intro S h
    rw [show primeImplicants 1 [] [0, 1] = [] from rfl] at h
    cases h
  · unfold simplifyMinterms
    rw [show primeImplicants 1 [] [0, 1] = [] from rfl]
    exact petrick_nil

/-- C5 (amended): with an empty minterm list, no prime implicant is
emitted and `simplify_minterms` returns False; when the minterms and
don't-cares together cover all of `[0, 2^N)` and at least one minterm is
listed, the single universal cube with pattern 0 and mask 0 is emitted
and `simplify_minterms` returns True. -/
theorem c5_constants (nv : Nat) (mts dcs : List Nat)
    (hon : ∀ x ∈ mts, x < 2 ^ nv) (hdc : ∀ x ∈ dcs, x < 2 ^ nv) :
    (mts = [] → primeImplicants nv mts dcs = [] ∧
      simplifyMinterms nv mts dcs = .isFalse) ∧
    ((∀ x, x < 2 ^ nv → x ∈ mts ∨ x ∈ dcs) → mts ≠ [] →
      (∃ S : Finset Nat, primeImplicants nv mts dcs = [(0, 0, S)]) ∧
      simplifyMinterms nv mts dcs = .isTrue) := by
  constructor
  · intro hnil
    subst hnil
    have h1 := primeImplicants_nil nv dcs hdc
    refine ⟨h1, ?_⟩
    unfold simplifyMinterms
    rw [h1]
    exact petrick_nil
  · intro hfull hne
    obtain ⟨S, hS, hSne⟩ := primeImplicants_full nv mts dcs hon hdc hfull hne
    refine ⟨⟨S, hS⟩, ?_⟩
    unfold simplifyMinterms
    rw [hS]
    exact petrick_single_universal hSne

theorem c5_constants_witness :
    ((∀ x ∈ [0], x < 2 ^ 1) ∧ (∀ x ∈ [1], x < 2 ^ 1)) ∧
    (([0] : List Nat) = [] → primeImplicants 1 [0] [1] = [] ∧
      simplifyMinterms 1 [0] [1] = .isFalse) ∧
    ((∀ x, x < 2 ^ 1 → x ∈ [0] ∨ x ∈ [1]) → ([0] : List Nat) ≠ [] →
      (∃ S : Finset Nat, primeImplicants 1 [0] [1] = [(0, 0, S)]) ∧
      simplifyMinterms 1 [0] [1] = .isTrue) :=
  ⟨⟨by decide, by decide⟩, c5_constants 1 [0] [1] (by decide) (by decide)⟩

/-! ### Cover evaluation (Petrick chain) -/

def evalCover (cover : List (Nat × Nat)) (x : Nat) : Bool :=
  cover.any (fun pm => x &&& pm.2 == pm.1)

theorem mem_coveredBySet_iff (primes : List PI) (j i : Nat) :
    i ∈ coveredBySet primes j ↔ ∃ pr, primes.get? i = some pr ∧ j ∈ pr.2.2 := by
  unfold coveredBySet
  simp only [List.mem_toFinset, List.mem_map, List.mem_filter]
  constructor
  · rintro ⟨⟨i2, pr⟩, ⟨hmem, hj⟩, rfl⟩
    exact ⟨pr, List.mem_enum_iff_get?.mp hmem, by simpa using hj⟩
  · rintro ⟨pr, hget, hj⟩
    exact ⟨(i, pr), ⟨List.mem_enum_iff_get?.mpr hget, by simpa using hj⟩, rfl⟩

theorem mem_coveredBySet_lt (primes : List PI) (j i : Nat)
    (h : i ∈ coveredBySet primes j) : i < primes.length := by
  obtain ⟨pr, hget, _⟩ := (mem_coveredBySet_iff primes j i).mp h
  exact List.get?_eq_some.mp hget |>.1

/-- Records never change their index or covered set across the
minterm-absorption loop. -/
theorem absorb_fold_shape (primes : List PI) :
    ∀ (l : List Nat) (infos : List MintermInfo),
    (∀ info ∈ infos, info.coveredBy = coveredBySet primes info.idx) →
    ∀ info ∈ l.foldl (absorbStep primes) infos,
      info.coveredBy = coveredBySet primes info.idx := by
  intro l
  induction l with
  | nil =>
      intro infos h info hm
      exact h info hm
  | cons j rest ih =>
      intro infos h info hm
      rw [List.foldl_cons] at hm
      refine ih (absorbStep primes infos j) ?_ info hm
      intro info2 hm2
      unfold absorbStep at hm2
      rw [List.mem_append] at hm2
      rcases hm2 with hm2 | hm2
      · obtain ⟨info0, hm0, heq⟩ := List.mem_map.mp hm2
        have h0 := h info0 hm0
        by_cases h1 : info0.coveredBy ⊆ coveredBySet primes j
        · rw [if_pos h1] at heq
          rw [← heq]
          exact h0
        · rw [if_neg h1] at heq
          by_cases h2 : coveredBySet primes j ⊆ info0.coveredBy
          · rw [if_pos h2] at heq
            rw [← heq]
            exact h0
          · rw [if_neg h2] at heq
            rw [← heq]
            exact h0
      · rw [List.mem_singleton] at hm2
        rw [hm2]

/-- Every record of the absorption list has an unabsorbed record whose
covered set is contained in its own. -/
def AbsorbWit (infos : List MintermInfo) : Prop :=
  ∀ info ∈ infos, ∃ w ∈ infos, w.absorbed = false ∧ w.coveredBy ⊆ info.coveredBy

theorem absorbStep_wit (primes : List PI) (infos : List MintermInfo) (j : Nat)
    (hP : AbsorbWit infos) (T : Finset Nat)
    (hT : (∃ info ∈ infos, info.coveredBy ⊆ T) ∨ coveredBySet primes j ⊆ T) :
    ∃ w ∈ absorbStep primes infos j, w.absorbed = false ∧ w.coveredBy ⊆ T := by
  have hsub : ∀ w ∈ infos, w.coveredBy ⊆ coveredBySet primes j → w.absorbed = false →
      ∃ w2 ∈ absorbStep primes infos j, w2.absorbed = false ∧ w2.coveredBy ⊆ w.coveredBy := by
    intro w hw hwsub hwabs
    refine ⟨⟨w.idx, w.coveredBy, w.absorbed⟩, ?_, hwabs, Finset.Subset.refl _⟩
    unfold absorbStep
    rw [List.mem_append]
    left
    refine List.mem_map.mpr ⟨w, hw, ?_⟩
    rw [if_pos hwsub]
  have hcase2 : coveredBySet primes j ⊆ T →
      ∃ w ∈ absorbStep primes infos j, w.absorbed = false ∧ w.coveredBy ⊆ T := by
    intro hcb
    by_cases hnew : infos.any (fun info => decide (info.coveredBy ⊆ coveredBySet primes j))
    · obtain ⟨info0, hm0, hsub0⟩ := List.any_eq_true.mp hnew
      rw [decide_eq_true_eq] at hsub0
      obtain ⟨w, hw, hwabs, hwsub⟩ := hP info0 hm0
      obtain ⟨w2, hw2, hw2abs, hw2sub⟩ := hsub w hw (hwsub.trans hsub0) hwabs
      exact ⟨w2, hw2, hw2abs, hw2sub.trans (hwsub.trans (hsub0.trans hcb))⟩
    · refine ⟨⟨j, coveredBySet primes j, infos.any
          (fun info => decide (info.coveredBy ⊆ coveredBySet primes j))⟩, ?_, ?_, hcb⟩
      · unfold absorbStep
        rw [List.mem_append]
        right
        simp
      · simpa using hnew
  rcases hT with ⟨info, hinfo, hsubT⟩ | hcb
  · obtain ⟨w, hw, hwabs, hwsub⟩ := hP info hinfo
    by_cases h1 : w.coveredBy ⊆ coveredBySet primes j
    · obtain ⟨w2, hw2, hw2abs, hw2sub⟩ := hsub w hw h1 hwabs
      exact ⟨w2, hw2, hw2abs, hw2sub.trans (hwsub.trans hsubT)⟩
    · by_cases h2 : coveredBySet primes j ⊆ w.coveredBy
      · exact hcase2 (h2.trans (hwsub.trans hsubT))
      · refine ⟨⟨w.idx, w.coveredBy, w.absorbed⟩, ?_, hwabs, hwsub.trans hsubT⟩
        unfold absorbStep
        rw [List.mem_append]
        left
        refine List.mem_map.mpr ⟨w, hw, ?_⟩
        rw [if_neg h1, if_neg h2]
  · exact hcase2 hcb

theorem absorbStep_preserves_wit (primes : List PI) (infos : List MintermInfo) (j : Nat)
    (hP : AbsorbWit infos) : AbsorbWit (absorbStep primes infos j) := by
  intro info hinfo
  unfold absorbStep at hinfo
  rw [List.mem_append] at hinfo
  rcases hinfo with hinfo | hinfo
  · obtain ⟨info0, hm0, heq⟩ := List.mem_map.mp hinfo
    have hcov : info.coveredBy = info0.coveredBy := by
      by_cases h1 : info0.coveredBy ⊆ coveredBySet primes j
      · rw [if_pos h1] at heq
        rw [← heq]
      · rw [if_neg h1] at heq
        by_cases h2 : coveredBySet primes j ⊆ info0.coveredBy
        · rw [if_pos h2] at heq
          rw [← heq]
        · rw [if_neg h2] at heq
          rw [← heq]
    rw [hcov]
    exact absorbStep_wit primes infos j hP _ (Or.inl ⟨info0, hm0, Finset.Subset.refl _⟩)
  · rw [List.mem_singleton] at hinfo
    rw [hinfo]
    exact absorbStep_wit primes infos j hP _ (Or.inr (Finset.Subset.refl _))

theorem absorb_fold_wit_pres (primes : List PI) :
    ∀ (l : List Nat) (infos : List MintermInfo) (T : Finset Nat),
    AbsorbWit infos → (∃ info ∈ infos, info.coveredBy ⊆ T) →
    ∃ w ∈ l.foldl (absorbStep primes) infos, w.absorbed = false ∧ w.coveredBy ⊆ T := by
  intro l
  induction l with
  | nil =>
      intro infos T hP ⟨info, hm, hsub⟩
      obtain ⟨w, hw, hwabs, hwsub⟩ := hP info hm
      exact ⟨w, hw, hwabs, hwsub.trans hsub⟩
  | cons j rest ih =>
      intro infos T hP hex
      rw [List.foldl_cons]
      obtain ⟨w, hw, hwabs, hwsub⟩ := absorbStep_wit primes infos j hP T (Or.inl hex)
      exact ih (absorbStep primes infos j) T
        (absorbStep_preserves_wit primes infos j hP) ⟨w, hw, hwsub⟩

theorem absorb_fold_covers (primes : List PI) :
    ∀ (l : List Nat) (infos : List MintermInfo), AbsorbWit infos → ∀ j ∈ l,
    ∃ w ∈ l.foldl (absorbStep primes) infos,
      w.absorbed = false ∧ w.coveredBy ⊆ coveredBySet primes j := by
  intro l
  induction l with
  | nil =>
      intro infos _ j hj
      simp at hj
  | cons j0 rest ih =>
      intro infos hP j hj
      rw [List.foldl_cons]
      rcases List.mem_cons.mp hj with hj0 | hjr
      · obtain ⟨w, hw, hwabs, hwsub⟩ := absorbStep_wit primes infos j0 hP
          (coveredBySet primes j0) (Or.inr (Finset.Subset.refl _))
        rw [hj0]
        exact absorb_fold_wit_pres primes rest (absorbStep primes infos j0)
          (coveredBySet primes j0) (absorbStep_preserves_wit primes infos j0 hP)
          ⟨w, hw, hwsub⟩
      · exact ih (absorbStep primes infos j0)
          (absorbStep_preserves_wit primes infos j0 hP) j hjr

theorem mem_computeProductOfSums (primes : List PI) (sum : List (Finset Nat))
    (h : sum ∈ computeProductOfSums primes) :
    ∃ w ∈ (allMintermIdxs primes).foldl (absorbStep primes) [],
      w.absorbed = false ∧
      sum = (w.coveredBy.sort (· ≤ ·)).map (fun i => ({i} : Finset Nat)) := by
  unfold computeProductOfSums at h
  obtain ⟨w, hw, heq⟩ := List.mem_filterMap.mp h
  by_cases habs : w.absorbed
  · rw [if_pos habs] at heq
    cases heq
  · rw [if_neg habs] at heq
    refine ⟨w, hw, by simpa using habs, (Option.some.inj heq).symm⟩

theorem computeProductOfSums_sum_of_idx (primes : List PI) (j : Nat)
    (hj : j ∈ allMintermIdxs primes) :
    ∃ sum ∈ computeProductOfSums primes, ∃ cB : Finset Nat,
      cB ⊆ coveredBySet primes j ∧
      sum = (cB.sort (· ≤ ·)).map (fun i => ({i} : Finset Nat)) := by
  obtain ⟨w, hw, hwabs, hwsub⟩ := absorb_fold_covers primes (allMintermIdxs primes) []
    (by intro info hm; simp at hm) j hj
  refine ⟨(w.coveredBy.sort (· ≤ ·)).map (fun i => ({i} : Finset Nat)), ?_,
    w.coveredBy, hwsub, rfl⟩
  unfold computeProductOfSums
  refine List.mem_filterMap.mpr ⟨w, hw, ?_⟩
  rw [if_neg (by rw [hwabs]; exact Bool.false_ne_true)]

theorem simplifyInsert_mem (term : Finset Nat) :
    ∀ (acc : List (Finset Nat)) (t : Finset Nat), t ∈ simplifyInsert term acc →
    t = term ∨ t ∈ acc := by
  intro acc
  induction acc with
  | nil =>
      intro t ht
      simp only [simplifyInsert, List.mem_singleton] at ht
      exact Or.inl ht
  | cons t2 rest ih =>
      intro t ht
      simp only [simplifyInsert] at ht
      by_cases h1 : term ⊆ t2
      · rw [if_pos h1] at ht
        rcases List.mem_cons.mp ht with h | h
        · exact Or.inl h
        · exact Or.inr (List.mem_cons_of_mem _ h)
      · rw [if_neg h1] at ht
        by_cases h2 : t2 ⊆ term
        · rw [if_pos h2] at ht
          rcases List.mem_cons.mp ht with h | h
          · exact Or.inr (by rw [h]; simp)
          · exact Or.inr (List.mem_cons_of_mem _ h)
        · rw [if_neg h2] at ht
          rcases List.mem_cons.mp ht with h | h
          · exact Or.inr (by rw [h]; simp)
          · rcases ih t h with h3 | h3
            · exact Or.inl h3
            · exact Or.inr (List.mem_cons_of_mem _ h3)

theorem simplifySum_mem (l : List (Finset Nat)) (t : Finset Nat)
    (h : t ∈ simplifySum l) : t ∈ l := by
  unfold simplifySum at h
  suffices hgen : ∀ (l2 acc : List (Finset Nat)) (t : Finset Nat),
      t ∈ l2.foldl (fun acc t => simplifyInsert t acc) acc → t ∈ l2 ∨ t ∈ acc by
    rcases hgen l [] t h with h2 | h2
    · exact h2
    · simp at h2
  intro l2
  induction l2 with
  | nil =>
      intro acc t h
      exact Or.inr h
  | cons t0 rest ih =>
      intro acc t h
      rw [List.foldl_cons] at h
      rcases ih (simplifyInsert t0 acc) t h with h2 | h2
      · exact Or.inl (List.mem_cons_of_mem _ h2)
      · rcases simplifyInsert_mem t0 acc t h2 with h3 | h3
        · exact Or.inl (by rw [h3]; simp)
        · exact Or.inr h3

/-- A product of the multiplied-out SOP hits every sum of the POS. -/
def Hits (sums : List (List (Finset Nat))) (p : Finset Nat) : Prop :=
  ∀ sum ∈ sums, ∃ t ∈ sum, t ⊆ p

theorem multiplyOut_fold_hits :
    ∀ (rest : List (List (Finset Nat))) (acc : List (Finset Nat))
      (S : List (List (Finset Nat))), (∀ p ∈ acc, Hits S p) →
    ∀ p ∈ rest.foldl (fun sumterm sum2 =>
        simplifySum (sumterm.flatMap (fun a => sum2.map (fun b => a ∪ b)))) acc,
      Hits (S ++ rest) p := by
  intro rest
  induction rest with
  | nil =>
      intro acc S hacc p hp
      rw [List.append_nil]
      exact hacc p hp
  | cons sum2 rest2 ih =>
      intro acc S hacc p hp
      rw [List.foldl_cons] at hp
      have hstep : ∀ q ∈ simplifySum (acc.flatMap (fun a => sum2.map (fun b => a ∪ b))),
          Hits (S ++ [sum2]) q := by
        intro q hq
        have hq2 := simplifySum_mem _ _ hq
        obtain ⟨a, ha, hq3⟩ := List.mem_flatMap.mp hq2
        obtain ⟨b, hb, hq4⟩ := List.mem_map.mp hq3
        intro sum hsum
        rcases List.mem_append.mp hsum with hs | hs
        · obtain ⟨t, ht, hts⟩ := hacc a ha sum hs
          exact ⟨t, ht, hts.trans (by rw [← hq4]; exact Finset.subset_union_left)⟩
        · rw [List.mem_singleton] at hs
          rw [hs]
          exact ⟨b, hb, by rw [← hq4]; exact Finset.subset_union_right⟩
      have h2 := ih (simplifySum (acc.flatMap (fun a => sum2.map (fun b => a ∪ b))))
        (S ++ [sum2]) hstep p hp
      rw [List.append_assoc] at h2
      simpa using h2

theorem multiplyOut_hits (pos : List (List (Finset Nat))) (p : Finset Nat)
    (hp : p ∈ multiplyOut pos) : Hits pos p := by
  cases pos with
  | nil => simp [multiplyOut] at hp
  | cons s0 rest =>
      have h := multiplyOut_fold_hits rest s0 [s0]
        (fun q hq => fun sum hsum => by
          rw [List.mem_singleton] at hsum
          exact ⟨q, by rw [hsum]; exact hq, Finset.Subset.refl _⟩) p hp
      simpa using h

theorem multiplyOut_fold_bound (P : Nat → Prop) :
    ∀ (rest : List (List (Finset Nat))) (acc : List (Finset Nat)),
    (∀ q ∈ acc, ∀ i ∈ q, P i) → (∀ sum ∈ rest, ∀ q ∈ sum, ∀ i ∈ q, P i) →
    ∀ p ∈ rest.foldl (fun sumterm sum2 =>
        simplifySum (sumterm.flatMap (fun a => sum2.map (fun b => a ∪ b)))) acc,
      ∀ i ∈ p, P i := by
  intro rest
  induction rest with
  | nil =>
      intro acc hacc _ p hp
      exact hacc p hp
  | cons sum2 rest2 ih =>
      intro acc hacc hsums p hp
      rw [List.foldl_cons] at hp
      refine ih _ ?_ (fun sum hs => hsums sum (List.mem_cons_of_mem _ hs)) p hp
      intro q hq i hi
      have hq2 := simplifySum_mem _ _ hq
      obtain ⟨a, ha, hq3⟩ := List.mem_flatMap.mp hq2
      obtain ⟨b, hb, hq4⟩ := List.mem_map.mp hq3
      rw [← hq4] at hi
      rcases Finset.mem_union.mp hi with h | h
      · exact hacc a ha i h
      · exact hsums sum2 (by simp) b hb i h

theorem multiplyOut_bound (P : Nat → Prop) (pos : List (List (Finset Nat)))
    (hsums : ∀ sum ∈ pos, ∀ q ∈ sum, ∀ i ∈ q, P i) (p : Finset Nat)
    (hp : p ∈ multiplyOut pos) : ∀ i ∈ p, P i := by
  cases pos with
  | nil => simp [multiplyOut] at hp
  | cons s0 rest =>
      exact multiplyOut_fold_bound P rest s0 (hsums s0 (by simp))
        (fun sum hs => hsums sum (List.mem_cons_of_mem _ hs)) p hp

theorem mem_allMintermIdxs_of_covered (primes : List PI) (j : Nat) (pr : PI)
    (hpr : pr ∈ primes) (hj : j ∈ pr.2.2) : j ∈ allMintermIdxs primes := by
  unfold allMintermIdxs
  rw [Finset.mem_sort]
  suffices hgen : ∀ (l : List PI) (acc : Finset Nat), pr ∈ l ∨ j ∈ acc →
      j ∈ l.foldl (fun acc p => acc ∪ p.2.2) acc by
    exact hgen primes ∅ (Or.inl hpr)
  intro l
  induction l with
  | nil =>
      intro acc h
      rcases h with h | h
      · simp at h
      · exact h
  | cons p0 rest ih =>
      intro acc h
      rw [List.foldl_cons]
      rcases h with h | h
      · rcases List.mem_cons.mp h with h2 | h2
        · refine ih _ (Or.inr ?_)
          rw [h2] at hj
          exact Finset.mem_union_right _ hj
        · exact ih _ (Or.inl h2)
      · exact ih _ (Or.inr (Finset.mem_union_left _ h))

theorem simplestGeneral_covers_sub (primes : List PI) (sop : List (Finset Nat))
    (covers : List (List (Nat × Nat)))
    (h : simplestGeneral primes sop = .covers covers) :
    ∀ cover ∈ covers, ∃ p ∈ sop, cover = (p.sort (· ≤ ·)).map
      (fun i => ((primes.getD i (0, 0, ∅)).1, (primes.getD i (0, 0, ∅)).2.1)) := by
  intro cover hcov
  unfold simplestGeneral at h
  have hres : cover ∈ sop.filterMap (fun p =>
      if p.card = listMin (sop.map Finset.card) then
        some ((p.sort (· ≤ ·)).map
          (fun i => ((primes.getD i (0, 0, ∅)).1, (primes.getD i (0, 0, ∅)).2.1)))
      else none) := by
    by_cases hlen : (sop.filterMap (fun p =>
        if p.card = listMin (sop.map Finset.card) then
          some ((p.sort (· ≤ ·)).map
            (fun i => ((primes.getD i (0, 0, ∅)).1, (primes.getD i (0, 0, ∅)).2.1)))
        else none)).length > 1
    · rw [if_pos hlen] at h
      have h2 := (SimpResult.covers.injEq _ _).mp h
      rw [← h2] at hcov
      exact List.mem_of_mem_filter hcov
    · rw [if_neg hlen] at h
      have h2 := (SimpResult.covers.injEq _ _).mp h
      rw [← h2] at hcov
      exact hcov
  obtain ⟨p, hp, heq⟩ := List.mem_filterMap.mp hres
  by_cases hc : p.card = listMin (sop.map Finset.card)
  · rw [if_pos hc] at heq
    exact ⟨p, hp, (Option.some.inj heq).symm⟩
  · rw [if_neg hc] at heq
    cases heq

theorem computeSimplestResults_covers_sub (primes : List PI) (sop : List (Finset Nat))
    (covers : List (List (Nat × Nat)))
    (h : computeSimplestResults primes sop = .covers covers) :
    ∀ cover ∈ covers, ∃ p ∈ sop, cover = (p.sort (· ≤ ·)).map
      (fun i => ((primes.getD i (0, 0, ∅)).1, (primes.getD i (0, 0, ∅)).2.1)) := by
  cases sop with
  | nil =>
      simp only [computeSimplestResults] at h
      cases h
  | cons p0 rest =>
      simp only [computeSimplestResults] at h
      by_cases h1 : rest.length = 0 ∧ p0.card = 1
      · rw [if_pos h1] at h
        by_cases h2 : (primes.getD (((p0.sort (· ≤ ·)).headD 0)) (0, 0, ∅)).2.1 = 0
        · rw [if_pos h2] at h
          cases h
        · rw [if_neg h2] at h
          exact simplestGeneral_covers_sub primes (p0 :: rest) covers h
      · rw [if_neg h1] at h
        exact simplestGeneral_covers_sub primes (p0 :: rest) covers h

theorem getD_eq_of_mem_get? {α : Type} (l : List α) (i : Nat) (a d : α)
    (h : l.get? i = some a) : l.getD i d = a := by
  rw [List.getD_eq_getElem?_getD, ← List.get?_eq_getElem?, h]
  rfl

/-- Petrick cover evaluation, from the four invariant facts about the
prime-implicant list: every returned cover is a tautology on the minterms
and zero outside minterms and don't-cares. -/
theorem petrick_cover_eval (nv : Nat) (mts dcs : List Nat) (primes : List PI)
    (hsound : ∀ e ∈ primes, ∀ x, x < 2 ^ nv → x &&& e.2.1 = e.1 → x ∈ mts ∨ x ∈ dcs)
    (hcovS : ∀ e ∈ primes, ∀ i ∈ e.2.2, ∃ x, mts.get? i = some x ∧ x &&& e.2.1 = e.1)
    (hjprop : ∀ e ∈ primes, ∀ x, x ∈ mts → x < 2 ^ nv → x &&& e.2.1 = e.1 →
      ∃ i ∈ e.2.2, mts.get? i = some x)
    (hkcov : ∀ x ∈ mts, x < 2 ^ nv → ∃ e ∈ primes, x &&& e.2.1 = e.1)
    (hon : ∀ x ∈ mts, x < 2 ^ nv)
    (covers : List (List (Nat × Nat)))
    (hres : computeSimplestResults primes
      (multiplyOut (computeProductOfSums primes)) = .covers covers) :
    ∀ cover ∈ covers,
      (∀ x ∈ mts, evalCover cover x = true) ∧
      (∀ x, x < 2 ^ nv → x ∉ mts → x ∉ dcs → evalCover cover x = false) := by
  intro cover hcov
  obtain ⟨p, hp, hcovEq⟩ := computeSimplestResults_covers_sub _ _ _ hres cover hcov
  have hbnd : ∀ i ∈ p, i < primes.length := by
    refine multiplyOut_bound (fun i => i < primes.length) _ ?_ p hp
    intro sum hsum q hq i hi
    obtain ⟨w, hw, hwabs, hsumEq⟩ := mem_computeProductOfSums primes sum hsum
    rw [hsumEq] at hq
    obtain ⟨i2, hi2, rfl⟩ := List.mem_map.mp hq
    rw [Finset.mem_singleton] at hi
    have hshape := absorb_fold_shape primes (allMintermIdxs primes) []
      (by intro info hm; simp at hm) w hw
    have hi2' : i2 ∈ w.coveredBy := (Finset.mem_sort _).mp hi2
    rw [hshape] at hi2'
    rw [hi]
    exact mem_coveredBySet_lt primes w.idx i2 hi2'
  constructor
  · intro x hx
    have hxlt := hon x hx
    obtain ⟨e, he, hxe⟩ := hkcov x hx hxlt
    obtain ⟨i0, hi0S, hi0get⟩ := hjprop e he x hx hxlt hxe
    have hi0all : i0 ∈ allMintermIdxs primes :=
      mem_allMintermIdxs_of_covered primes i0 e he hi0S
    obtain ⟨sum, hsum, cB, hcB, hsumEq⟩ := computeProductOfSums_sum_of_idx primes i0 hi0all
    obtain ⟨t, ht, htp⟩ := multiplyOut_hits _ p hp sum hsum
    rw [hsumEq] at ht
    obtain ⟨i1, hi1, rfl⟩ := List.mem_map.mp ht
    have hi1p : i1 ∈ p := htp (Finset.mem_singleton_self i1)
    have hi1cb : i1 ∈ coveredBySet primes i0 := hcB ((Finset.mem_sort _).mp hi1)
    obtain ⟨pr1, hpr1get, hi0in⟩ := (mem_coveredBySet_iff primes i0 i1).mp hi1cb
    have hpr1mem : pr1 ∈ primes := List.get?_mem hpr1get
    obtain ⟨v, hvget, hvmask⟩ := hcovS pr1 hpr1mem i0 hi0in
    have hvx : v = x := by
      rw [hi0get] at hvget
      exact (Option.some.inj hvget).symm
    rw [hvx] at hvmask
    rw [hcovEq]
    unfold evalCover
    rw [List.any_eq_true]
    refine ⟨(pr1.1, pr1.2.1), ?_, ?_⟩
    · refine List.mem_map.mpr ⟨i1, (Finset.mem_sort _).mpr hi1p, ?_⟩
      rw [getD_eq_of_mem_get? primes i1 pr1 (0, 0, ∅) hpr1get]
    · rw [beq_iff_eq]
      exact hvmask
  · intro x hxlt hxm hxd
    rw [hcovEq]
    unfold evalCover
    rw [List.any_eq_false]
    intro pm hpm
    obtain ⟨i, hiS, rfl⟩ := List.mem_map.mp hpm
    have hip : i ∈ p := (Finset.mem_sort _).mp hiS
    have hilt := hbnd i hip
    obtain ⟨pr, hprget⟩ : ∃ pr, primes.get? i = some pr := by
      rw [List.get?_eq_get hilt]
      exact ⟨_, rfl⟩
    have hprmem := List.get?_mem hprget
    rw [getD_eq_of_mem_get? primes i pr (0, 0, ∅) hprget]
    simp only [beq_eq_false_iff_ne, ne_eq]
    intro heq
    rcases hsound pr hprmem x hxlt (by simpa using heq) with h | h
    · exact hxm h
    · exact hxd h

theorem c1_concrete : simplifyMinterms 2 [1] [] = .covers [[(1, 3)]] := by
  have h0 : primeImplicants 2 [1] [] = [(1, 3, ({0} : Finset Nat))] := by decide
  have hall : allMintermIdxs [(1, 3, ({0} : Finset Nat))] = [0] := by
    unfold allMintermIdxs
    rw [show ([(1, 3, ({0} : Finset Nat))].foldl (fun acc p => acc ∪ p.2.2) ∅) =
      ({0} : Finset Nat) from by decide]
    exact Finset.sort_singleton _ 0
  have hpos : computeProductOfSums [(1, 3, ({0} : Finset Nat))] =
      [[({0} : Finset Nat)]] := by
    simp only [computeProductOfSums, hall]
    rw [show (([0] : List Nat).foldl (absorbStep [(1, 3, ({0} : Finset Nat))]) []) =
      [⟨0, {0}, false⟩] from by decide]
    simp [Finset.sort_singleton]
  have hmo : multiplyOut [[({0} : Finset Nat)]] = [({0} : Finset Nat)] := rfl
  have hcs : computeSimplestResults [(1, 3, ({0} : Finset Nat))] [({0} : Finset Nat)] =
      .covers [[(1, 3)]] := by
    simp [computeSimplestResults, simplestGeneral, Finset.sort_singleton, literalCount,
      listMin, List.getD]
  unfold simplifyMinterms petrickSimplestResults
  rw [h0, hpos, hmo, hcs]


set_option maxRecDepth 8000 in
/-- C1: for every numvars, minterm and dont-care lists within range, whenever
simplify_minterms returns a list of covers, every returned cover - read as the
OR of its (pattern, mask) AND-cubes - evaluates to 1 on every listed minterm
and to 0 on every in-range input that is neither a listed minterm nor a listed
dont-care term. -/
theorem c1_cover_evaluation (nv : Nat) (mts dcs : List Nat) (hnv : 1 ≤ nv)
    (hon : ∀ x ∈ mts, x < 2 ^ nv) (hdc : ∀ x ∈ dcs, x < 2 ^ nv)
    (covers : List (List (Nat × Nat)))
    (hres : simplifyMinterms nv mts dcs = .covers covers) :
    ∀ cover ∈ covers,
      (∀ x ∈ mts, evalCover cover x = true) ∧
      (∀ x, x < 2 ^ nv → x ∉ mts → x ∉ dcs → evalCover cover x = false) := by
  have hinv := primeImplicants_inv nv mts dcs hon hdc
  unfold simplifyMinterms petrickSimplestResults at hres
  refine petrick_cover_eval nv mts dcs (primeImplicants nv mts dcs)
    ?_ ?_ ?_ ?_ hon covers hres
  · intro e he x hxlt heq
    exact ((hinv.emitOk e he).1).sound x hxlt heq
  · intro e he i hi
    exact ((hinv.emitOk e he).1).covS i hi
  · intro e he x hx hxlt heq
    exact ((hinv.emitOk e he).1).jprop x hx hxlt heq
  · intro x hx hxlt
    rcases hinv.kcov x hx hxlt with ⟨e, he, hxe⟩ | ⟨e, he, _⟩
    · exact ⟨e, he, hxe⟩
    · simp at he

theorem c1_cover_evaluation_witness :
    simplifyMinterms 2 [1] [] = .covers [[(1, 3)]] ∧
    evalCover [(1, 3)] 1 = true ∧ evalCover [(1, 3)] 0 = false :=
  ⟨c1_concrete,
   (c1_cover_evaluation 2 [1] [] (by decide) (by decide) (by decide) [[(1, 3)]]
     c1_concrete [(1, 3)] (by simp)).1 1 (by simp),
   (c1_cover_evaluation 2 [1] [] (by decide) (by decide) (by decide) [[(1, 3)]]
     c1_concrete [(1, 3)] (by simp)).2 0 (by decide) (by decide) (by decide)⟩

/-! ### Support lemmas for the optimality claim -/

theorem foldl_min_le_init (l : List Nat) : ∀ a : Nat, l.foldl min a ≤ a := by
  induction l with
  | nil => intro a; exact Nat.le_refl a
  | cons x xs ih =>
      intro a
      rw [List.foldl_cons]
      exact (ih (min a x)).trans (Nat.min_le_left a x)

theorem foldl_min_le_mem (l : List Nat) : ∀ (a x : Nat), x ∈ l → l.foldl min a ≤ x := by
  induction l with
  | nil => intro a x hx; simp at hx
  | cons y ys ih =>
      intro a x hx
      rw [List.foldl_cons]
      rcases List.mem_cons.mp hx with h | h
      · rw [h]
        exact (foldl_min_le_init ys (min a y)).trans (Nat.min_le_right a y)
      · exact ih (min a y) x h

theorem foldl_min_mem (l : List Nat) : ∀ a : Nat, l.foldl min a = a ∨ l.foldl min a ∈ l := by
  induction l with
  | nil => intro a; exact Or.inl rfl
  | cons y ys ih =>
      intro a
      rw [List.foldl_cons]
      rcases ih (min a y) with h | h
      · rcases Nat.le_total a y with hay | hya
        · rw [h, Nat.min_eq_left hay]
          exact Or.inl rfl
        · rw [h, Nat.min_eq_right hya]
          exact Or.inr (List.mem_cons_self _ _)
      · exact Or.inr (List.mem_cons_of_mem _ h)

theorem listMin_le (l : List Nat) (x : Nat) (h : x ∈ l) : listMin l ≤ x := by
  cases l with
  | nil => simp at h
  | cons y ys =>
      rcases List.mem_cons.mp h with h2 | h2
      · rw [h2]
        exact foldl_min_le_init ys y
      · exact foldl_min_le_mem ys y x h2

theorem listMin_mem (l : List Nat) (h : l ≠ []) : listMin l ∈ l := by
  cases l with
  | nil => exact absurd rfl h
  | cons y ys =>
      rcases foldl_min_mem ys y with h2 | h2
      · rw [show listMin (y :: ys) = ys.foldl min y from rfl, h2]
        exact List.mem_cons_self _ _
      · exact List.mem_cons_of_mem _ h2

theorem land_zero (a : Nat) : a &&& 0 = 0 := by
  apply Nat.eq_of_testBit_eq
  intro i
  simp [Nat.testBit_land]

theorem bitCount_zero_eq : bitCount 0 = 0 := by
  rw [bitCount]
  simp

theorem bitCount_ne_zero {n : Nat} (h : n ≠ 0) :
    bitCount n = bitCount (n / 2) + n % 2 := by
  conv_lhs => rw [bitCount]
  rw [if_neg h]

theorem land_self (a : Nat) : a &&& a = a := by
  apply Nat.eq_of_testBit_eq
  intro i
  simp [Nat.testBit_land]

theorem land_div_two (a b : Nat) : (a &&& b) / 2 = (a / 2) &&& (b / 2) := by
  apply Nat.eq_of_testBit_eq
  intro i
  simp [Nat.testBit_div_two, Nat.testBit_land]

theorem land_mod_two_le (a b : Nat) : (a &&& b) % 2 ≤ b % 2 := by
  have ha := Nat.mod_two_eq_zero_or_one (a &&& b)
  have hb := Nat.mod_two_eq_zero_or_one b
  rcases hb with hb | hb
  · have hbt : b.testBit 0 = false := by
      rw [Nat.testBit_zero]
      simp [hb]
    have habt : (a &&& b).testBit 0 = false := by
      rw [Nat.testBit_land, hbt]
      simp
    rw [Nat.testBit_zero] at habt
    simp only [decide_eq_false_iff_not] at habt
    omega
  · omega

theorem bitCount_land_le (b : Nat) : ∀ a, bitCount (a &&& b) ≤ bitCount b := by
  induction b using Nat.strong_induction_on with
  | _ b ih =>
      intro a
      by_cases hb : b = 0
      · rw [hb, land_zero]
      · by_cases hab : a &&& b = 0
        · rw [hab, bitCount_zero_eq]
          exact Nat.zero_le _
        · rw [bitCount_ne_zero hab, bitCount_ne_zero hb]
          have h1 : bitCount ((a &&& b) / 2) ≤ bitCount (b / 2) := by
            rw [land_div_two]
            exact ih (b / 2) (Nat.div_lt_self (Nat.pos_of_ne_zero hb) one_lt_two) (a / 2)
          have h2 := land_mod_two_le a b
          omega

theorem bitCount_subMask_le {a b : Nat} (h : a &&& b = a) : bitCount a ≤ bitCount b := by
  rw [← h]
  exact bitCount_land_le b a

theorem land_low_of_lt {y m nv : Nat} (hy : y < 2 ^ nv) :
    y &&& (m &&& (2 ^ nv - 1)) = y &&& m := by
  apply Nat.eq_of_testBit_eq
  intro i
  simp only [Nat.testBit_land]
  by_cases hi : i < nv
  · rw [Nat.testBit_two_pow_sub_one]
    simp [hi]
  · have hyt : y.testBit i = false := Nat.testBit_lt_two_pow (by
      calc y < 2 ^ nv := hy
        _ ≤ 2 ^ i := Nat.pow_le_pow_right (by omega) (by omega))
    simp [hyt]

theorem simplifyInsert_dominates (term : Finset Nat) :
    ∀ (acc : List (Finset Nat)) (q : Finset Nat), (q = term ∨ q ∈ acc) →
    ∃ qq ∈ simplifyInsert term acc, qq ⊆ q := by
  intro acc
  induction acc with
  | nil =>
      intro q hq
      rcases hq with hq | hq
      · exact ⟨term, by simp [simplifyInsert], by rw [hq]⟩
      · simp at hq
  | cons t2 rest ih =>
      intro q hq
      simp only [simplifyInsert]
      by_cases h1 : term ⊆ t2
      · rw [if_pos h1]
        rcases hq with hq | hq
        · exact ⟨term, List.mem_cons_self _ _, by rw [hq]⟩
        · rcases List.mem_cons.mp hq with hq2 | hq2
          · exact ⟨term, List.mem_cons_self _ _, by rw [hq2]; exact h1⟩
          · exact ⟨q, List.mem_cons_of_mem _ hq2, Finset.Subset.refl q⟩
      · rw [if_neg h1]
        by_cases h2 : t2 ⊆ term
        · rw [if_pos h2]
          rcases hq with hq | hq
          · exact ⟨t2, List.mem_cons_self _ _, by rw [hq]; exact h2⟩
          · rcases List.mem_cons.mp hq with hq2 | hq2
            · exact ⟨t2, List.mem_cons_self _ _, by rw [hq2]⟩
            · exact ⟨q, List.mem_cons_of_mem _ hq2, Finset.Subset.refl q⟩
        · rw [if_neg h2]
          rcases hq with hq | hq
          · obtain ⟨qq, hqq, hsub⟩ := ih q (Or.inl hq)
            exact ⟨qq, List.mem_cons_of_mem _ hqq, hsub⟩
          · rcases List.mem_cons.mp hq with hq2 | hq2
            · exact ⟨t2, List.mem_cons_self _ _, by rw [hq2]⟩
            · obtain ⟨qq, hqq, hsub⟩ := ih q (Or.inr hq2)
              exact ⟨qq, List.mem_cons_of_mem _ hqq, hsub⟩

theorem foldl_simplify_dominates :
    ∀ (l acc : List (Finset Nat)) (q : Finset Nat), (q ∈ l ∨ q ∈ acc) →
    ∃ qq ∈ l.foldl (fun acc t => simplifyInsert t acc) acc, qq ⊆ q := by
  intro l
  induction l with
  | nil =>
      intro acc q hq
      rcases hq with hq | hq
      · simp at hq
      · exact ⟨q, hq, Finset.Subset.refl q⟩
  | cons t0 rest ih =>
      intro acc q hq
      rw [List.foldl_cons]
      rcases hq with hq | hq
      · rcases List.mem_cons.mp hq with hq2 | hq2
        · obtain ⟨qq0, hqq0, hsub0⟩ := simplifyInsert_dominates t0 acc q (Or.inl hq2)
          obtain ⟨qq, hqq, hsub⟩ := ih (simplifyInsert t0 acc) qq0 (Or.inr hqq0)
          exact ⟨qq, hqq, hsub.trans hsub0⟩
        · exact ih (simplifyInsert t0 acc) q (Or.inl hq2)
      · obtain ⟨qq0, hqq0, hsub0⟩ := simplifyInsert_dominates t0 acc q (Or.inr hq)
        obtain ⟨qq, hqq, hsub⟩ := ih (simplifyInsert t0 acc) qq0 (Or.inr hqq0)
        exact ⟨qq, hqq, hsub.trans hsub0⟩

theorem simplifySum_dominates (l : List (Finset Nat)) (q : Finset Nat) (h : q ∈ l) :
    ∃ qq ∈ simplifySum l, qq ⊆ q :=
  foldl_simplify_dominates l [] q (Or.inl h)

theorem multiplyOut_complete_fold (X : Finset Nat) :
    ∀ (rest : List (List (Finset Nat))) (acc : List (Finset Nat)),
    (∃ p ∈ acc, p ⊆ X) → Hits rest X →
    ∃ p ∈ rest.foldl (fun sumterm sum2 =>
        simplifySum (sumterm.flatMap (fun a => sum2.map (fun b => a ∪ b)))) acc,
      p ⊆ X := by
  intro rest
  induction rest with
  | nil =>
      intro acc hacc _
      exact hacc
  | cons sum2 rest2 ih =>
      intro acc hacc hhits
      rw [List.foldl_cons]
      obtain ⟨p, hp, hpX⟩ := hacc
      obtain ⟨t, ht, htX⟩ := hhits sum2 (List.mem_cons_self _ _)
      have hmem : p ∪ t ∈ acc.flatMap (fun a => sum2.map (fun b => a ∪ b)) :=
        List.mem_flatMap.mpr ⟨p, hp, List.mem_map.mpr ⟨t, ht, rfl⟩⟩
      obtain ⟨qq, hqq, hqqsub⟩ := simplifySum_dominates _ _ hmem
      refine ih _ ⟨qq, hqq, hqqsub.trans (Finset.union_subset hpX htX)⟩ ?_
      intro sum hsum
      exact hhits sum (List.mem_cons_of_mem _ hsum)

theorem multiplyOut_complete (pos : List (List (Finset Nat))) (X : Finset Nat)
    (hne : pos ≠ []) (hhits : Hits pos X) :
    ∃ p ∈ multiplyOut pos, p ⊆ X := by
  cases pos with
  | nil => exact absurd rfl hne
  | cons s0 rest =>
      obtain ⟨t, ht, htX⟩ := hhits s0 (List.mem_cons_self _ _)
      exact multiplyOut_complete_fold X rest s0 ⟨t, ht, htX⟩
        (fun sum hsum => hhits sum (List.mem_cons_of_mem _ hsum))

theorem absorb_fold_idx (primes : List PI) (S : Nat → Prop) :
    ∀ (l : List Nat) (infos : List MintermInfo),
    (∀ info ∈ infos, S info.idx) → (∀ j ∈ l, S j) →
    ∀ info ∈ l.foldl (absorbStep primes) infos, S info.idx := by
  intro l
  induction l with
  | nil =>
      intro infos h _ info hm
      exact h info hm
  | cons j rest ih =>
      intro infos h hl info hm
      rw [List.foldl_cons] at hm
      refine ih (absorbStep primes infos j) ?_
        (fun q hq => hl q (List.mem_cons_of_mem _ hq)) info hm
      intro info2 hm2
      unfold absorbStep at hm2
      rw [List.mem_append] at hm2
      rcases hm2 with hm2 | hm2
      · obtain ⟨info0, hm0, heq⟩ := List.mem_map.mp hm2
        have hidx : info2.idx = info0.idx := by
          by_cases h1 : info0.coveredBy ⊆ coveredBySet primes j
          · rw [if_pos h1] at heq
            rw [← heq]
          · rw [if_neg h1] at heq
            by_cases h2 : coveredBySet primes j ⊆ info0.coveredBy
            · rw [if_pos h2] at heq
              rw [← heq]
            · rw [if_neg h2] at heq
              rw [← heq]
        rw [hidx]
        exact h info0 hm0
      · rw [List.mem_singleton] at hm2
        rw [hm2]
        exact hl j (List.mem_cons_self _ _)

theorem mem_allMintermIdxs_rev (primes : List PI) (j : Nat)
    (hj : j ∈ allMintermIdxs primes) : ∃ e ∈ primes, j ∈ e.2.2 := by
  unfold allMintermIdxs at hj
  rw [Finset.mem_sort] at hj
  suffices hgen : ∀ (l : List PI) (acc : Finset Nat),
      j ∈ l.foldl (fun acc p => acc ∪ p.2.2) acc → j ∈ acc ∨ ∃ e ∈ l, j ∈ e.2.2 by
    rcases hgen primes ∅ hj with h | h
    · simp at h
    · exact h
  intro l
  induction l with
  | nil =>
      intro acc h
      exact Or.inl h
  | cons p0 rest ih =>
      intro acc h
      rw [List.foldl_cons] at h
      rcases ih _ h with h2 | h2
      · rcases Finset.mem_union.mp h2 with h3 | h3
        · exact Or.inl h3
        · exact Or.inr ⟨p0, List.mem_cons_self _ _, h3⟩
      · obtain ⟨e, he, hje⟩ := h2
        exact Or.inr ⟨e, List.mem_cons_of_mem _ he, hje⟩

/-- A cover of the function whose on-set is the minterm list and whose
dont-care set is the dont-care list (the comparison side of the
optimality claim, read off the specification wording). -/
def IsCover (nv : Nat) (mts dcs : List Nat) (C : List (Nat × Nat)) : Prop :=
  (∀ x ∈ mts, evalCover C x = true) ∧
  (∀ x, x < 2 ^ nv → x ∉ mts → x ∉ dcs → evalCover C x = false)

theorem map_sum_le {α : Type} (l : List α) (f g : α → Nat)
    (h : ∀ a ∈ l, f a ≤ g a) : (l.map f).sum ≤ (l.map g).sum := by
  induction l with
  | nil => exact Nat.le_refl 0
  | cons a rest ih =>
      simp only [List.map_cons, List.sum_cons]
      have h1 := h a (List.mem_cons_self _ _)
      have h2 := ih (fun b hb => h b (List.mem_cons_of_mem _ hb))
      omega

/-- The minimum-length products kept by the tail of
`_compute_simplest_results`. -/
def qmResults (primes : List PI) (sop : List (Finset Nat)) : List (List (Nat × Nat)) :=
  sop.filterMap (fun p =>
    if p.card = listMin (sop.map Finset.card) then
      some ((p.sort (· ≤ ·)).map
        (fun i => ((primes.getD i (0, 0, ∅)).1, (primes.getD i (0, 0, ∅)).2.1)))
    else none)

theorem simplestGeneral_eq (primes : List PI) (sop : List (Finset Nat)) :
    simplestGeneral primes sop =
      if (qmResults primes sop).length > 1 then
        .covers ((qmResults primes sop).filter
          (fun r => literalCount r = listMin ((qmResults primes sop).map literalCount)))
      else .covers (qmResults primes sop) := rfl

/-- From a cover, a choice of one emitted prime implicant per cube that
engulfs the cube, whose index set hits every sum of the product of sums. -/
theorem cover_primeset (nv : Nat) (mts dcs : List Nat) (primes : List PI)
    (hmtsnd : mts.Nodup) (hon : ∀ x ∈ mts, x < 2 ^ nv)
    (hcovS : ∀ e ∈ primes, ∀ i ∈ e.2.2, ∃ x, mts.get? i = some x ∧ x &&& e.2.1 = e.1)
    (hjprop : ∀ e ∈ primes, ∀ x, x ∈ mts → x < 2 ^ nv → x &&& e.2.1 = e.1 →
      ∃ i ∈ e.2.2, mts.get? i = some x)
    (hemit : ∀ pm : Nat × Nat,
      (∀ y, y < 2 ^ nv → y &&& pm.2 = pm.1 → y ∈ mts ∨ y ∈ dcs) →
      (∃ x, x ∈ mts ∧ x < 2 ^ nv ∧ x &&& pm.2 = pm.1) →
      ∃ i e, primes.get? i = some e ∧
        (∀ y, y < 2 ^ nv → y &&& pm.2 = pm.1 → y &&& e.2.1 = e.1) ∧
        bitCount e.2.1 ≤ bitCount pm.2)
    (C : List (Nat × Nat)) (hC : IsCover nv mts dcs C) :
    ∃ f : Nat × Nat → Nat,
      (∀ pm ∈ C, (∃ x, x ∈ mts ∧ x < 2 ^ nv ∧ x &&& pm.2 = pm.1) →
        ∃ e, primes.get? (f pm) = some e ∧
          (∀ y, y < 2 ^ nv → y &&& pm.2 = pm.1 → y &&& e.2.1 = e.1) ∧
          bitCount e.2.1 ≤ bitCount pm.2) ∧
      Hits (computeProductOfSums primes) ((C.map f).toFinset) := by
  have hchoice : ∀ pm : Nat × Nat, ∃ i,
      pm ∈ C → (∃ x, x ∈ mts ∧ x < 2 ^ nv ∧ x &&& pm.2 = pm.1) →
      ∃ e, primes.get? i = some e ∧
        (∀ y, y < 2 ^ nv → y &&& pm.2 = pm.1 → y &&& e.2.1 = e.1) ∧
        bitCount e.2.1 ≤ bitCount pm.2 := by
    intro pm
    by_cases hin : pm ∈ C ∧ ∃ x, x ∈ mts ∧ x < 2 ^ nv ∧ x &&& pm.2 = pm.1
    · have hsnd : ∀ y, y < 2 ^ nv → y &&& pm.2 = pm.1 → y ∈ mts ∨ y ∈ dcs := by
        intro y hy hmatch
        by_contra hcon
        push_neg at hcon
        have h0 := hC.2 y hy hcon.1 hcon.2
        unfold evalCover at h0
        rw [List.any_eq_false] at h0
        have h2 := h0 pm hin.1
        exact h2 (by simp [hmatch])
      obtain ⟨i, e, hie, hcont, hbc⟩ := hemit pm hsnd hin.2
      exact ⟨i, fun _ _ => ⟨e, hie, hcont, hbc⟩⟩
    · exact ⟨0, fun hinC hx => absurd ⟨hinC, hx⟩ hin⟩
  choose f hf using hchoice
  refine ⟨f, fun pm hpm hx => hf pm hpm hx, ?_⟩
  have hXcov : ∀ x, x ∈ mts → ∃ i ∈ (C.map f).toFinset, ∃ e,
      primes.get? i = some e ∧ x &&& e.2.1 = e.1 := by
    intro x hx
    have hxlt := hon x hx
    have h1 := hC.1 x hx
    unfold evalCover at h1
    rw [List.any_eq_true] at h1
    obtain ⟨pm, hpmC, hmatch⟩ := h1
    rw [beq_iff_eq] at hmatch
    obtain ⟨e, hie, hcont, _⟩ := hf pm hpmC ⟨x, hx, hxlt, hmatch⟩
    exact ⟨f pm, List.mem_toFinset.mpr (List.mem_map.mpr ⟨pm, hpmC, rfl⟩), e, hie,
      hcont x hxlt hmatch⟩
  intro sum hsum
  obtain ⟨w, hw, hwabs, hsumEq⟩ := mem_computeProductOfSums primes sum hsum
  have hshape := absorb_fold_shape primes (allMintermIdxs primes) []
    (by intro a ha; simp at ha) w hw
  have hidxmem : w.idx ∈ allMintermIdxs primes :=
    absorb_fold_idx primes (fun j => j ∈ allMintermIdxs primes) (allMintermIdxs primes)
      [] (by intro a ha; simp at ha) (fun j hj => hj) w hw
  obtain ⟨e0, he0, hje0⟩ := mem_allMintermIdxs_rev primes w.idx hidxmem
  obtain ⟨v, hvget, hvmask⟩ := hcovS e0 he0 w.idx hje0
  have hvmem : v ∈ mts := List.get?_mem hvget
  obtain ⟨i, hiX, e, hie, hvmatch⟩ := hXcov v hvmem
  have hemem : e ∈ primes := List.get?_mem hie
  obtain ⟨idx2, hidx2S, hidx2get⟩ := hjprop e hemem v hvmem (hon v hvmem) hvmatch
  have hidx2lt : idx2 < mts.length := (List.get?_eq_some.mp hidx2get).1
  have hidx2eq : idx2 = w.idx := by
    apply List.get?_inj hidx2lt hmtsnd
    rw [hidx2get, hvget]
  rw [hidx2eq] at hidx2S
  have hicb : i ∈ coveredBySet primes w.idx :=
    (mem_coveredBySet_iff primes w.idx i).mpr ⟨e, hie, hidx2S⟩
  rw [← hshape] at hicb
  refine ⟨{i}, ?_, ?_⟩
  · rw [hsumEq]
    exact List.mem_map.mpr ⟨i, (Finset.mem_sort _).mpr hicb, rfl⟩
  · rw [Finset.singleton_subset_iff]
    exact hiX

/-- The optimality core: the covers returned by Petrick simplest results
all have the same length, equal to the minimum length of ANY cover, and
the same literal count, equal to the minimum among covers of minimum
length. -/
theorem petrick_optimal (nv : Nat) (mts dcs : List Nat) (primes : List PI)
    (hmtsnd : mts.Nodup) (hon : ∀ x ∈ mts, x < 2 ^ nv)
    (hsound : ∀ e ∈ primes, ∀ x, x < 2 ^ nv → x &&& e.2.1 = e.1 → x ∈ mts ∨ x ∈ dcs)
    (hcovS : ∀ e ∈ primes, ∀ i ∈ e.2.2, ∃ x, mts.get? i = some x ∧ x &&& e.2.1 = e.1)
    (hjprop : ∀ e ∈ primes, ∀ x, x ∈ mts → x < 2 ^ nv → x &&& e.2.1 = e.1 →
      ∃ i ∈ e.2.2, mts.get? i = some x)
    (hkcov : ∀ x ∈ mts, x < 2 ^ nv → ∃ e ∈ primes, x &&& e.2.1 = e.1)
    (hemit : ∀ pm : Nat × Nat,
      (∀ y, y < 2 ^ nv → y &&& pm.2 = pm.1 → y ∈ mts ∨ y ∈ dcs) →
      (∃ x, x ∈ mts ∧ x < 2 ^ nv ∧ x &&& pm.2 = pm.1) →
      ∃ i e, primes.get? i = some e ∧
        (∀ y, y < 2 ^ nv → y &&& pm.2 = pm.1 → y &&& e.2.1 = e.1) ∧
        bitCount e.2.1 ≤ bitCount pm.2)
    (covers : List (List (Nat × Nat)))
    (hres : computeSimplestResults primes
      (multiplyOut (computeProductOfSums primes)) = .covers covers) :
    ∃ n lit, covers ≠ [] ∧
      (∀ cover ∈ covers, cover.length = n ∧ literalCount cover = lit ∧
        IsCover nv mts dcs cover) ∧
      (∀ C, IsCover nv mts dcs C → n ≤ C.length) ∧
      (∀ C, IsCover nv mts dcs C → C.length = n → lit ≤ literalCount C) := by
  have hres0 := hres
  obtain ⟨pos, hpos⟩ : ∃ pos, computeProductOfSums primes = pos := ⟨_, rfl⟩
  obtain ⟨sop, hsop⟩ : ∃ sop, multiplyOut pos = sop := ⟨_, rfl⟩
  rw [hpos, hsop] at hres
  obtain ⟨results, hresults⟩ : ∃ r, qmResults primes sop = r := ⟨_, rfl⟩
  obtain ⟨minlen, hminlen⟩ : ∃ m, listMin (sop.map Finset.card) = m := ⟨_, rfl⟩
  obtain ⟨minlit, hminlit⟩ : ∃ m, listMin (results.map literalCount) = m := ⟨_, rfl⟩
  have hsopne : sop ≠ [] := by
    intro h
    rw [h] at hres
    simp only [computeSimplestResults] at hres
    cases hres
  have hg : simplestGeneral primes sop = .covers covers := by
    cases hsopeq : sop with
    | nil => exact absurd hsopeq hsopne
    | cons p0 rest =>
        rw [hsopeq] at hres
        simp only [computeSimplestResults] at hres
        by_cases h1 : rest.length = 0 ∧ p0.card = 1
        · rw [if_pos h1] at hres
          by_cases h2 : (primes.getD ((p0.sort (· ≤ ·)).headD 0) (0, 0, ∅)).2.1 = 0
          · rw [if_pos h2] at hres
            cases hres
          · rw [if_neg h2] at hres
            exact hres
        · rw [if_neg h1] at hres
          exact hres
  have hcovers : covers = (if results.length > 1 then
      results.filter (fun r => literalCount r = minlit) else results) := by
    rw [simplestGeneral_eq] at hg
    rw [hresults] at hg
    rw [hminlit] at hg
    by_cases hlen : results.length > 1
    · rw [if_pos hlen] at hg ⊢
      exact ((SimpResult.covers.injEq _ _).mp hg).symm
    · rw [if_neg hlen] at hg ⊢
      exact ((SimpResult.covers.injEq _ _).mp hg).symm
  have hres_mem : ∀ r ∈ results, ∃ p ∈ sop, p.card = minlen ∧
      r = (p.sort (· ≤ ·)).map
        (fun i => ((primes.getD i (0, 0, ∅)).1, (primes.getD i (0, 0, ∅)).2.1)) := by
    intro r hr
    rw [← hresults] at hr
    unfold qmResults at hr
    obtain ⟨p, hp, heq⟩ := List.mem_filterMap.mp hr
    by_cases hc : p.card = listMin (sop.map Finset.card)
    · rw [if_pos hc] at heq
      exact ⟨p, hp, by rw [← hminlen]; exact hc, (Option.some.inj heq).symm⟩
    · rw [if_neg hc] at heq
      cases heq
  have hmem_res : ∀ p ∈ sop, p.card = minlen →
      ((p.sort (· ≤ ·)).map
        (fun i => ((primes.getD i (0, 0, ∅)).1, (primes.getD i (0, 0, ∅)).2.1)))
        ∈ results := by
    intro p hp hc
    rw [← hresults]
    unfold qmResults
    refine List.mem_filterMap.mpr ⟨p, hp, ?_⟩
    rw [if_pos (by rw [hminlen]; exact hc)]
  have hresne : results ≠ [] := by
    have h1 : minlen ∈ sop.map Finset.card := by
      rw [← hminlen]
      exact listMin_mem _ (by intro h; exact hsopne (by simpa using h))
    obtain ⟨p, hp, hpc⟩ := List.mem_map.mp h1
    have h2 := hmem_res p hp hpc
    intro h
    rw [h] at h2
    simp at h2
  have hcov_sub : ∀ r ∈ covers, r ∈ results := by
    intro r hr
    rw [hcovers] at hr
    by_cases hlen : results.length > 1
    · rw [if_pos hlen] at hr
      exact List.mem_of_mem_filter hr
    · rw [if_neg hlen] at hr
      exact hr
  have hcovne : covers ≠ [] := by
    rw [hcovers]
    by_cases hlen : results.length > 1
    · rw [if_pos hlen]
      have h1 : minlit ∈ results.map literalCount := by
        rw [← hminlit]
        exact listMin_mem _ (by intro h; exact hresne (by simpa using h))
      obtain ⟨r, hr, hrl⟩ := List.mem_map.mp h1
      intro h
      have h2 : r ∈ results.filter (fun r => literalCount r = minlit) :=
        List.mem_filter.mpr ⟨hr, by simp [hrl]⟩
      rw [h] at h2
      simp at h2
    · rw [if_neg hlen]
      exact hresne
  have hsamelit : ∀ r ∈ covers, literalCount r = minlit := by
    intro r hr
    rw [hcovers] at hr
    by_cases hlen : results.length > 1
    · rw [if_pos hlen] at hr
      have h2 := (List.mem_filter.mp hr).2
      simpa using h2
    · rw [if_neg hlen] at hr
      cases hreseq : results with
      | nil =>
          rw [hreseq] at hr
          simp at hr
      | cons a tl =>
          have htl : tl = [] := by
            rw [hreseq] at hlen
            simp only [List.length_cons, gt_iff_lt, not_lt] at hlen
            exact List.eq_nil_of_length_eq_zero (by omega)
          rw [hreseq, htl] at hr
          rw [List.mem_singleton] at hr
          rw [← hminlit, hreseq, htl, hr]
          rfl
  have hallcov : ∀ r ∈ covers, IsCover nv mts dcs r := by
    intro r hr
    have h := petrick_cover_eval nv mts dcs primes hsound hcovS hjprop hkcov hon
      covers hres0 r hr
    exact ⟨h.1, h.2⟩
  have hlencov : ∀ r ∈ covers, r.length = minlen := by
    intro r hr
    obtain ⟨p, hp, hpc, heq⟩ := hres_mem r (hcov_sub r hr)
    rw [heq, List.length_map, Finset.length_sort]
    exact hpc
  have hposne : pos ≠ [] := by
    intro h
    apply hsopne
    rw [← hsop, h]
    rfl
  have hlow : ∀ C, IsCover nv mts dcs C → minlen ≤ C.length := by
    intro C hC
    obtain ⟨f, hfp, hhits⟩ := cover_primeset nv mts dcs primes hmtsnd hon hcovS
      hjprop hemit C hC
    rw [hpos] at hhits
    obtain ⟨p, hp, hpX⟩ := multiplyOut_complete pos _ hposne hhits
    rw [hsop] at hp
    have h1 : minlen ≤ p.card := by
      rw [← hminlen]
      exact listMin_le _ _ (List.mem_map.mpr ⟨p, hp, rfl⟩)
    have h2 : p.card ≤ ((C.map f).toFinset).card := Finset.card_le_card hpX
    have h3 : ((C.map f).toFinset).card ≤ (C.map f).length := List.toFinset_card_le _
    have h4 : (C.map f).length = C.length := List.length_map _ _
    omega
  have hlit : ∀ C, IsCover nv mts dcs C → C.length = minlen → minlit ≤ literalCount C := by
    intro C hC hClen
    have hallmatch : ∀ pm ∈ C, ∃ x, x ∈ mts ∧ x < 2 ^ nv ∧ x &&& pm.2 = pm.1 := by
      intro pm hpm
      by_contra hcon
      push_neg at hcon
      have hCer : IsCover nv mts dcs (C.erase pm) := by
        constructor
        · intro x hx
          have h1 := hC.1 x hx
          unfold evalCover at h1 ⊢
          rw [List.any_eq_true] at h1 ⊢
          obtain ⟨pm2, hpm2, hm2⟩ := h1
          have hne : pm2 ≠ pm := by
            intro heq
            rw [beq_iff_eq] at hm2
            rw [heq] at hm2
            exact hcon x hx (hon x hx) hm2
          exact ⟨pm2, (List.mem_erase_of_ne hne).mpr hpm2, hm2⟩
        · intro x hxlt hxm hxd
          have h1 := hC.2 x hxlt hxm hxd
          unfold evalCover at h1 ⊢
          rw [List.any_eq_false] at h1 ⊢
          intro pm2 hpm2
          exact h1 pm2 (List.mem_of_mem_erase hpm2)
      have h2 := hlow (C.erase pm) hCer
      have h3 : (C.erase pm).length = C.length - 1 := List.length_erase_of_mem hpm
      have h4 : 0 < C.length := List.length_pos.mpr (List.ne_nil_of_mem hpm)
      omega
    obtain ⟨f, hfp, hhits⟩ := cover_primeset nv mts dcs primes hmtsnd hon hcovS
      hjprop hemit C hC
    rw [hpos] at hhits
    obtain ⟨p, hp, hpX⟩ := multiplyOut_complete pos _ hposne hhits
    rw [hsop] at hp
    have h1 : minlen ≤ p.card := by
      rw [← hminlen]
      exact listMin_le _ _ (List.mem_map.mpr ⟨p, hp, rfl⟩)
    have h2 : p.card ≤ ((C.map f).toFinset).card := Finset.card_le_card hpX
    have h3 : ((C.map f).toFinset).card ≤ (C.map f).length := List.toFinset_card_le _
    have h4 : (C.map f).length = C.length := List.length_map _ _
    have hXcard : ((C.map f).toFinset).card = (C.map f).length := by omega
    have hpcard : p.card = minlen := by omega
    have hXp : p = (C.map f).toFinset :=
      Finset.eq_of_subset_of_card_le hpX (by omega)
    have hnodup : (C.map f).Nodup := by
      rw [List.card_toFinset] at hXcard
      have hdd : (C.map f).dedup = C.map f :=
        List.Sublist.eq_of_length (List.dedup_sublist _) hXcard
      rw [← hdd]
      exact List.nodup_dedup _
    have hperm : List.Perm (((C.map f).toFinset).sort (· ≤ ·)) (C.map f) :=
      (Finset.sort_perm_toList _ _).trans (List.toFinset_toList hnodup)
    have hextmem := hmem_res p hp hpcard
    have h5 : minlit ≤ literalCount ((p.sort (· ≤ ·)).map
        (fun i => ((primes.getD i (0, 0, ∅)).1, (primes.getD i (0, 0, ∅)).2.1))) := by
      rw [← hminlit]
      exact listMin_le _ _ (List.mem_map.mpr ⟨_, hextmem, rfl⟩)
    refine h5.trans ?_
    have e1 : literalCount ((p.sort (· ≤ ·)).map
        (fun i => ((primes.getD i (0, 0, ∅)).1, (primes.getD i (0, 0, ∅)).2.1))) =
        ((p.sort (· ≤ ·)).map
          (fun i => bitCount ((primes.getD i (0, 0, ∅)).2.1))).sum := by
      unfold literalCount
      rw [List.map_map]
      rfl
    have e2 : ((p.sort (· ≤ ·)).map
          (fun i => bitCount ((primes.getD i (0, 0, ∅)).2.1))).sum =
        ((C.map f).map (fun i => bitCount ((primes.getD i (0, 0, ∅)).2.1))).sum := by
      apply List.Perm.sum_eq
      apply List.Perm.map
      rw [hXp]
      exact hperm
    rw [e1, e2, List.map_map]
    unfold literalCount
    apply map_sum_le
    intro pm hpm
    obtain ⟨e, hie, _, hbc⟩ := hfp pm hpm (hallmatch pm hpm)
    simp only [Function.comp]
    rw [getD_eq_of_mem_get? primes (f pm) e (0, 0, ∅) hie]
    exact hbc
  exact ⟨minlen, minlit, hcovne,
    fun r hr => ⟨hlencov r hr, hsamelit r hr, hallcov r hr⟩, hlow, hlit⟩


/-- Every good cube extends (by clearing mask bits) to a maximal good
cube whose points include all of the original points. -/
theorem exists_maximal_supercube {nv : Nat} {mts dcs : List Nat} :
    ∀ (lvl pat mask : Nat), maskLevel nv mask = lvl →
    mask &&& (2 ^ nv - 1) = mask → GoodCube nv mts dcs pat mask →
    ∃ pat2 mask2, GoodCube nv mts dcs pat2 mask2 ∧
      MaximalCube nv mts dcs pat2 mask2 ∧
      mask2 &&& (2 ^ nv - 1) = mask2 ∧ mask2 &&& mask = mask2 ∧
      (∀ y, y &&& mask = pat → y &&& mask2 = pat2) := by
  intro lvl
  induction lvl using Nat.strong_induction_on with
  | _ lvl ih =>
      intro pat mask hlvl hsub hgood
      by_cases hmax : MaximalCube nv mts dcs pat mask
      · exact ⟨pat, mask, hgood, hmax, hsub, land_self mask, fun y hy => hy⟩
      · unfold MaximalCube at hmax
        push_neg at hmax
        obtain ⟨j, hjnv, hjb, hchild⟩ := hmax
        have hsub2 : (mask ^^^ (1 <<< j)) &&& (2 ^ nv - 1) = mask ^^^ (1 <<< j) :=
          subMask_trans (xor_bit_subMask hjb) hsub
        have hlvl2 : maskLevel nv (mask ^^^ (1 <<< j)) < lvl := by
          have := maskLevel_xor_bit hjnv hjb
          omega
        obtain ⟨pat2, mask2, hg2, hm2, hs2, hsm2, hcont2⟩ :=
          ih _ hlvl2 (pat &&& (mask ^^^ (1 <<< j))) (mask ^^^ (1 <<< j)) rfl hsub2 hchild
        refine ⟨pat2, mask2, hg2, hm2, hs2,
          subMask_trans hsm2 (xor_bit_subMask hjb), ?_⟩
        intro y hy
        apply hcont2
        exact parent_point_child hjb (Or.inl hy)

/-- Every sound cube of a cover that contains a minterm is engulfed by an
emitted prime implicant with no more literals. -/
theorem cube_engulfed (nv : Nat) (mts dcs : List Nat)
    (hon : ∀ x ∈ mts, x < 2 ^ nv) (hdc : ∀ x ∈ dcs, x < 2 ^ nv)
    (pm : Nat × Nat)
    (hsnd : ∀ y, y < 2 ^ nv → y &&& pm.2 = pm.1 → y ∈ mts ∨ y ∈ dcs)
    (hx : ∃ x, x ∈ mts ∧ x < 2 ^ nv ∧ x &&& pm.2 = pm.1) :
    ∃ i e, (primeImplicants nv mts dcs).get? i = some e ∧
      (∀ y, y < 2 ^ nv → y &&& pm.2 = pm.1 → y &&& e.2.1 = e.1) ∧
      bitCount e.2.1 ≤ bitCount pm.2 := by
  obtain ⟨x0, hx0m, hx0lt, hx0match⟩ := hx
  have hlow : ∀ y, y < 2 ^ nv → y &&& (pm.2 &&& (2 ^ nv - 1)) = y &&& pm.2 :=
    fun y hy => land_low_of_lt hy
  have hx0low : x0 &&& (pm.2 &&& (2 ^ nv - 1)) = pm.1 := by
    rw [hlow x0 hx0lt]
    exact hx0match
  have hgood : GoodCube nv mts dcs pm.1 (pm.2 &&& (2 ^ nv - 1)) := by
    constructor
    · rw [← hx0low, Nat.land_assoc, land_self]
    · intro y hy hymatch
      apply hsnd y hy
      rw [← hlow y hy]
      exact hymatch
  have hsubfull : (pm.2 &&& (2 ^ nv - 1)) &&& (2 ^ nv - 1) = pm.2 &&& (2 ^ nv - 1) := by
    rw [Nat.land_assoc, land_self]
  obtain ⟨pat2, mask2, hg2, hm2, hs2, hsm2, hcont2⟩ :=
    exists_maximal_supercube (maskLevel nv (pm.2 &&& (2 ^ nv - 1))) pm.1
      (pm.2 &&& (2 ^ nv - 1)) rfl hsubfull hgood
  have hmp : HasMintermPoint nv mts pat2 mask2 :=
    ⟨x0, hx0m, hx0lt, hcont2 x0 hx0low⟩
  have hinv := primeImplicants_inv nv mts dcs hon hdc
  rcases hinv.coverage pat2 mask2 hs2 hg2 with ⟨mask3, _, hmem⟩ | hemitted
  · simp [pendingMasks] at hmem
  · obtain ⟨S, hS⟩ := hemitted hm2 hmp
    obtain ⟨i, hi⟩ := List.mem_iff_get?.mp hS
    refine ⟨i, (pat2, mask2, S), hi, ?_, ?_⟩
    · intro y hy hymatch
      apply hcont2
      rw [hlow y hy]
      exact hymatch
    · calc bitCount mask2 ≤ bitCount (pm.2 &&& (2 ^ nv - 1)) := bitCount_subMask_le hsm2
        _ ≤ bitCount pm.2 := by
            rw [Nat.land_comm]
            exact bitCount_land_le pm.2 (2 ^ nv - 1)

/-- C4: whenever simplify_minterms returns a list of covers over distinct
minterm and dont-care lists, all returned covers have the same number of
products, equal to the minimum product count over ALL covers of the
function (hence in particular over the irredundant ones, every minimum
cover being irredundant); and all returned covers have the same total
literal count (sum of popcounts of the masks), equal to the minimum
literal count among covers of that minimum product count. -/
theorem c4_optimality (nv : Nat) (mts dcs : List Nat) (hnv : 1 ≤ nv)
    (hmtsnd : mts.Nodup) (hdcsnd : dcs.Nodup)
    (hon : ∀ x ∈ mts, x < 2 ^ nv) (hdc : ∀ x ∈ dcs, x < 2 ^ nv)
    (covers : List (List (Nat × Nat)))
    (hres : simplifyMinterms nv mts dcs = .covers covers) :
    ∃ n lit, covers ≠ [] ∧
      (∀ cover ∈ covers, cover.length = n ∧ literalCount cover = lit ∧
        IsCover nv mts dcs cover) ∧
      (∀ C, IsCover nv mts dcs C → n ≤ C.length) ∧
      (∀ C, IsCover nv mts dcs C → C.length = n → lit ≤ literalCount C) := by
  have hinv := primeImplicants_inv nv mts dcs hon hdc
  unfold simplifyMinterms petrickSimplestResults at hres
  refine petrick_optimal nv mts dcs (primeImplicants nv mts dcs) hmtsnd hon
    ?_ ?_ ?_ ?_ ?_ covers hres
  · intro e he x hxlt heq
    exact ((hinv.emitOk e he).1).sound x hxlt heq
  · intro e he i hi
    exact ((hinv.emitOk e he).1).covS i hi
  · intro e he x hx hxlt heq
    exact ((hinv.emitOk e he).1).jprop x hx hxlt heq
  · intro x hx hxlt
    rcases hinv.kcov x hx hxlt with ⟨e, he, hxe⟩ | ⟨e, he, _⟩
    · exact ⟨e, he, hxe⟩
    · simp at he
  · intro pm hsnd hx
    exact cube_engulfed nv mts dcs hon hdc pm hsnd hx

theorem c4_optimality_witness :
    ∃ n lit, ([[(1, 3)]] : List (List (Nat × Nat))) ≠ [] ∧
      (∀ cover ∈ [[(1, 3)]], cover.length = n ∧ literalCount cover = lit ∧
        IsCover 2 [1] [] cover) ∧
      (∀ C, IsCover 2 [1] [] C → n ≤ C.length) ∧
      (∀ C, IsCover 2 [1] [] C → C.length = n → lit ≤ literalCount C) :=
  c4_optimality 2 [1] [] (by decide) (by decide) (by decide) (by decide) (by decide)
    [[(1, 3)]] c1_concrete

end PalRvs

